import Mathlib

/-! Verification of the HBM memory front-end (`simulator/ramulator/HBM_Memory.h`).

A shallow embedding of `Memory<HBM, Controller>`: the address mapper in
`send`, the dispatcher counters, the PIM hop-latency estimator, the page
allocator, the constructor, `tick` and the classification of `finish`,
followed by theorems about them.

Conventions of the embedding.
* C++ `long` values are `Int`; the code only applies `&`, `|`, `>>` and `<<`
  to them, so no 64-bit wrap is needed. C++ `int` results are wrapped to
  32 bits with `wrapInt32` wherever the source computes in `int`.
* `std::vector` is `List`, `std::map` is an association list with unique
  keys (`mapFind`, `mapSet`).
* Statistics counters (`ScalarStat`, `VectorStat`) are natural numbers.
* An aborted run (failed `assert`, division by zero) is `none`.
* The answers of the channel controllers and the values drawn by `lrand()`
  are inputs of the model.
-/

namespace Ramulator

/-! ## Machine integers -/

/-- Two's complement wrap of an integer into the range of a C++ `int`. -/
def wrapInt32 (x : Int) : Int := (x + 2 ^ 31) % 2 ^ 32 - 2 ^ 31

/-- The C++ expression `x << n` on `int` operands. -/
def shl32 (x : Int) (n : Int) : Int := wrapInt32 (x * 2 ^ n.toNat)

/-- The C++ expression `x << n` on a `long` operand (no wrap is modelled). -/
def shl64 (x : Int) (n : Nat) : Int := x * 2 ^ n

/-! ## Levels, schemes, requests -/

/-- Modelled from the spec: `HBM.h` is not among the sources. The hierarchy
is Channel, Rank, BankGroup, Bank, Row, Column, and `MAX` counts the levels. -/
inductive Level where
  | Channel | Rank | BankGroup | Bank | Row | Column | MAX
  deriving DecidableEq, Repr

/-- The C++ cast `int(HBM::Level::l)`. -/
def Level.toNat : Level → Nat
  | .Channel => 0
  | .Rank => 1
  | .BankGroup => 2
  | .Bank => 3
  | .Row => 4
  | .Column => 5
  | .MAX => 6

/-- The interleaving scheme, `enum class Type`. -/
inductive MapType where
  | ChRaBaRoCo | RoBaRaCoCh | MAX
  deriving DecidableEq, Repr

/-- The translation policy, `enum class Translation`. -/
inductive Translation where
  | None | Random | MAX
  deriving DecidableEq, Repr

/-- Modelled from the spec: `Request.h` is not among the sources. Only the
kinds `READ` and `WRITE` are told apart by the dispatcher. -/
inductive ReqType where
  | READ | WRITE | OTHER
  deriving DecidableEq, Repr

/-- Modelled from the spec: the fields of `Request` that `send` uses. -/
structure Request where
  addr : Int
  coreid : Int
  childid : Int
  type : ReqType
  addr_vec : List Int
  burst_count : Int
  hops : Int
  deriving DecidableEq, Repr

/-! ## Containers -/

/-- The call `v.resize(n)` on a `vector<int>`: truncate, or pad with zeros. -/
def resize (v : List Int) (n : Nat) : List Int := (v ++ List.replicate n 0).take n

/-- The lookup `m.find(k)` of a `std::map`. -/
def mapFind {κ ν : Type} [DecidableEq κ] : List (κ × ν) → κ → Option ν
  | [], _ => none
  | (k1, v1) :: t, k => if k1 = k then some v1 else mapFind t k

/-- The assignment `m[k] = v` of a `std::map`. -/
def mapSet {κ ν : Type} [DecidableEq κ] : List (κ × ν) → κ → ν → List (κ × ν)
  | [], k, v => [(k, v)]
  | (k1, v1) :: t, k, v => if k1 = k then (k, v) :: t else (k1, v1) :: mapSet t k v

/-- The statement `++v[i]` on a `VectorStat`; an index outside the vector
(undefined in C++) leaves it unchanged. -/
def incrAt (v : List Nat) (i : Int) : List Nat :=
  if 0 ≤ i then v.modify (· + 1) i.toNat else v

/-! ## The memory object -/

/-- The fields of `Memory<HBM, Controller>` that the modelled methods use. -/
structure Memory where
  type : MapType
  translation : Translation
  addr_bits : List Int
  tx_bits : Int
  cacheline_size : Int
  pim_mode_enabled : Bool
  num_dram_cycles : Nat
  num_incoming_requests : Nat
  num_read_requests : List Nat
  num_write_requests : List Nat
  ramulator_active_cycles : Nat
  memory_footprint : Nat
  incoming_requests_per_channel : List Nat
  incoming_read_reqs_per_channel : List Nat
  physical_page_replacement : Nat
  read_network_latency_sum : Int
  addressAccCountTable : List ((Int × Int × Int) × List Int)
  free_physical_pages : List Int
  free_physical_pages_remaining : Int
  page_translation : List ((Int × Int) × Int)
  deriving DecidableEq, Repr

/-! ## Address mapping -/

/-- The helper `slice_lower_bits(addr, bits)`: the pair of the returned low
bits and the shifted address. `1<<bits` and the result are C++ `int`. -/
def slice_lower_bits (addr : Int) (bits : Int) : Int × Int :=
  let lbits := wrapInt32 (Int.land addr (wrapInt32 (shl32 1 bits - 1)))
  (lbits, addr >>> bits.toNat)

/-- The helper `clear_lower_bits(addr, bits)`: the shifted address. -/
def clear_lower_bits (addr : Int) (bits : Int) : Int := addr >>> bits.toNat

/-- The loop `for (i = n - 1; i >= 0; i--) addr_vec[i] = slice_lower_bits(addr, addr_bits[i])`
with `n` iterations left; returns the address and the vector. -/
def sliceDown (addr_bits : List Int) : Nat → Int → List Int → Int × List Int
  | 0, addr, vec => (addr, vec)
  | i + 1, addr, vec =>
    let r := slice_lower_bits addr (addr_bits.getD i 0)
    sliceDown addr_bits i r.2 (vec.set i r.1)

/-- The loop `for (i = lo; i <= hi; i++) addr_vec[i] = slice_lower_bits(addr, addr_bits[i])`
with `n` iterations left, the next one at index `i`. -/
def sliceUp (addr_bits : List Int) : Nat → Nat → Int → List Int → Int × List Int
  | 0, _, addr, vec => (addr, vec)
  | n + 1, i, addr, vec =>
    let r := slice_lower_bits addr (addr_bits.getD i 0)
    sliceUp addr_bits n (i + 1) r.2 (vec.set i r.1)

/-- The mapping part of `send`: resize the vector, drop the transaction
bits, slice by scheme. `none` is the `assert(false)` of the default case. -/
def mapAddress (m : Memory) (req : Request) : Option (List Int) :=
  let vec := resize req.addr_vec m.addr_bits.length
  let addr := clear_lower_bits req.addr m.tx_bits
  match m.type with
  | .ChRaBaRoCo => some (sliceDown m.addr_bits m.addr_bits.length addr vec).2
  | .RoBaRaCoCh =>
    let r0 := slice_lower_bits addr (m.addr_bits.getD 0 0)
    let vec := vec.set 0 r0.1
    let rl := slice_lower_bits r0.2 (m.addr_bits.getD (m.addr_bits.length - 1) 0)
    let vec := vec.set (m.addr_bits.length - 1) rl.1
    some (sliceUp m.addr_bits Level.Row.toNat 1 rl.2 vec).2
  | .MAX => none

/-- The order in which `send` slices the levels of a six-level geometry. -/
def sliceOrder : MapType → List Nat
  | .ChRaBaRoCo => [5, 4, 3, 2, 1, 0]
  | .RoBaRaCoCh => [0, 5, 1, 2, 3, 4]
  | .MAX => []

/-- Recomposition as the specification words it: shift/OR the coordinates in
the reverse of the slicing order, then re-append `tx_bits` zero bits. -/
def recompose (m : Memory) (vec : List Int) : Int :=
  shl64
    ((sliceOrder m.type).reverse.foldl
      (fun acc i => Int.lor (shl64 acc (m.addr_bits.getD i 0).toNat) (vec.getD i 0)) 0)
    m.tx_bits.toNat

/-- The layout that the specification words for RoBaRaCoCh: Channel lowest,
then levels 1..Row in level order, the last level on the remaining high bits.
The result lists the coordinate of every level of a six-level geometry. -/
def wordedRoBaRaCoCh (m : Memory) (addr : Int) : List Int :=
  let b := fun i => (m.addr_bits.getD i 0).toNat
  let a := addr >>> m.tx_bits.toNat
  [a % 2 ^ b 0,
   (a >>> b 0) % 2 ^ b 1,
   (a >>> (b 0 + b 1)) % 2 ^ b 2,
   (a >>> (b 0 + b 1 + b 2)) % 2 ^ b 3,
   (a >>> (b 0 + b 1 + b 2 + b 3)) % 2 ^ b 4,
   (a >>> (b 0 + b 1 + b 2 + b 3 + b 4)) % 2 ^ b 5]

/-! ## PIM hop latency and access recording -/

/-- The method `calculate_extra_movement_latency`, computed in C++ `int`. -/
def calculate_extra_movement_latency (source_p source_c destination_p destination_c : Int)
    (read : Bool) : Int :=
  let channel_change_latency : Int := 5
  let channel_change_latency :=
    if read then wrapInt32 (channel_change_latency + 1) else channel_change_latency
  let bankgroup_change_latency : Int := 0
  if source_p = destination_p then
    wrapInt32 (wrapInt32 (|wrapInt32 (source_c - destination_c)|) * bankgroup_change_latency)
  else channel_change_latency

/-- The method `addressAccCountTable_insert`: push the Channel coordinate on
the list stored under (Bank * BankGroup, Column, Row). -/
def addressAccCountTable_insert (m : Memory) (req : Request) : Memory :=
  let key : Int × Int × Int :=
    (wrapInt32 (req.addr_vec.getD Level.Bank.toNat 0 * req.addr_vec.getD Level.BankGroup.toNat 0),
     req.addr_vec.getD Level.Column.toNat 0,
     req.addr_vec.getD Level.Row.toNat 0)
  let old := (mapFind m.addressAccCountTable key).getD []
  let table := mapSet m.addressAccCountTable key (old ++ [req.addr_vec.getD Level.Channel.toNat 0])
  { m with addressAccCountTable := table }

/-! ## The dispatcher -/

/-- First part of `send`: set `addr_vec` and `burst_count`. `none` when the
scheme is unsupported or the divisor `1 << tx_bits` is zero. -/
def mapRequest (m : Memory) (req : Request) : Option Request :=
  if shl32 1 m.tx_bits = 0 then none
  else
    match mapAddress m req with
    | none => none
    | some vec =>
      let burst_count := wrapInt32 (Int.tdiv m.cacheline_size (shl32 1 m.tx_bits))
      some { req with addr_vec := vec, burst_count := burst_count }

/-- Second part of `send`: the `if (pim_mode_enabled)` block. -/
def pimBlock (m : Memory) (req : Request) : Memory × Request :=
  if m.pim_mode_enabled then
    let hops :=
      calculate_extra_movement_latency req.coreid req.childid
        (req.addr_vec.getD Level.Channel.toNat 0) (req.addr_vec.getD Level.BankGroup.toNat 0)
        (decide (req.type = ReqType.READ))
    let req := { req with hops := hops }
    let m :=
      if req.type = ReqType.READ then
        { m with read_network_latency_sum := m.read_network_latency_sum + req.hops }
      else m
    (addressAccCountTable_insert m req, req)
  else (m, req)

/-- Third part of `send`: the counters tallied when the controller accepts. -/
def tally (m : Memory) (req : Request) (coreid : Int) : Memory :=
  let m := { m with num_incoming_requests := m.num_incoming_requests + 1 }
  let m :=
    if req.type = ReqType.READ then
      let perChannel :=
        incrAt m.incoming_read_reqs_per_channel (req.addr_vec.getD Level.Channel.toNat 0)
      { m with num_read_requests := incrAt m.num_read_requests coreid,
               incoming_read_reqs_per_channel := perChannel }
    else m
  let m :=
    if req.type = ReqType.WRITE then
      { m with num_write_requests := incrAt m.num_write_requests coreid }
    else m
  let perChannel :=
    incrAt m.incoming_requests_per_channel (req.addr_vec.getD Level.Channel.toNat 0)
  { m with incoming_requests_per_channel := perChannel }

/-- The method `send`. The argument `ctrls i r` is the answer of
`ctrls[i]->enqueue(r)` at the time of the call. -/
def send (m : Memory) (ctrls : Int → Request → Bool) (req : Request) : Option (Memory × Bool) :=
  match mapRequest m req with
  | none => none
  | some mapped =>
    let coreid := mapped.coreid
    let p := pimBlock m mapped
    if ctrls (p.2.addr_vec.getD 0 0) p.2 then some (tally p.1 p.2 coreid, true)
    else some (p.1, false)

/-- A sequence of `send` calls, each with the controllers' answers of its
time; returns the final state and the returned booleans. -/
def sendSeq (m : Memory) : List ((Int → Request → Bool) × Request) → Option (Memory × List Bool)
  | [] => some (m, [])
  | c :: cs =>
    match send m c.1 c.2 with
    | none => none
    | some (m1, b) =>
      match sendSeq m1 cs with
      | none => none
      | some (m2, bs) => some (m2, b :: bs)

/-- The request that `send` hands to the controller: mapped, with the hops
of the PIM block. -/
def forwarded (m : Memory) (req : Request) : Option Request :=
  (mapRequest m req).map (fun r => (pimBlock m r).2)

/-- The Channel coordinate that `send` computes for a request. -/
def channelOf (m : Memory) (req : Request) : Int :=
  match forwarded m req with
  | some r => r.addr_vec.getD Level.Channel.toNat 0
  | none => 0

/-- The answer of the target controller to a call of `send`. -/
def enqueueAnswer (m : Memory) (c : (Int → Request → Bool) × Request) : Bool :=
  match forwarded m c.2 with
  | some r => c.1 (r.addr_vec.getD 0 0) r
  | none => false

/-- The call is accepted and its Channel coordinate is `c`. -/
def acceptedOnChannel (m : Memory) (c : Nat) (x : (Int → Request → Bool) × Request) : Bool :=
  enqueueAnswer m x && decide (channelOf m x.2 = (c : Int))

/-- The call is an accepted read whose Channel coordinate is `c`. -/
def acceptedReadOnChannel (m : Memory) (c : Nat) (x : (Int → Request → Bool) × Request) : Bool :=
  enqueueAnswer m x && decide (x.2.type = ReqType.READ) && decide (channelOf m x.2 = (c : Int))

/-- The call is an accepted request of kind `t` from core `k`. -/
def acceptedOfCore (m : Memory) (t : ReqType) (k : Nat)
    (x : (Int → Request → Bool) × Request) : Bool :=
  enqueueAnswer m x && decide (x.2.type = t) && decide (x.2.coreid = (k : Int))

/-- The configuration fields, which no modelled method writes. -/
def config (m : Memory) : MapType × List Int × Int × Int × Bool :=
  (m.type, m.addr_bits, m.tx_bits, m.cacheline_size, m.pim_mode_enabled)

/-! ## The page allocator -/

/-- The `do ... while` probe of `page_allocator`, with `fuel` iterations
left and the current page `p`; `none` when the fuel runs out. -/
def probeLoop (pages : List Int) (start : Nat) : Nat → Nat → Option Nat
  | 0, _ => none
  | fuel + 1, p =>
    let p := (p + 1) % pages.length
    if p ≠ start ∧ pages.getD p 0 ≠ -1 then probeLoop pages start fuel p else some p

/-- The expression `(frame << 12) | (addr & ((1 << 12) - 1))`. -/
def physicalAddress (frame : Int) (addr : Int) : Int :=
  Int.lor (shl64 frame 12) (Int.land addr (wrapInt32 (shl32 1 12 - 1)))

/-- The method `page_allocator`; `r` is the value drawn by `lrand()`.
`none` is a failed assertion, a remainder by an empty pool, or `assert(false)`. -/
def page_allocator (m : Memory) (addr : Int) (coreid : Int) (r : Nat) : Option (Memory × Int) :=
  let virtual_page_number := addr >>> (12 : Nat)
  let target : Int × Int := (coreid, virtual_page_number)
  match m.translation with
  | .None =>
    if mapFind m.page_translation target = none then
      let table := mapSet m.page_translation target virtual_page_number
      some ({ m with memory_footprint := m.memory_footprint + 2 ^ 12, page_translation := table },
            addr)
    else some (m, addr)
  | .Random =>
    if mapFind m.page_translation target = none then
      let m := { m with memory_footprint := m.memory_footprint + 2 ^ 12 }
      if m.free_physical_pages_remaining = (0 : Int) then
        let m := { m with physical_page_replacement := m.physical_page_replacement + 1 }
        if m.free_physical_pages.length = 0 then none
        else
          let phys_page_to_read := r % m.free_physical_pages.length
          if m.free_physical_pages.getD phys_page_to_read 0 = -1 then none
          else
            let table := mapSet m.page_translation target (phys_page_to_read : Int)
            let m := { m with page_translation := table }
            some (m, physicalAddress ((mapFind m.page_translation target).getD 0) addr)
      else
        if m.free_physical_pages.length = 0 then none
        else
          let phys_page_to_read := r % m.free_physical_pages.length
          let found :=
            if m.free_physical_pages.getD phys_page_to_read 0 ≠ -1 then
              probeLoop m.free_physical_pages phys_page_to_read m.free_physical_pages.length
                phys_page_to_read
            else some phys_page_to_read
          match found with
          | none => none
          | some phys_page_to_read =>
            if m.free_physical_pages.getD phys_page_to_read 0 ≠ -1 then none
            else
              let table := mapSet m.page_translation target (phys_page_to_read : Int)
              let pages := m.free_physical_pages.set phys_page_to_read coreid
              let m := { m with page_translation := table, free_physical_pages := pages,
                                free_physical_pages_remaining := m.free_physical_pages_remaining - 1 }
              some (m, physicalAddress ((mapFind m.page_translation target).getD 0) addr)
    else some (m, physicalAddress ((mapFind m.page_translation target).getD 0) addr)
  | .MAX => none

/-- A sequence of `page_allocator` calls `(addr, coreid, r)`; returns the
final state, or `none` when a call aborts. -/
def pageAllocatorSeq (m : Memory) : List (Int × Int × Nat) → Option Memory
  | [] => some m
  | c :: cs =>
    match page_allocator m c.1 c.2.1 c.2.2 with
    | none => none
    | some (m1, _) => pageAllocatorSeq m1 cs

/-! ## Bit fields -/

/-- The width of level `i` as a shift amount. -/
def width (m : Memory) (i : Nat) : Nat := (m.addr_bits.getD i 0).toNat

/-- The field of `w` bits of `a` that starts at bit `lo`. -/
def bitField (a : Int) (lo w : Nat) : Int := (a >>> lo) % 2 ^ w

/-- Slicing `a` by a list of widths, lowest field first: the width and the
value of every field. -/
def sliceFields : Int → List Nat → List (Nat × Int)
  | _, [] => []
  | a, w :: ws => (w, a % 2 ^ w) :: sliceFields (a >>> w) ws

/-- The shift/OR fold over fields, highest field first. -/
def orFields (acc : Int) (fs : List (Nat × Int)) : Int :=
  fs.foldl (fun acc f => Int.lor (shl64 acc f.1) f.2) acc

/-! ## Example configuration -/

/-- An HBM geometry: 8 channels, 1 rank, 4 bank groups, 4 banks, 2^14 rows,
2^7 columns, prefetch 4 and 128-bit channels (64-byte transactions). -/
def hbmExample : Memory :=
  { type := .RoBaRaCoCh, translation := .None,
    addr_bits := [3, 0, 2, 2, 14, 5], tx_bits := 6, cacheline_size := 64,
    pim_mode_enabled := false,
    num_dram_cycles := 0, num_incoming_requests := 0,
    num_read_requests := [0, 0], num_write_requests := [0, 0],
    ramulator_active_cycles := 0, memory_footprint := 0,
    incoming_requests_per_channel := List.replicate 8 0,
    incoming_read_reqs_per_channel := List.replicate 8 0,
    physical_page_replacement := 0, read_network_latency_sum := 0,
    addressAccCountTable := [], free_physical_pages := [],
    free_physical_pages_remaining := 0, page_translation := [] }

/-- A request with the given address, core and kind and an empty vector. -/
def mkRequest (addr : Int) (coreid : Int) (type : ReqType) : Request :=
  { addr := addr, coreid := coreid, childid := 0, type := type,
    addr_vec := [], burst_count := 0, hops := 0 }

/-- Three calls: an accepted read of core 0, a rejected read of core 1 and
an accepted write of core 1. -/
def exampleCalls : List ((Int → Request → Bool) × Request) :=
  [(fun _ _ => true, mkRequest 0 0 ReqType.READ),
   (fun _ _ => false, mkRequest 64 1 ReqType.READ),
   (fun _ _ => true, mkRequest 64 1 ReqType.WRITE)]

/-- The HBM example under the random policy with a pool of three free frames. -/
def randomExample : Memory :=
  { hbmExample with translation := .Random, free_physical_pages := [-1, -1, -1],
                    free_physical_pages_remaining := 3 }

/-- Four first touches of distinct pages by cores 0 and 1, every draw 7;
the fourth finds the pool exhausted. -/
def exampleTouches : List (Int × Int × Nat) :=
  [(0, 0, 7), (4096, 0, 7), (8192, 1, 7), (12288, 1, 7)]

/-- The state of `randomExample` after the first of `exampleTouches`. -/
def afterFirstTouch : Memory :=
  { randomExample with memory_footprint := 4096, free_physical_pages := [-1, 0, -1],
                       free_physical_pages_remaining := 2, page_translation := [((0, 0), 1)] }

/-- The state of `randomExample` after all of `exampleTouches`. -/
def afterTouches : Memory :=
  { randomExample with memory_footprint := 16384, physical_page_replacement := 1,
                       free_physical_pages := [1, 0, 0], free_physical_pages_remaining := 0,
                       page_translation := [((0, 0), 1), ((0, 1), 2), ((1, 2), 0), ((1, 3), 1)] }

/-- The state of `afterTouches` after a fifth first touch, `(16384, 0, 1)`. -/
def afterFifthTouch : Memory :=
  { afterTouches with memory_footprint := 20480, physical_page_replacement := 2,
                      page_translation :=
                        [((0, 0), 1), ((0, 1), 2), ((1, 2), 0), ((1, 3), 1), ((0, 4), 1)] }

/-- The HBM example with near-memory processing switched on. -/
def pimExample : Memory := { hbmExample with pim_mode_enabled := true }

/-! ## Construction -/

/-- Two's complement wrap of an integer into the range of a C++ `long`. -/
def wrapInt64 (x : Int) : Int := (x + 2 ^ 63) % 2 ^ 64 - 2 ^ 63

/-- The loop `while ((val >>= 1)) n++` of `calc_log2`, with `fuel`
iterations left; `none` when the fuel runs out. -/
def calcLog2Loop : Nat → Int → Int → Option Int
  | 0, _, _ => none
  | fuel + 1, val, n =>
    let val := val >>> (1 : Nat)
    if val ≠ 0 then calcLog2Loop fuel val (n + 1) else some n

/-- The helper `calc_log2(val)`. A non-negative `int` needs at most 31
iterations; a negative one never leaves the loop, which is `none` here. -/
def calc_log2 (val : Int) : Option Int := calcLog2Loop 32 val 0

/-- Modelled from the spec: `HBM.h` is not among the sources. The fields of
the device description that the constructor reads: the entry count of every
level, the prefetch (burst) length and the channel width in bits. -/
structure Spec where
  count : List Int
  prefetch_size : Int
  channel_width : Int
  deriving DecidableEq, Repr

/-- Modelled from the spec: `Config.h` is not among the sources. The values
the constructor reads; `translation` is `none` when the key is not configured. -/
structure Config where
  translation : Option String
  cacheline_size : Int
  pim_mode_enabled : Bool
  core_num : Nat
  deriving DecidableEq, Repr

/-- The table `name_to_translation`. -/
def name_to_translation : List (String × Translation) :=
  [("None", Translation.None), ("Random", Translation.Random)]

/-- The expression `name_to_translation[name]`: `operator[]` of `std::map`
inserts and returns the value-initialised enum, the first enumerator, for a
name that is not a key. -/
def lookupTranslation (name : String) : Translation :=
  (mapFind name_to_translation name).getD Translation.None

/-- The translation selected by the constructor: the member initialiser
`Translation::None` unless the key is configured. -/
def selectTranslation (cfg : Config) : Translation :=
  match cfg.translation with
  | some name => lookupTranslation name
  | none => Translation.None

/-- The condition of `assert((x & (x - 1)) == 0)`. -/
def powerOfTwoCheck (x : Int) : Bool := decide (Int.land x (wrapInt32 (x - 1)) = 0)

/-- The loop of the constructor over the levels, `n` iterations left, the
next at `lev`: it fills `addr_bits` and multiplies `max_address`. -/
def levelLoop (sz : List Int) : Nat → Nat → Int → List Int → Option (Int × List Int)
  | 0, _, max_address, addr_bits => some (max_address, addr_bits)
  | n + 1, lev, max_address, addr_bits =>
    match calc_log2 (sz.getD lev 0) with
    | none => none
    | some b =>
      levelLoop sz n (lev + 1) (wrapInt64 (max_address * sz.getD lev 0)) (addr_bits.set lev b)

/-- The constructed object: the memory and its `max_address`. -/
structure Built where
  memory : Memory
  max_address : Int
  deriving DecidableEq, Repr

/-- The constructor `Memory(configs, ctrls)`. `none` is a failed assertion,
a `calc_log2` that does not return, or the `resize` of the pool to a negative
page count, which throws. The scheme is the member initialiser
`RoBaRaCoCh`, so the LPDDR assertion is not reached. Under the policy `None`
the source leaves `free_physical_pages_remaining` unset; it is 0 here. -/
def construct (spec : Spec) (cfg : Config) : Option Built :=
  let sz := spec.count
  if powerOfTwoCheck (sz.getD 0 0) = false then none
  else if powerOfTwoCheck (sz.getD 1 0) = false then none
  else
    let tx := Int.tdiv (wrapInt32 (spec.prefetch_size * spec.channel_width)) 8
    match calc_log2 tx with
    | none => none
    | some tx_bits =>
      if shl32 1 tx_bits ≠ tx then none
      else
        match levelLoop sz Level.MAX.toNat 0 (Int.tdiv spec.channel_width 8)
            (List.replicate Level.MAX.toNat 0) with
        | none => none
        | some (max_address, addr_bits) =>
          match calc_log2 spec.prefetch_size with
          | none => none
          | some burst =>
            let last := Level.MAX.toNat - 1
            let addr_bits := addr_bits.set last (wrapInt32 (addr_bits.getD last 0 - burst))
            let translation := selectTranslation cfg
            let remaining : Int :=
              if translation ≠ Translation.None then max_address >>> (12 : Nat) else 0
            if remaining < 0 then none
            else
            let pages := List.replicate remaining.toNat (-1 : Int)
            some
              { memory :=
                  { type := MapType.RoBaRaCoCh, translation := translation,
                    addr_bits := addr_bits, tx_bits := tx_bits,
                    cacheline_size := cfg.cacheline_size,
                    pim_mode_enabled := cfg.pim_mode_enabled,
                    num_dram_cycles := 0, num_incoming_requests := 0,
                    num_read_requests := List.replicate cfg.core_num 0,
                    num_write_requests := List.replicate cfg.core_num 0,
                    ramulator_active_cycles := 0, memory_footprint := 0,
                    incoming_requests_per_channel := List.replicate (sz.getD 0 0).toNat 0,
                    incoming_read_reqs_per_channel := List.replicate (sz.getD 0 0).toNat 0,
                    physical_page_replacement := 0, read_network_latency_sum := 0,
                    addressAccCountTable := [], free_physical_pages := pages,
                    free_physical_pages_remaining := remaining, page_translation := [] },
                max_address := max_address }

/-! ## The clock -/

/-- The loop of `tick` over the controllers, the next at index `i`:
the activity flag, the advanced controllers, and the indices advanced, in
the order of the calls. `isActive` and `tickCtrl` stand for the methods
`is_active()` and `tick()` of `Controller`, which is not among the sources. -/
def tickLoop {σ : Type} (isActive : σ → Bool) (tickCtrl : σ → σ) :
    List σ → Nat → Bool → Bool × List σ × List Nat
  | [], _, is_active => (is_active, [], [])
  | ctrl :: rest, i, is_active =>
    let is_active := is_active || isActive ctrl
    let r := tickLoop isActive tickCtrl rest (i + 1) is_active
    (r.1, tickCtrl ctrl :: r.2.1, i :: r.2.2)

/-- The method `tick`: the memory, the controllers and the indices of the
controllers advanced, in order. -/
def tick {σ : Type} (isActive : σ → Bool) (tickCtrl : σ → σ) (m : Memory) (ctrls : List σ) :
    Memory × List σ × List Nat :=
  let m := { m with num_dram_cycles := m.num_dram_cycles + 1 }
  let r := tickLoop isActive tickCtrl ctrls 0 false
  let m :=
    if r.1 then { m with ramulator_active_cycles := m.ramulator_active_cycles + 1 } else m
  (m, r.2.1, r.2.2)

/-! ## The end of the run -/

/-- The four counters of the classification in `finish`. -/
structure Buckets where
  countKeysWithOneElement : Nat
  countKeysWithSameElement : Nat
  countKeysWithDifferentElementsNoDuplicates : Nat
  countKeysWithDifferentElementsDuplicates : Nat
  deriving DecidableEq, Repr

/-- The test `std::all_of(values, val == values[0])`. -/
def allSame (values : List Int) : Bool := values.all (fun val => decide (val = values.getD 0 0))

/-- The body of the classification loop of `finish` for one list; the size
of the `unordered_set` is the number of distinct values. -/
def classifyStep (b : Buckets) (values : List Int) : Buckets :=
  let size := values.length
  if size = 1 then { b with countKeysWithOneElement := b.countKeysWithOneElement + 1 }
  else if 2 ≤ size ∧ allSame values = true then
    { b with countKeysWithSameElement := b.countKeysWithSameElement + 1 }
  else if 2 ≤ size then
    if values.dedup.length = size then
      { b with countKeysWithDifferentElementsNoDuplicates :=
          b.countKeysWithDifferentElementsNoDuplicates + 1 }
    else
      { b with countKeysWithDifferentElementsDuplicates :=
          b.countKeysWithDifferentElementsDuplicates + 1 }
  else b

/-- The classification loop of `finish` over the access table. -/
def classify (table : List ((Int × Int × Int) × List Int)) : Buckets :=
  table.foldl (fun b entry => classifyStep b entry.2) ⟨0, 0, 0, 0⟩

/-- The statistics `sub_count_1` .. `sub_count_4` of `finish`: integer
quotients by the number of keys; `none` is the division by zero. -/
def subCounts (m : Memory) : Option (Nat × Nat × Nat × Nat) :=
  let b := classify m.addressAccCountTable
  let n := m.addressAccCountTable.length
  if n = 0 then none
  else
    some (b.countKeysWithOneElement * 100 / n, b.countKeysWithSameElement * 100 / n,
      b.countKeysWithDifferentElementsNoDuplicates * 100 / n,
      b.countKeysWithDifferentElementsDuplicates * 100 / n)

/-- The integer factors of the divisors of `finish`, in source order: the
elapsed cycles of the two bandwidths, the read total of the four latency
averages, the elapsed cycles of the three queue-length averages, and the key
count of the four percentages. -/
def finishDivisors (m : Memory) : List Nat :=
  let dram_cycles := m.num_dram_cycles
  let total_read_req := m.num_read_requests.sum
  let keys := m.addressAccCountTable.length
  [dram_cycles, dram_cycles, total_read_req, total_read_req, total_read_req, total_read_req,
   dram_cycles, dram_cycles, dram_cycles, keys, keys, keys, keys]

/-! ## Further examples -/

/-- The device of `hbmExample`: 8 channels, 1 rank, 4 bank groups, 4 banks,
2^14 rows, 2^7 columns, prefetch 4, 128-bit channels. -/
def hbmSpec : Spec :=
  { count := [8, 1, 4, 4, 16384, 128], prefetch_size := 4, channel_width := 128 }

/-- A configuration without a translation key. -/
def plainConfig : Config :=
  { translation := none, cacheline_size := 64, pim_mode_enabled := false, core_num := 2 }

/-- An access table with the lists `[0]`, `[2,2,2]`, `[1,3]`, `[1,3,1]`. -/
def exampleTable : List ((Int × Int × Int) × List Int) :=
  [((0, 0, 0), [0]), ((0, 0, 1), [2, 2, 2]), ((0, 0, 2), [1, 3]), ((0, 0, 3), [1, 3, 1])]

/-- Bucket 1 of the classification: exactly one recorded access. -/
def isSingle (v : List Int) : Bool := decide (v.length = 1)

/-- Bucket 2: two or more accesses, all entries equal. -/
def isUniform (v : List Int) : Bool := decide (2 ≤ v.length ∧ ∀ x ∈ v, ∀ y ∈ v, x = y)

/-- Bucket 3: two or more accesses, at least two distinct channels, no
channel repeated. -/
def isMixedDistinct (v : List Int) : Bool :=
  decide (2 ≤ v.length ∧ (∃ x ∈ v, ∃ y ∈ v, x ≠ y) ∧ v.Nodup)

/-- Bucket 4: two or more accesses, at least two distinct channels, some
channel repeated. -/
def isMixedRepeated (v : List Int) : Bool :=
  decide (2 ≤ v.length ∧ (∃ x ∈ v, ∃ y ∈ v, x ≠ y) ∧ ¬ v.Nodup)

/-- The state of `hbmExample` after `exampleCalls` and one `tick`. -/
def afterRun : Memory :=
  { hbmExample with num_dram_cycles := 1, num_incoming_requests := 2,
                    num_read_requests := [1, 0], num_write_requests := [0, 1],
                    incoming_requests_per_channel := [1, 1, 0, 0, 0, 0, 0, 0],
                    incoming_read_reqs_per_channel := [1, 0, 0, 0, 0, 0, 0, 0] }

/-- The device of `hbmSpec` with a rank count of 0. -/
def zeroRankSpec : Spec :=
  { count := [8, 0, 4, 4, 16384, 128], prefetch_size := 4, channel_width := 128 }

/-- The translation-table key of a `page_allocator` call `(addr, coreid, r)`. -/
def keyOf (c : Int × Int × Nat) : Int × Int := (c.2.1, c.1 >>> (12 : Nat))

/-- Three first touches of distinct pages by cores 0, 0 and 1, every draw 7. -/
def threeTouches : List (Int × Int × Nat) := [(0, 0, 7), (4096, 0, 7), (8192, 1, 7)]

/-- The key under which `addressAccCountTable_insert` records a request. -/
def accessKey (req : Request) : Int × Int × Int :=
  (wrapInt32 (req.addr_vec.getD Level.Bank.toNat 0 * req.addr_vec.getD Level.BankGroup.toNat 0),
   req.addr_vec.getD Level.Column.toNat 0,
   req.addr_vec.getD Level.Row.toNat 0)

/-- A sequence of `addressAccCountTable_insert` calls. -/
def recordAll (m : Memory) (reqs : List Request) : Memory :=
  reqs.foldl addressAccCountTable_insert m

/-- A request with the given coordinate vector. -/
def mappedRequest (vec : List Int) : Request :=
  { addr := 0, coreid := 0, childid := 0, type := ReqType.READ, addr_vec := vec,
    burst_count := 1, hops := 0 }

/-- The state of `randomExample` after `threeTouches`: the pool is used up
and no frame has been reused. -/
def afterThreeTouches : Memory :=
  { randomExample with memory_footprint := 12288, free_physical_pages := [1, 0, 0],
                       free_physical_pages_remaining := 0,
                       page_translation := [((0, 0), 1), ((0, 1), 2), ((1, 2), 0)] }

/-! # Theorems -/

/-! ## Machine integers and bit fields -/

theorem wrapInt32_of_range (x : Int) (h1 : -2 ^ 31 ≤ x) (h2 : x < 2 ^ 31) : wrapInt32 x = x := by
  unfold wrapInt32
  rw [Int.emod_eq_of_lt (by omega) (by omega)]
  omega

theorem nat_ldiff_mask (n m : Nat) : Nat.ldiff (2 ^ n - 1) m = 2 ^ n - 1 - m % 2 ^ n := by
  apply Nat.eq_of_testBit_eq
  intro i
  have hlt : m % 2 ^ n < 2 ^ n := Nat.mod_lt _ (by positivity)
  have h := Nat.testBit_two_pow_sub_succ hlt i
  have e : 2 ^ n - 1 - m % 2 ^ n = 2 ^ n - (m % 2 ^ n + 1) := by omega
  rw [e, h, Nat.testBit_ldiff, Nat.testBit_two_pow_sub_one, Nat.testBit_mod_two_pow]
  by_cases hi : i < n <;> simp [hi]

/-- Masking with `2^n - 1` is the remainder by `2^n`, also for negative
two's complement values. -/
theorem land_mask (a : Int) (n : Nat) : Int.land a (2 ^ n - 1) = a % 2 ^ n := by
  have hm : ((2 : Int) ^ n - 1) = ((2 ^ n - 1 : Nat) : Int) := by
    have : 1 ≤ 2 ^ n := Nat.one_le_two_pow
    push_cast [Nat.cast_sub this]
    rfl
  rw [hm]
  cases a with
  | ofNat k =>
    show ((k &&& (2 ^ n - 1) : Nat) : Int) = _
    rw [Nat.and_pow_two_sub_one_eq_mod]
    norm_cast
  | negSucc k =>
    show ((Nat.ldiff (2 ^ n - 1) k : Nat) : Int) = _
    rw [nat_ldiff_mask, Int.negSucc_emod k (by positivity)]
    have hlt : k % 2 ^ n < 2 ^ n := Nat.mod_lt _ (by positivity)
    have h1 : 1 ≤ 2 ^ n := Nat.one_le_two_pow
    have h2 : k % 2 ^ n ≤ 2 ^ n - 1 := by omega
    push_cast [Nat.cast_sub h2, Nat.cast_sub h1]
    rfl

/-- OR of a shifted non-negative value with a field that fits below it. -/
theorem lor_shl64 (x c : Int) (n : Nat) (hx : 0 ≤ x) (hc0 : 0 ≤ c) (hc : c < 2 ^ n) :
    Int.lor (shl64 x n) c = x * 2 ^ n + c := by
  obtain ⟨x, rfl⟩ := Int.eq_ofNat_of_zero_le hx
  obtain ⟨c, rfl⟩ := Int.eq_ofNat_of_zero_le hc0
  have hc1 : c < 2 ^ n := by exact_mod_cast hc
  have e : shl64 (x : Int) n = ((2 ^ n * x : Nat) : Int) := by
    unfold shl64
    push_cast
    ring
  rw [e]
  show (((2 ^ n * x) ||| c : Nat) : Int) = _
  rw [← Nat.mul_add_lt_is_or hc1]
  push_cast
  ring

/-- Closed form of `slice_lower_bits` for a width that `int` can shift by. -/
theorem slice_lower_bits_eq (a b : Int) (h0 : 0 ≤ b) (h1 : b ≤ 30) :
    slice_lower_bits a b = (a % 2 ^ b.toNat, a >>> b.toNat) := by
  have hb : b.toNat ≤ 30 := by omega
  have hp : (2 : Int) ^ b.toNat ≤ 2 ^ 30 := pow_le_pow_right₀ (by norm_num) hb
  have hp0 : (0 : Int) < 2 ^ b.toNat := by positivity
  unfold slice_lower_bits shl32
  simp only [one_mul]
  rw [wrapInt32_of_range (2 ^ b.toNat) (by omega) (by omega),
    wrapInt32_of_range (2 ^ b.toNat - 1) (by omega) (by omega), land_mask]
  have hm0 := Int.emod_nonneg a (ne_of_gt hp0)
  have hm1 := Int.emod_lt_of_pos a hp0
  rw [wrapInt32_of_range _ (by omega) (by omega)]

theorem shiftRight_zero (x : Int) : x >>> (0 : Nat) = x := by
  rw [Int.shiftRight_eq_div_pow]
  simp

theorem shiftRight_comm (x : Int) (p q : Nat) : x >>> p >>> q = x >>> q >>> p := by
  rw [← Int.shiftRight_add, ← Int.shiftRight_add, Nat.add_comm]

theorem resize_length (v : List Int) (n : Nat) : (resize v n).length = n := by
  simp [resize]

theorem exists_six (l : List Int) (h : l.length = 6) :
    ∃ x0 x1 x2 x3 x4 x5, l = [x0, x1, x2, x3, x4, x5] := by
  match l, h with
  | [x0, x1, x2, x3, x4, x5], _ => exact ⟨x0, x1, x2, x3, x4, x5, rfl⟩

/-! ## The descending loop of ChRaBaRoCo -/

theorem sliceDown_length (bits : List Int) (i : Nat) (a : Int) (v : List Int) :
    (sliceDown bits i a v).2.length = v.length := by
  induction i generalizing a v with
  | zero => rfl
  | succ i ih => simp [sliceDown, ih]

theorem sliceDown_getD_ge (bits : List Int) (i : Nat) (a : Int) (v : List Int) (j : Nat)
    (hj : i ≤ j) : (sliceDown bits i a v).2.getD j 0 = v.getD j 0 := by
  induction i generalizing a v with
  | zero => rfl
  | succ i ih =>
    simp only [sliceDown]
    rw [ih _ _ (by omega)]
    simp only [List.getD_eq_getElem?_getD]
    rw [List.getElem?_set_ne (by omega)]

theorem valid_getD (bits : List Int) (hb : ∀ b ∈ bits, 0 ≤ b ∧ b ≤ 30) (i : Nat) :
    0 ≤ bits.getD i 0 ∧ bits.getD i 0 ≤ 30 := by
  by_cases h : i < bits.length
  · rw [List.getD_eq_getElem _ _ h]
    exact hb _ (List.getElem_mem _)
  · rw [List.getD_eq_default _ _ (by omega)]
    omega

theorem sum_take_drop_succ (bits : List Int) (i j : Nat) (hi : i < bits.length) (hj : j ≤ i) :
    ((bits.take (i + 1)).drop j).sum = ((bits.take i).drop j).sum + bits.getD i 0 := by
  rw [List.take_succ, List.drop_append_of_le_length (by simp; omega)]
  simp [List.getD_eq_getElem?_getD, List.getElem?_eq_getElem hi]

theorem sum_nonneg_of_valid (bits : List Int) (hb : ∀ b ∈ bits, 0 ≤ b ∧ b ≤ 30) (i j : Nat) :
    0 ≤ ((bits.take i).drop j).sum := by
  apply List.sum_nonneg
  intro x hx
  exact (hb x (List.mem_of_mem_take (List.mem_of_mem_drop hx))).1

theorem sliceDown_getD_lt (bits : List Int) (hb : ∀ b ∈ bits, 0 ≤ b ∧ b ≤ 30)
    (i : Nat) (a : Int) (v : List Int) (j : Nat)
    (hi : i ≤ bits.length) (hv : v.length = bits.length) (hj : j < i) :
    (sliceDown bits i a v).2.getD j 0
      = (a >>> (((bits.take i).drop (j + 1)).sum).toNat) % 2 ^ (bits.getD j 0).toNat := by
  induction i generalizing a v with
  | zero => omega
  | succ i ih =>
    have hbi := valid_getD bits hb i
    simp only [sliceDown]
    rw [slice_lower_bits_eq _ _ hbi.1 hbi.2]
    by_cases hji : j = i
    · subst hji
      rw [sliceDown_getD_ge _ _ _ _ _ (le_refl _)]
      simp only [List.getD_eq_getElem?_getD]
      rw [List.getElem?_set_self (by omega)]
      rw [List.drop_eq_nil_of_le (by simp)]
      simp [Int.shiftRight_eq_div_pow]
    · rw [ih _ _ (by omega) (by simp [hv]) (by omega),
        sum_take_drop_succ bits i (j + 1) (by omega) (by omega)]
      have h1 := sum_nonneg_of_valid bits hb i (j + 1)
      rw [Int.toNat_add h1 hbi.1, Int.shiftRight_add, shiftRight_comm]

/-- C3. Under ChRaBaRoCo the mapping of `send` drops the low `tx_bits` bits
and slices every level from the last down to level 0: the output has one
coordinate per level, and the coordinate of level `i` is the field of width
`addr_bits[i]` above the fields of all higher-numbered levels, for every
address (negative ones included); Channel holds the highest-order field. -/
theorem C3_ChRaBaRoCo_layout (m : Memory) (req : Request)
    (ht : m.type = MapType.ChRaBaRoCo) (_htx : 0 ≤ m.tx_bits)
    (hb : ∀ b ∈ m.addr_bits, 0 ≤ b ∧ b ≤ 30) :
    ∃ vec, mapAddress m req = some vec ∧ vec.length = m.addr_bits.length ∧
      ∀ i, i < m.addr_bits.length →
        vec.getD i 0
          = ((req.addr >>> m.tx_bits.toNat) >>> ((m.addr_bits.drop (i + 1)).sum).toNat)
              % 2 ^ (m.addr_bits.getD i 0).toNat := by
  have hm : mapAddress m req = some (sliceDown m.addr_bits m.addr_bits.length
      (clear_lower_bits req.addr m.tx_bits) (resize req.addr_vec m.addr_bits.length)).2 := by
    simp only [mapAddress, ht]
  refine ⟨_, hm, ?_, ?_⟩
  · rw [sliceDown_length, resize_length]
  · intro i hi
    rw [sliceDown_getD_lt _ hb _ _ _ _ (le_refl _) (resize_length _ _) hi, List.take_length]
    rfl

theorem C3_ChRaBaRoCo_layout_witness :
    ∃ vec, mapAddress { hbmExample with type := MapType.ChRaBaRoCo } (mkRequest (-64) 0 ReqType.READ)
        = some vec ∧ vec.length = 6 ∧
      ∀ i, i < 6 →
        vec.getD i 0
          = (((-64 : Int) >>> 6) >>> ((([3, 0, 2, 2, 14, 5] : List Int).drop (i + 1)).sum).toNat)
              % 2 ^ (([3, 0, 2, 2, 14, 5] : List Int).getD i 0).toNat :=
  C3_ChRaBaRoCo_layout { hbmExample with type := MapType.ChRaBaRoCo }
    (mkRequest (-64) 0 ReqType.READ) rfl (by decide) (by decide)

/-! ## The layout of RoBaRaCoCh -/

/-- Closed form of the RoBaRaCoCh branch of `send` on a six-level geometry. -/
theorem mapAddress_RoBaRaCoCh (m : Memory) (req : Request)
    (ht : m.type = MapType.RoBaRaCoCh) (hl : m.addr_bits.length = 6)
    (hb : ∀ b ∈ m.addr_bits, 0 ≤ b ∧ b ≤ 30) :
    mapAddress m req = some
      [bitField (req.addr >>> m.tx_bits.toNat) 0 (width m 0),
       bitField (req.addr >>> m.tx_bits.toNat) (width m 0 + width m 5) (width m 1),
       bitField (req.addr >>> m.tx_bits.toNat) (width m 0 + width m 5 + width m 1) (width m 2),
       bitField (req.addr >>> m.tx_bits.toNat)
         (width m 0 + width m 5 + width m 1 + width m 2) (width m 3),
       bitField (req.addr >>> m.tx_bits.toNat)
         (width m 0 + width m 5 + width m 1 + width m 2 + width m 3) (width m 4),
       bitField (req.addr >>> m.tx_bits.toNat) (width m 0) (width m 5)] := by
  obtain ⟨b0, b1, b2, b3, b4, b5, hbits⟩ := exists_six m.addr_bits hl
  obtain ⟨x0, x1, x2, x3, x4, x5, hx⟩ :=
    exists_six (resize req.addr_vec 6) (resize_length _ _)
  have h0 := hb b0 (by simp [hbits])
  have h1 := hb b1 (by simp [hbits])
  have h2 := hb b2 (by simp [hbits])
  have h3 := hb b3 (by simp [hbits])
  have h4 := hb b4 (by simp [hbits])
  have h5 := hb b5 (by simp [hbits])
  simp only [mapAddress, ht, hbits, List.length_cons, List.length_nil, hx, width, bitField,
    Level.toNat, sliceUp, clear_lower_bits, List.getD_cons_zero, List.getD_cons_succ,
    slice_lower_bits_eq _ _ h0.1 h0.2, slice_lower_bits_eq _ _ h1.1 h1.2,
    slice_lower_bits_eq _ _ h2.1 h2.2, slice_lower_bits_eq _ _ h3.1 h3.2,
    slice_lower_bits_eq _ _ h4.1 h4.2, slice_lower_bits_eq _ _ h5.1 h5.2,
    List.set_cons_zero, List.set_cons_succ, Int.shiftRight_add]
  simp [Int.shiftRight_eq_div_pow]

/-- Closed form of the ChRaBaRoCo branch of `send` on a six-level geometry. -/
theorem mapAddress_ChRaBaRoCo (m : Memory) (req : Request)
    (ht : m.type = MapType.ChRaBaRoCo) (hl : m.addr_bits.length = 6)
    (hb : ∀ b ∈ m.addr_bits, 0 ≤ b ∧ b ≤ 30) :
    mapAddress m req = some
      [bitField (req.addr >>> m.tx_bits.toNat)
         (width m 5 + width m 4 + width m 3 + width m 2 + width m 1) (width m 0),
       bitField (req.addr >>> m.tx_bits.toNat)
         (width m 5 + width m 4 + width m 3 + width m 2) (width m 1),
       bitField (req.addr >>> m.tx_bits.toNat) (width m 5 + width m 4 + width m 3) (width m 2),
       bitField (req.addr >>> m.tx_bits.toNat) (width m 5 + width m 4) (width m 3),
       bitField (req.addr >>> m.tx_bits.toNat) (width m 5) (width m 4),
       bitField (req.addr >>> m.tx_bits.toNat) 0 (width m 5)] := by
  obtain ⟨b0, b1, b2, b3, b4, b5, hbits⟩ := exists_six m.addr_bits hl
  obtain ⟨x0, x1, x2, x3, x4, x5, hx⟩ :=
    exists_six (resize req.addr_vec 6) (resize_length _ _)
  have h0 := hb b0 (by simp [hbits])
  have h1 := hb b1 (by simp [hbits])
  have h2 := hb b2 (by simp [hbits])
  have h3 := hb b3 (by simp [hbits])
  have h4 := hb b4 (by simp [hbits])
  have h5 := hb b5 (by simp [hbits])
  simp only [mapAddress, ht, hbits, List.length_cons, List.length_nil, hx, width, bitField,
    sliceDown, clear_lower_bits, List.getD_cons_zero, List.getD_cons_succ,
    slice_lower_bits_eq _ _ h0.1 h0.2, slice_lower_bits_eq _ _ h1.1 h1.2,
    slice_lower_bits_eq _ _ h2.1 h2.2, slice_lower_bits_eq _ _ h3.1 h3.2,
    slice_lower_bits_eq _ _ h4.1 h4.2, slice_lower_bits_eq _ _ h5.1 h5.2,
    List.set_cons_zero, List.set_cons_succ, Int.shiftRight_add]
  simp [Int.shiftRight_eq_div_pow]

/-! ## Recomposition -/

theorem shiftRight_nonneg (a : Int) (n : Nat) (h : 0 ≤ a) : 0 ≤ a >>> n := by
  rw [Int.shiftRight_eq_div_pow]
  exact Int.ediv_nonneg h (by positivity)

/-- Folding the fields of `a` back, starting from the bits above them. -/
theorem orFields_sliceFields (a : Int) (ws : List Nat) (h : 0 ≤ a) :
    orFields (a >>> ws.sum) (sliceFields a ws).reverse = a := by
  induction ws generalizing a with
  | nil => simp [sliceFields, orFields, Int.shiftRight_eq_div_pow]
  | cons w ws ih =>
    have ih1 := ih (a >>> w) (shiftRight_nonneg a w h)
    unfold orFields at ih1 ⊢
    have hp : (0 : Int) < 2 ^ w := by positivity
    simp only [sliceFields, List.reverse_cons, List.foldl_append, List.foldl_cons, List.foldl_nil,
      List.sum_cons, Int.shiftRight_add]
    rw [ih1, lor_shl64 _ _ _ (shiftRight_nonneg a w h) (Int.emod_nonneg a (ne_of_gt hp))
      (Int.emod_lt_of_pos a hp), Int.shiftRight_eq_div_pow]
    push_cast
    exact Int.ediv_add_emod' a (2 ^ w)

/-- The recomposition as a fold over the fields in reverse slicing order. -/
theorem recompose_eq (m : Memory) (vec : List Int) :
    recompose m vec = shl64 (orFields 0
      ((sliceOrder m.type).map (fun i => (width m i, vec.getD i 0))).reverse) m.tx_bits.toNat := by
  unfold recompose orFields width
  rw [← List.map_reverse, List.foldl_map]

theorem shiftRight_eq_zero (a : Int) (n : Nat) (h0 : 0 ≤ a) (h1 : a < 2 ^ n) : a >>> n = 0 := by
  rw [Int.shiftRight_eq_div_pow]
  exact Int.ediv_eq_zero_of_lt h0 (by exact_mod_cast h1)

/-- The bit width of the whole address on a six-level geometry. -/
theorem total_width (m : Memory) (hl : m.addr_bits.length = 6)
    (hb : ∀ b ∈ m.addr_bits, 0 ≤ b ∧ b ≤ 30) (htx : 0 ≤ m.tx_bits) :
    (m.tx_bits + m.addr_bits.sum).toNat
      = m.tx_bits.toNat
        + (width m 0 + width m 1 + width m 2 + width m 3 + width m 4 + width m 5) := by
  obtain ⟨b0, b1, b2, b3, b4, b5, hbits⟩ := exists_six m.addr_bits hl
  obtain ⟨n0, rfl⟩ := Int.eq_ofNat_of_zero_le (hb b0 (by simp [hbits])).1
  obtain ⟨n1, rfl⟩ := Int.eq_ofNat_of_zero_le (hb b1 (by simp [hbits])).1
  obtain ⟨n2, rfl⟩ := Int.eq_ofNat_of_zero_le (hb b2 (by simp [hbits])).1
  obtain ⟨n3, rfl⟩ := Int.eq_ofNat_of_zero_le (hb b3 (by simp [hbits])).1
  obtain ⟨n4, rfl⟩ := Int.eq_ofNat_of_zero_le (hb b4 (by simp [hbits])).1
  obtain ⟨n5, rfl⟩ := Int.eq_ofNat_of_zero_le (hb b5 (by simp [hbits])).1
  obtain ⟨t, ht⟩ := Int.eq_ofNat_of_zero_le htx
  simp only [width, hbits, ht, List.sum_cons, List.sum_nil, List.getD_cons_zero,
    List.getD_cons_succ, Int.toNat_ofNat, add_zero]
  have e : ((t : Int) + (n0 + (n1 + (n2 + (n3 + (n4 + n5))))))
      = ((t + (n0 + n1 + n2 + n3 + n4 + n5) : Nat) : Int) := by
    push_cast
    ring
  rw [e, Int.toNat_ofNat]

/-- Dropping the transaction bits of an aligned in-range address leaves a
value below the total level width, and shifting back restores the address. -/
theorem clear_tx_bits (addr : Int) (t n : Nat) (h0 : 0 ≤ addr) (h1 : addr < 2 ^ (t + n))
    (hal : addr % 2 ^ t = 0) :
    0 ≤ addr >>> t ∧ addr >>> t < 2 ^ n ∧ shl64 (addr >>> t) t = addr := by
  have hp : (0 : Int) < 2 ^ t := by positivity
  refine ⟨shiftRight_nonneg _ _ h0, ?_, ?_⟩
  · rw [Int.shiftRight_eq_div_pow]
    push_cast
    rw [Int.ediv_lt_iff_lt_mul hp, ← pow_add, Nat.add_comm]
    exact h1
  · unfold shl64
    rw [Int.shiftRight_eq_div_pow]
    push_cast
    exact Int.ediv_mul_cancel (Int.dvd_of_emod_eq_zero hal)

theorem sliceFields_fst (a : Int) (ws : List Nat) : (sliceFields a ws).map Prod.fst = ws := by
  induction ws generalizing a with
  | nil => rfl
  | cons w ws ih => simp [sliceFields, ih]

theorem sliceFields_valid (a : Int) (ws : List Nat) :
    ∀ f ∈ sliceFields a ws, 0 ≤ f.2 ∧ f.2 < 2 ^ f.1 := by
  induction ws generalizing a with
  | nil => simp [sliceFields]
  | cons w ws ih =>
    intro f hf
    simp only [sliceFields, List.mem_cons] at hf
    have hp : (0 : Int) < 2 ^ w := by positivity
    rcases hf with rfl | hf
    · exact ⟨Int.emod_nonneg a (ne_of_gt hp), Int.emod_lt_of_pos a hp⟩
    · exact ih _ f hf

/-- The shift/OR fold of fields that fit their widths stays below the
accumulated width. -/
theorem orFields_bound (fs : List (Nat × Int)) (acc : Int) (h0 : 0 ≤ acc)
    (hf : ∀ f ∈ fs, 0 ≤ f.2 ∧ f.2 < 2 ^ f.1) :
    0 ≤ orFields acc fs ∧ orFields acc fs + 1 ≤ (acc + 1) * 2 ^ (fs.map Prod.fst).sum := by
  induction fs generalizing acc with
  | nil => simp [orFields, h0]
  | cons f fs ih =>
    obtain ⟨hc0, hc1⟩ := hf f (List.mem_cons_self _ _)
    have hstep : orFields acc (f :: fs) = orFields (acc * 2 ^ f.1 + f.2) fs := by
      simp only [orFields, List.foldl_cons]
      rw [lor_shl64 acc f.2 f.1 h0 hc0 hc1]
    have hp : (0 : Int) < 2 ^ f.1 := by positivity
    have hacc : 0 ≤ acc * 2 ^ f.1 + f.2 := by positivity
    obtain ⟨i0, i1⟩ := ih (acc * 2 ^ f.1 + f.2) hacc
      (fun g hg => hf g (List.mem_cons_of_mem _ hg))
    rw [hstep]
    refine ⟨i0, le_trans i1 ?_⟩
    simp only [List.map_cons, List.sum_cons, pow_add]
    have hq : (0 : Int) ≤ 2 ^ (fs.map Prod.fst).sum := by positivity
    have h1 : acc * 2 ^ f.1 + f.2 + 1 ≤ (acc + 1) * 2 ^ f.1 := by
      have e : (acc + 1) * 2 ^ f.1 = acc * 2 ^ f.1 + 2 ^ f.1 := by ring
      omega
    calc (acc * 2 ^ f.1 + f.2 + 1) * 2 ^ (fs.map Prod.fst).sum
        ≤ ((acc + 1) * 2 ^ f.1) * 2 ^ (fs.map Prod.fst).sum :=
          mul_le_mul_of_nonneg_right h1 hq
      _ = (acc + 1) * (2 ^ f.1 * 2 ^ (fs.map Prod.fst).sum) := by ring

/-- Slicing `A >> t` by the widths `ws` and folding the fields back, then
shifting by `t`, gives `A` exactly when `A` has no bit above the fields. -/
theorem roundtrip_iff (A : Int) (t : Nat) (ws : List Nat) (hal : A % 2 ^ t = 0) :
    shl64 (orFields 0 (sliceFields (A >>> t) ws).reverse) t = A
      ↔ 0 ≤ A ∧ A < 2 ^ (t + ws.sum) := by
  constructor
  · intro h
    have hv : ∀ f ∈ (sliceFields (A >>> t) ws).reverse, 0 ≤ f.2 ∧ f.2 < 2 ^ f.1 := by
      intro f hf
      exact sliceFields_valid _ _ f (List.mem_reverse.mp hf)
    obtain ⟨b0, b1⟩ := orFields_bound _ 0 (le_refl _) hv
    rw [List.map_reverse, List.sum_reverse, sliceFields_fst, zero_add, one_mul] at b1
    have hp : (0 : Int) < 2 ^ t := by positivity
    unfold shl64 at h
    rw [← h, pow_add, mul_comm ((2 : Int) ^ t)]
    constructor
    · positivity
    · exact mul_lt_mul_of_pos_right (by omega) hp
  · intro h
    obtain ⟨ha0, ha1, hsh⟩ := clear_tx_bits A t ws.sum h.1 h.2 hal
    have hf := orFields_sliceFields (A >>> t) ws ha0
    rw [shiftRight_eq_zero _ _ ha0 ha1] at hf
    rw [hf, hsh]

/-- C1 (amended). For both supported schemes on the six-level geometry and
every transaction-aligned address `A`, mapping `A` with the slicing of
`send`, recomposing the coordinates in the reverse of the slicing order and
re-appending `tx_bits` zero bits reproduces `A` exactly when `A` lies inside
the address space, `0 ≤ A < 2^(tx_bits + Σ addr_bits)`, and only then. -/
theorem C1_roundtrip_in_address_space (m : Memory) (req : Request)
    (ht : m.type = MapType.ChRaBaRoCo ∨ m.type = MapType.RoBaRaCoCh)
    (hl : m.addr_bits.length = 6)
    (hb : ∀ b ∈ m.addr_bits, 0 ≤ b ∧ b ≤ 30) (htx : 0 ≤ m.tx_bits)
    (hal : req.addr % 2 ^ m.tx_bits.toNat = 0) :
    ∃ vec, mapAddress m req = some vec ∧
      (recompose m vec = req.addr
        ↔ 0 ≤ req.addr ∧ req.addr < 2 ^ (m.tx_bits + m.addr_bits.sum).toNat) := by
  rw [total_width m hl hb htx]
  rcases ht with ht | ht
  · refine ⟨_, mapAddress_ChRaBaRoCo m req ht hl hb, ?_⟩
    have hr := roundtrip_iff req.addr m.tx_bits.toNat
      [width m 5, width m 4, width m 3, width m 2, width m 1, width m 0] hal
    have e : [width m 5, width m 4, width m 3, width m 2, width m 1, width m 0].sum
        = width m 0 + width m 1 + width m 2 + width m 3 + width m 4 + width m 5 := by
      simp only [List.sum_cons, List.sum_nil]
      omega
    rw [e] at hr
    rw [← hr, recompose_eq, ht]
    simp only [sliceOrder, List.map_cons, List.map_nil, List.getD_cons_zero, List.getD_cons_succ,
      bitField, sliceFields, Int.shiftRight_add, shiftRight_zero]
  · refine ⟨_, mapAddress_RoBaRaCoCh m req ht hl hb, ?_⟩
    have hr := roundtrip_iff req.addr m.tx_bits.toNat
      [width m 0, width m 5, width m 1, width m 2, width m 3, width m 4] hal
    have e : [width m 0, width m 5, width m 1, width m 2, width m 3, width m 4].sum
        = width m 0 + width m 1 + width m 2 + width m 3 + width m 4 + width m 5 := by
      simp only [List.sum_cons, List.sum_nil]
      omega
    rw [e] at hr
    rw [← hr, recompose_eq, ht]
    simp only [sliceOrder, List.map_cons, List.map_nil, List.getD_cons_zero, List.getD_cons_succ,
      bitField, sliceFields, Int.shiftRight_add, shiftRight_zero]

theorem C1_roundtrip_in_address_space_witness :
    ∃ vec, mapAddress hbmExample (mkRequest 4294967232 0 ReqType.READ) = some vec ∧
      (recompose hbmExample vec = (mkRequest 4294967232 0 ReqType.READ).addr
        ↔ 0 ≤ (mkRequest 4294967232 0 ReqType.READ).addr ∧
          (mkRequest 4294967232 0 ReqType.READ).addr
            < 2 ^ (hbmExample.tx_bits + hbmExample.addr_bits.sum).toNat) :=
  C1_roundtrip_in_address_space hbmExample (mkRequest 4294967232 0 ReqType.READ)
    (Or.inr rfl) rfl (by decide) (by decide) (by decide)

/-- C1 (counterexample). The HBM example has 26 level bits above 6
transaction bits; the transaction-aligned address `2^32` maps to the zero
vector, which recomposes to `0`. -/
theorem C1_counterexample :
    (4294967296 : Int) % 2 ^ 6 = 0 ∧
    mapAddress hbmExample (mkRequest 4294967296 0 ReqType.READ) = some [0, 0, 0, 0, 0, 0] ∧
    recompose hbmExample [0, 0, 0, 0, 0, 0] ≠ 4294967296 := by
  decide

/-- C2 (amended). Under RoBaRaCoCh on the six HBM levels, with
`a = addr >> tx_bits`, the mapping of `send` gives Channel the lowest
`addr_bits[0]` bits of `a`, gives the last level (Column) the next field,
and gives levels 1..Row, in increasing level order, the fields above it, so
that Row holds the highest-order field. -/
theorem C2_RoBaRaCoCh_layout (m : Memory) (req : Request)
    (ht : m.type = MapType.RoBaRaCoCh) (hl : m.addr_bits.length = 6) (_htx : 0 ≤ m.tx_bits)
    (hb : ∀ b ∈ m.addr_bits, 0 ≤ b ∧ b ≤ 30) :
    mapAddress m req = some
      [bitField (req.addr >>> m.tx_bits.toNat) 0 (width m 0),
       bitField (req.addr >>> m.tx_bits.toNat) (width m 0 + width m 5) (width m 1),
       bitField (req.addr >>> m.tx_bits.toNat) (width m 0 + width m 5 + width m 1) (width m 2),
       bitField (req.addr >>> m.tx_bits.toNat)
         (width m 0 + width m 5 + width m 1 + width m 2) (width m 3),
       bitField (req.addr >>> m.tx_bits.toNat)
         (width m 0 + width m 5 + width m 1 + width m 2 + width m 3) (width m 4),
       bitField (req.addr >>> m.tx_bits.toNat) (width m 0) (width m 5)] :=
  mapAddress_RoBaRaCoCh m req ht hl hb

theorem C2_RoBaRaCoCh_layout_witness :
    mapAddress hbmExample (mkRequest 512 0 ReqType.READ) = some
      [bitField ((512 : Int) >>> 6) 0 3, bitField ((512 : Int) >>> 6) (3 + 5) 0,
       bitField ((512 : Int) >>> 6) (3 + 5 + 0) 2, bitField ((512 : Int) >>> 6) (3 + 5 + 0 + 2) 2,
       bitField ((512 : Int) >>> 6) (3 + 5 + 0 + 2 + 2) 14, bitField ((512 : Int) >>> 6) 3 5] :=
  C2_RoBaRaCoCh_layout hbmExample (mkRequest 512 0 ReqType.READ) rfl rfl (by decide) (by decide)

/-- C2 (counterexample). On the HBM example, address 512 sets bit 3 of
`addr >> 6`: the code puts it in Column, the worded layout in BankGroup; and
address `2^31` sets the top bit, which the code puts in Row and the worded
layout in Column. -/
theorem C2_counterexample :
    mapAddress hbmExample (mkRequest 512 0 ReqType.READ)
      ≠ some (wordedRoBaRaCoCh hbmExample 512) ∧
    mapAddress hbmExample (mkRequest 512 0 ReqType.READ) = some [0, 0, 0, 0, 0, 1] ∧
    wordedRoBaRaCoCh hbmExample 512 = [0, 0, 1, 0, 0, 0] ∧
    mapAddress hbmExample (mkRequest 2147483648 0 ReqType.READ) = some [0, 0, 0, 0, 8192, 0] ∧
    wordedRoBaRaCoCh hbmExample 2147483648 = [0, 0, 0, 0, 0, 16] := by
  decide

/-! ## PIM hop latency -/

/-- C7. The hop latency is 0 when source and destination unit are equal,
whatever the sub-units, 6 for a read across units and 5 for any other access
across units; nothing else enters the result. -/
theorem C7_hop_latency (source_p source_c destination_p destination_c : Int) (read : Bool) :
    calculate_extra_movement_latency source_p source_c destination_p destination_c read
      = if source_p = destination_p then 0 else if read then 6 else 5 := by
  unfold calculate_extra_movement_latency
  by_cases h : source_p = destination_p
  · simp only [h, if_true, mul_zero]
    decide
  · cases read
    · simp [h]
    · simp only [h, if_false, if_true]
      decide

/-! ## The dispatcher -/

theorem shl32_one_ne_zero (t : Int) (h0 : 0 ≤ t) (h1 : t ≤ 30) : shl32 1 t ≠ 0 := by
  have hb : t.toNat ≤ 30 := by omega
  have hp : (2 : Int) ^ t.toNat ≤ 2 ^ 30 := pow_le_pow_right₀ (by norm_num) hb
  have hp0 : (0 : Int) < 2 ^ t.toNat := by positivity
  unfold shl32
  rw [one_mul, wrapInt32_of_range _ (by omega) (by omega)]
  omega

theorem length_incrAt (v : List Nat) (i : Int) : (incrAt v i).length = v.length := by
  unfold incrAt
  split <;> simp

theorem getD_incrAt (v : List Nat) (i : Int) (c : Nat) (hc : c < v.length) :
    (incrAt v i).getD c 0 = v.getD c 0 + if i = (c : Int) then 1 else 0 := by
  unfold incrAt
  by_cases hi : 0 ≤ i
  · simp only [hi, if_true, List.getD_eq_getElem?_getD, List.getElem?_modify,
      List.getElem?_eq_getElem hc, Option.map_eq_map, Option.map_some', Option.getD_some]
    have e : (i.toNat = c) ↔ (i = (c : Int)) := by omega
    by_cases h : i = (c : Int)
    · simp [h]
    · have h' : ¬ i.toNat = c := fun x => h (e.mp x)
      simp [h, h']
  · have h : ¬ i = (c : Int) := by omega
    simp [hi, h]

/-- The mapping part of `send` succeeds on a supported scheme. -/
theorem mapRequest_some (m : Memory) (req : Request) (ht : m.type ≠ MapType.MAX)
    (htx : 0 ≤ m.tx_bits ∧ m.tx_bits ≤ 30) :
    ∃ r, mapRequest m req = some r ∧ r.type = req.type ∧ r.coreid = req.coreid ∧
      r.childid = req.childid ∧ mapAddress m req = some r.addr_vec := by
  have hs := shl32_one_ne_zero m.tx_bits htx.1 htx.2
  unfold mapRequest
  rw [if_neg hs]
  cases hty : m.type with
  | MAX => exact absurd hty ht
  | ChRaBaRoCo => simp [mapAddress, hty]
  | RoBaRaCoCh => simp [mapAddress, hty]

theorem mapRequest_congr (m m' : Memory) (req : Request) (h : config m' = config m) :
    mapRequest m' req = mapRequest m req := by
  simp only [config, Prod.mk.injEq] at h
  obtain ⟨h1, h2, h3, h4, _⟩ := h
  simp only [mapRequest, mapAddress, h1, h2, h3, h4]

theorem pimBlock_snd_congr (m m' : Memory) (r : Request) (h : config m' = config m) :
    (pimBlock m' r).2 = (pimBlock m r).2 := by
  simp only [config, Prod.mk.injEq] at h
  obtain ⟨_, _, _, _, h5⟩ := h
  unfold pimBlock
  rw [h5]
  split <;> rfl

theorem forwarded_congr (m m' : Memory) (req : Request) (h : config m' = config m) :
    forwarded m' req = forwarded m req := by
  unfold forwarded
  rw [mapRequest_congr m m' req h]
  cases mapRequest m req with
  | none => rfl
  | some r => simp [pimBlock_snd_congr m m' r h]

theorem channelOf_congr (m m' : Memory) (req : Request) (h : config m' = config m) :
    channelOf m' req = channelOf m req := by
  unfold channelOf
  rw [forwarded_congr m m' req h]

theorem enqueueAnswer_congr (m m' : Memory) (h : config m' = config m) :
    enqueueAnswer m' = enqueueAnswer m := by
  funext c
  unfold enqueueAnswer
  rw [forwarded_congr m m' c.2 h]

theorem pimBlock_snd_fields (m : Memory) (r : Request) :
    (pimBlock m r).2.type = r.type ∧ (pimBlock m r).2.addr_vec = r.addr_vec := by
  unfold pimBlock
  split <;> simp

/-- The PIM block writes only the latency sum and the access table. -/
theorem pimBlock_fst_fields (m : Memory) (r : Request) :
    config (pimBlock m r).1 = config m ∧
    (pimBlock m r).1.num_incoming_requests = m.num_incoming_requests ∧
    (pimBlock m r).1.incoming_requests_per_channel = m.incoming_requests_per_channel ∧
    (pimBlock m r).1.num_read_requests = m.num_read_requests ∧
    (pimBlock m r).1.num_write_requests = m.num_write_requests ∧
    (pimBlock m r).1.incoming_read_reqs_per_channel = m.incoming_read_reqs_per_channel := by
  unfold pimBlock addressAccCountTable_insert config
  by_cases hp : m.pim_mode_enabled = true <;> by_cases hr : r.type = ReqType.READ <;>
    simp [hp, hr]

/-- The counters after the tally of an accepted request. -/
theorem tally_fields (m : Memory) (r : Request) (coreid : Int) :
    config (tally m r coreid) = config m ∧
    (tally m r coreid).num_incoming_requests = m.num_incoming_requests + 1 ∧
    (tally m r coreid).incoming_requests_per_channel
      = incrAt m.incoming_requests_per_channel (r.addr_vec.getD Level.Channel.toNat 0) ∧
    (tally m r coreid).num_read_requests
      = (if r.type = ReqType.READ then incrAt m.num_read_requests coreid
         else m.num_read_requests) ∧
    (tally m r coreid).num_write_requests
      = (if r.type = ReqType.WRITE then incrAt m.num_write_requests coreid
         else m.num_write_requests) ∧
    (tally m r coreid).incoming_read_reqs_per_channel
      = (if r.type = ReqType.READ then
           incrAt m.incoming_read_reqs_per_channel (r.addr_vec.getD Level.Channel.toNat 0)
         else m.incoming_read_reqs_per_channel) := by
  unfold tally config
  cases r.type <;> simp

/-- One call of `send`: it returns the controller's answer, keeps the
configuration, and moves the admission counters only when accepted. -/
theorem send_effect (m : Memory) (ctrls : Int → Request → Bool) (req : Request)
    (ht : m.type ≠ MapType.MAX) (htx : 0 ≤ m.tx_bits ∧ m.tx_bits ≤ 30) :
    ∃ m1, send m ctrls req = some (m1, enqueueAnswer m (ctrls, req)) ∧ config m1 = config m ∧
      m1.num_incoming_requests
        = m.num_incoming_requests + (if enqueueAnswer m (ctrls, req) then 1 else 0) ∧
      m1.incoming_requests_per_channel
        = (if enqueueAnswer m (ctrls, req) then
             incrAt m.incoming_requests_per_channel (channelOf m req)
           else m.incoming_requests_per_channel) ∧
      m1.num_read_requests
        = (if enqueueAnswer m (ctrls, req) = true ∧ req.type = ReqType.READ then
             incrAt m.num_read_requests req.coreid
           else m.num_read_requests) ∧
      m1.num_write_requests
        = (if enqueueAnswer m (ctrls, req) = true ∧ req.type = ReqType.WRITE then
             incrAt m.num_write_requests req.coreid
           else m.num_write_requests) ∧
      m1.incoming_read_reqs_per_channel
        = (if enqueueAnswer m (ctrls, req) = true ∧ req.type = ReqType.READ then
             incrAt m.incoming_read_reqs_per_channel (channelOf m req)
           else m.incoming_read_reqs_per_channel) := by
  obtain ⟨r, hr, hty, hco, _, _⟩ := mapRequest_some m req ht htx
  obtain ⟨pty, pvec⟩ := pimBlock_snd_fields m r
  obtain ⟨p0, p1, p2, p3, p4, p5⟩ := pimBlock_fst_fields m r
  obtain ⟨t0, t1, t2, t3, t4, t5⟩ := tally_fields (pimBlock m r).1 (pimBlock m r).2 r.coreid
  have hans : enqueueAnswer m (ctrls, req)
      = ctrls ((pimBlock m r).2.addr_vec.getD 0 0) (pimBlock m r).2 := by
    simp [enqueueAnswer, forwarded, hr]
  have hch : channelOf m req = (pimBlock m r).2.addr_vec.getD Level.Channel.toNat 0 := by
    simp [channelOf, forwarded, hr]
  rw [hans, hch]
  unfold send
  simp only [hr]
  cases hc : ctrls ((pimBlock m r).2.addr_vec.getD 0 0) (pimBlock m r).2
  · refine ⟨(pimBlock m r).1, by simp, p0, ?_, ?_, ?_, ?_, ?_⟩ <;> simp [p1, p2, p3, p4, p5]
  · refine ⟨tally (pimBlock m r).1 (pimBlock m r).2 r.coreid, by simp, t0.trans p0,
      ?_, ?_, ?_, ?_, ?_⟩
    · simp [t1, p1]
    · simp [t2, p2]
    · rw [t3, pty, hty, p3, hco]
      simp
    · rw [t4, pty, hty, p4, hco]
      simp
    · rw [t5, pty, hty, p5]
      simp

theorem getD_step (v : List Nat) (b : Bool) (i : Int) (c : Nat) (hc : c < v.length) :
    (if b = true then incrAt v i else v).getD c 0
      = v.getD c 0 + if (b && decide (i = (c : Int))) = true then 1 else 0 := by
  cases b
  · simp
  · have h := getD_incrAt v i c hc
    simpa using h

theorem length_step (v : List Nat) (b : Bool) (i : Int) :
    (if b = true then incrAt v i else v).length = v.length := by
  cases b <;> simp [length_incrAt]

/-- A sequence of `send` calls: the returned booleans are the controllers'
answers and every admission counter grows by the number of accepted calls
that address it. -/
theorem sendSeq_effect (calls : List ((Int → Request → Bool) × Request)) (m : Memory)
    (ht : m.type ≠ MapType.MAX) (htx : 0 ≤ m.tx_bits ∧ m.tx_bits ≤ 30) :
    ∃ m', sendSeq m calls = some (m', calls.map (enqueueAnswer m)) ∧ config m' = config m ∧
      m'.num_incoming_requests = m.num_incoming_requests + calls.countP (enqueueAnswer m) ∧
      (m'.incoming_requests_per_channel.length = m.incoming_requests_per_channel.length ∧
        ∀ c, c < m.incoming_requests_per_channel.length →
          m'.incoming_requests_per_channel.getD c 0
            = m.incoming_requests_per_channel.getD c 0
              + calls.countP (acceptedOnChannel m c)) ∧
      (m'.num_read_requests.length = m.num_read_requests.length ∧
        ∀ k, k < m.num_read_requests.length →
          m'.num_read_requests.getD k 0
            = m.num_read_requests.getD k 0
              + calls.countP (acceptedOfCore m ReqType.READ k)) ∧
      (m'.num_write_requests.length = m.num_write_requests.length ∧
        ∀ k, k < m.num_write_requests.length →
          m'.num_write_requests.getD k 0
            = m.num_write_requests.getD k 0
              + calls.countP (acceptedOfCore m ReqType.WRITE k)) ∧
      (m'.incoming_read_reqs_per_channel.length = m.incoming_read_reqs_per_channel.length ∧
        ∀ c, c < m.incoming_read_reqs_per_channel.length →
          m'.incoming_read_reqs_per_channel.getD c 0
            = m.incoming_read_reqs_per_channel.getD c 0
              + calls.countP (acceptedReadOnChannel m c)) := by
  induction calls generalizing m with
  | nil => exact ⟨m, rfl, rfl, by simp, by simp, by simp, by simp, by simp⟩
  | cons x xs ih =>
    obtain ⟨m1, hs, hcfg, e0, e1, e2, e3, e4⟩ := send_effect m x.1 x.2 ht htx
    have hcf := hcfg
    simp only [config, Prod.mk.injEq] at hcf
    obtain ⟨m2, hseq, hcfg2, f0, ⟨l1, f1⟩, ⟨l2, f2⟩, ⟨l3, f3⟩, ⟨l4, f4⟩⟩ :=
      ih m1 (by rw [hcf.1]; exact ht) (by rw [hcf.2.2.1]; exact htx)
    have hA : enqueueAnswer m1 = enqueueAnswer m := enqueueAnswer_congr m m1 hcfg
    have hC : ∀ c, acceptedOnChannel m1 c = acceptedOnChannel m c := by
      intro c
      funext y
      simp only [acceptedOnChannel, hA, channelOf_congr m m1 y.2 hcfg]
    have hR : ∀ c, acceptedReadOnChannel m1 c = acceptedReadOnChannel m c := by
      intro c
      funext y
      simp only [acceptedReadOnChannel, hA, channelOf_congr m m1 y.2 hcfg]
    have hK : ∀ t k, acceptedOfCore m1 t k = acceptedOfCore m t k := by
      intro t k
      funext y
      simp only [acceptedOfCore, hA]
    rw [hA] at hseq f0
    simp only [hC] at f1
    simp only [hK] at f2 f3
    simp only [hR] at f4
    have b1 : (enqueueAnswer m x = true ∧ x.2.type = ReqType.READ)
        ↔ (enqueueAnswer m x && decide (x.2.type = ReqType.READ)) = true := by simp
    have b2 : (enqueueAnswer m x = true ∧ x.2.type = ReqType.WRITE)
        ↔ (enqueueAnswer m x && decide (x.2.type = ReqType.WRITE)) = true := by simp
    change m1.num_read_requests = (if enqueueAnswer m x = true ∧ x.2.type = ReqType.READ then _
      else _) at e2
    change m1.num_write_requests = (if enqueueAnswer m x = true ∧ x.2.type = ReqType.WRITE then _
      else _) at e3
    change m1.incoming_read_reqs_per_channel
      = (if enqueueAnswer m x = true ∧ x.2.type = ReqType.READ then _ else _) at e4
    change m1.incoming_requests_per_channel = (if enqueueAnswer m x = true then _ else _) at e1
    change m1.num_incoming_requests = _ + (if enqueueAnswer m x = true then 1 else 0) at e0
    simp only [b1] at e2 e4
    simp only [b2] at e3
    refine ⟨m2, ?_, hcfg2.trans hcfg, ?_, ⟨?_, ?_⟩, ⟨?_, ?_⟩, ⟨?_, ?_⟩, ⟨?_, ?_⟩⟩
    · simp only [sendSeq, hs, hseq, List.map_cons]
    · rw [f0, e0, List.countP_cons]
      omega
    · rw [l1, e1, length_step]
    · intro c hc
      rw [f1 c (by rw [e1, length_step]; exact hc), e1, getD_step _ _ _ _ hc, List.countP_cons]
      simp only [acceptedOnChannel]
      omega
    · rw [l2, e2, length_step]
    · intro k hk
      rw [f2 k (by rw [e2, length_step]; exact hk), e2, getD_step _ _ _ _ hk, List.countP_cons]
      simp only [acceptedOfCore]
      omega
    · rw [l3, e3, length_step]
    · intro k hk
      rw [f3 k (by rw [e3, length_step]; exact hk), e3, getD_step _ _ _ _ hk, List.countP_cons]
      simp only [acceptedOfCore]
      omega
    · rw [l4, e4, length_step]
    · intro c hc
      rw [f4 c (by rw [e4, length_step]; exact hc), e4, getD_step _ _ _ _ hc, List.countP_cons]
      simp only [acceptedReadOnChannel]
      omega

/-- C5. For every sequence of `send` calls with arbitrary controller
answers and core ids within range, the calls return exactly the controllers'
answers, and afterwards `num_incoming_requests` has grown by the number of
`true` returns, each per-channel counter by the number of accepted requests
(reads) on that channel, each per-core counter by the number of accepted
reads (writes) of that core; a rejected call changes none of these counters. -/
theorem C5_admission_accounting (m : Memory) (calls : List ((Int → Request → Bool) × Request))
    (ht : m.type ≠ MapType.MAX) (htx : 0 ≤ m.tx_bits ∧ m.tx_bits ≤ 30)
    (_hcore : ∀ x ∈ calls, 0 ≤ x.2.coreid ∧ x.2.coreid < m.num_read_requests.length ∧
      x.2.coreid < m.num_write_requests.length) :
    (∃ m', sendSeq m calls = some (m', calls.map (enqueueAnswer m)) ∧
      m'.num_incoming_requests
        = m.num_incoming_requests + (calls.map (enqueueAnswer m)).count true ∧
      (∀ c, c < m.incoming_requests_per_channel.length →
        m'.incoming_requests_per_channel.getD c 0
          = m.incoming_requests_per_channel.getD c 0 + calls.countP (acceptedOnChannel m c)) ∧
      (∀ k, k < m.num_read_requests.length →
        m'.num_read_requests.getD k 0
          = m.num_read_requests.getD k 0 + calls.countP (acceptedOfCore m ReqType.READ k)) ∧
      (∀ k, k < m.num_write_requests.length →
        m'.num_write_requests.getD k 0
          = m.num_write_requests.getD k 0 + calls.countP (acceptedOfCore m ReqType.WRITE k)) ∧
      (∀ c, c < m.incoming_read_reqs_per_channel.length →
        m'.incoming_read_reqs_per_channel.getD c 0
          = m.incoming_read_reqs_per_channel.getD c 0
            + calls.countP (acceptedReadOnChannel m c))) ∧
    (∀ ctrls req m1, send m ctrls req = some (m1, false) →
      m1.num_incoming_requests = m.num_incoming_requests ∧
      m1.incoming_requests_per_channel = m.incoming_requests_per_channel ∧
      m1.num_read_requests = m.num_read_requests ∧
      m1.num_write_requests = m.num_write_requests ∧
      m1.incoming_read_reqs_per_channel = m.incoming_read_reqs_per_channel) := by
  constructor
  · obtain ⟨m', h, _, f0, ⟨_, f1⟩, ⟨_, f2⟩, ⟨_, f3⟩, ⟨_, f4⟩⟩ := sendSeq_effect calls m ht htx
    refine ⟨m', h, ?_, f1, f2, f3, f4⟩
    rw [f0, List.count, List.countP_map]
    congr 2
    funext x
    simp
  · intro ctrls req m1 h
    obtain ⟨m2, hs, _, e0, e1, e2, e3, e4⟩ := send_effect m ctrls req ht htx
    rw [hs] at h
    simp only [Option.some.injEq, Prod.mk.injEq] at h
    obtain ⟨rfl, hf⟩ := h
    rw [hf] at e0 e1 e2 e3 e4
    simpa using ⟨e0, e1, e2, e3, e4⟩

theorem C5_admission_accounting_witness :
    (∃ m', sendSeq hbmExample exampleCalls
        = some (m', exampleCalls.map (enqueueAnswer hbmExample)) ∧
      m'.num_incoming_requests
        = hbmExample.num_incoming_requests
          + (exampleCalls.map (enqueueAnswer hbmExample)).count true ∧
      (∀ c, c < hbmExample.incoming_requests_per_channel.length →
        m'.incoming_requests_per_channel.getD c 0
          = hbmExample.incoming_requests_per_channel.getD c 0
            + exampleCalls.countP (acceptedOnChannel hbmExample c)) ∧
      (∀ k, k < hbmExample.num_read_requests.length →
        m'.num_read_requests.getD k 0
          = hbmExample.num_read_requests.getD k 0
            + exampleCalls.countP (acceptedOfCore hbmExample ReqType.READ k)) ∧
      (∀ k, k < hbmExample.num_write_requests.length →
        m'.num_write_requests.getD k 0
          = hbmExample.num_write_requests.getD k 0
            + exampleCalls.countP (acceptedOfCore hbmExample ReqType.WRITE k)) ∧
      (∀ c, c < hbmExample.incoming_read_reqs_per_channel.length →
        m'.incoming_read_reqs_per_channel.getD c 0
          = hbmExample.incoming_read_reqs_per_channel.getD c 0
            + exampleCalls.countP (acceptedReadOnChannel hbmExample c))) ∧
    (∀ ctrls req m1, send hbmExample ctrls req = some (m1, false) →
      m1.num_incoming_requests = hbmExample.num_incoming_requests ∧
      m1.incoming_requests_per_channel = hbmExample.incoming_requests_per_channel ∧
      m1.num_read_requests = hbmExample.num_read_requests ∧
      m1.num_write_requests = hbmExample.num_write_requests ∧
      m1.incoming_read_reqs_per_channel = hbmExample.incoming_read_reqs_per_channel) :=
  C5_admission_accounting hbmExample exampleCalls (by decide) (by decide) (by decide)

/-- With near-memory processing off, a rejected `send` leaves the whole
memory object as it was. -/
theorem send_rejected_without_pim (m : Memory) (ctrls : Int → Request → Bool) (req : Request)
    (m1 : Memory) (hp : m.pim_mode_enabled = false) (h : send m ctrls req = some (m1, false)) :
    m1 = m := by
  unfold send at h
  cases hr : mapRequest m req with
  | none => simp [hr] at h
  | some r =>
    have hpb : pimBlock m r = (m, r) := by simp [pimBlock, hp]
    simp only [hr, hpb] at h
    split at h
    · simp at h
    · simp only [Option.some.injEq, Prod.mk.injEq, and_true] at h
      exact h.symm

/-- C6 (failing input). With near-memory processing on, a read of core 0 at
address 64 (channel 1) that the controller rejects still adds its 6 hops to
`read_network_latency_sum` and records the access in the table. -/
theorem C6_rejected_send_changes_state :
    ∃ m1, send pimExample (fun _ _ => false) (mkRequest 64 0 ReqType.READ) = some (m1, false) ∧
      pimExample.read_network_latency_sum = 0 ∧ m1.read_network_latency_sum = 6 ∧
      pimExample.addressAccCountTable = [] ∧ m1.addressAccCountTable = [((0, 0, 0), [1])] ∧
      m1 ≠ pimExample := by
  refine ⟨_, rfl, ?_⟩
  decide

/-! ## Channel interleaving -/

/-- The Channel coordinate of `send` is entry 0 of the mapped vector. -/
theorem channelOf_eq (m : Memory) (req : Request) (ht : m.type ≠ MapType.MAX)
    (htx : 0 ≤ m.tx_bits ∧ m.tx_bits ≤ 30) :
    ∃ vec, mapAddress m req = some vec ∧ channelOf m req = vec.getD 0 0 := by
  obtain ⟨r, hr, _, _, _, hv⟩ := mapRequest_some m req ht htx
  refine ⟨r.addr_vec, hv, ?_⟩
  simp [channelOf, forwarded, hr, (pimBlock_snd_fields m r).2, Level.toNat]

theorem mapFind_mapSet_self {κ ν : Type} [DecidableEq κ] (t : List (κ × ν)) (k : κ) (v : ν) :
    mapFind (mapSet t k v) k = some v := by
  induction t with
  | nil => simp [mapSet, mapFind]
  | cons h t ih =>
    obtain ⟨k1, v1⟩ := h
    by_cases hk : k1 = k
    · simp [mapSet, mapFind, hk]
    · simp [mapSet, mapFind, hk, ih]

theorem mapFind_mapSet_ne {κ ν : Type} [DecidableEq κ] (t : List (κ × ν)) (k k2 : κ) (v : ν)
    (hne : k2 ≠ k) : mapFind (mapSet t k v) k2 = mapFind t k2 := by
  induction t with
  | nil =>
    have h : ¬ k = k2 := fun h => hne h.symm
    simp [mapSet, mapFind, h]
  | cons h t ih =>
    obtain ⟨k1, v1⟩ := h
    by_cases hk : k1 = k
    · have h : ¬ k = k2 := fun h => hne h.symm
      have h1 : ¬ k1 = k2 := fun h => hne (h.symm.trans hk)
      simp [mapSet, mapFind, hk, h]
    · by_cases hk2 : k1 = k2
      · subst hk2
        simp [mapSet, mapFind, hk]
      · simp [mapSet, mapFind, hk, hk2, ih]

theorem length_mapSet_new {κ ν : Type} [DecidableEq κ] (t : List (κ × ν)) (k : κ) (v : ν)
    (h : mapFind t k = none) : (mapSet t k v).length = t.length + 1 := by
  induction t with
  | nil => simp [mapSet]
  | cons x t ih =>
    obtain ⟨k1, v1⟩ := x
    by_cases hk : k1 = k
    · simp [mapFind, hk] at h
    · simp only [mapFind, hk, if_false] at h
      simp [mapSet, hk, ih h]

/-- Entries present before an insertion of an absent key stay as they are. -/
theorem mapFind_mapSet_of_some {κ ν : Type} [DecidableEq κ] (t : List (κ × ν)) (k k2 : κ)
    (v v2 : ν) (hk : mapFind t k = none) (h2 : mapFind t k2 = some v2) :
    mapFind (mapSet t k v) k2 = some v2 := by
  have hne : k2 ≠ k := by
    intro e
    rw [e, hk] at h2
    exact Option.noConfusion h2
  rw [mapFind_mapSet_ne t k k2 v hne, h2]

/-! ## The page allocator -/

/-- One completed call of `page_allocator`: a hit leaves the memory object
as it was; a miss inserts one entry for the key and adds one page to the
footprint; the policy is kept and the result is read off the table. -/
theorem page_allocator_effect (m : Memory) (addr coreid : Int) (r : Nat) (m1 : Memory) (pa : Int)
    (h : page_allocator m addr coreid r = some (m1, pa)) :
    m1.translation = m.translation ∧ m.translation ≠ Translation.MAX ∧
    (mapFind m.page_translation (coreid, addr >>> (12 : Nat)) ≠ none → m1 = m) ∧
    (mapFind m.page_translation (coreid, addr >>> (12 : Nat)) = none →
      ∃ v, m1.page_translation = mapSet m.page_translation (coreid, addr >>> (12 : Nat)) v ∧
        (m.translation = Translation.None → v = addr >>> (12 : Nat)) ∧
        m1.memory_footprint = m.memory_footprint + 4096) ∧
    pa = (if m.translation = Translation.None then addr
          else physicalAddress
            ((mapFind m1.page_translation (coreid, addr >>> (12 : Nat))).getD 0) addr) := by
  unfold page_allocator at h
  cases ht : m.translation with
  | MAX => simp [ht] at h
  | None =>
    simp only [ht] at h
    by_cases hf : mapFind m.page_translation (coreid, addr >>> (12 : Nat)) = none
    · simp only [hf, if_true, Option.some.injEq, Prod.mk.injEq] at h
      obtain ⟨rfl, rfl⟩ := h
      simp [hf, ht]
    · simp only [hf, if_false, Option.some.injEq, Prod.mk.injEq] at h
      obtain ⟨rfl, rfl⟩ := h
      simp [hf, ht]
  | Random =>
    simp only [ht] at h
    by_cases hf : mapFind m.page_translation (coreid, addr >>> (12 : Nat)) = none
    · simp only [hf, if_true] at h
      split at h
      · split at h
        · exact Option.noConfusion h
        · split at h
          · exact Option.noConfusion h
          · simp only [Option.some.injEq, Prod.mk.injEq] at h
            obtain ⟨rfl, rfl⟩ := h
            simp [hf, ht]
      · split at h
        · exact Option.noConfusion h
        · split at h
          · exact Option.noConfusion h
          · split at h
            · exact Option.noConfusion h
            · simp only [Option.some.injEq, Prod.mk.injEq] at h
              obtain ⟨rfl, rfl⟩ := h
              simp [hf, ht]
    · simp only [hf, if_false, Option.some.injEq, Prod.mk.injEq] at h
      obtain ⟨rfl, rfl⟩ := h
      simp [hf, ht]

/-- C8. Under `Translation::None`, for every address, core and prior state,
`page_allocator` returns the address unchanged; on a first touch it creates
the entry of `(coreid, addr >> 12)` with the value `addr >> 12`, on a later
touch it leaves the state alone, and it keeps "every entry holds its own
virtual page number" true. -/
theorem C8_identity_translation (m : Memory) (addr coreid : Int) (r : Nat)
    (ht : m.translation = Translation.None) :
    ∃ m1, page_allocator m addr coreid r = some (m1, addr) ∧
      (mapFind m.page_translation (coreid, addr >>> (12 : Nat)) = none →
        mapFind m1.page_translation (coreid, addr >>> (12 : Nat)) = some (addr >>> (12 : Nat))) ∧
      (mapFind m.page_translation (coreid, addr >>> (12 : Nat)) ≠ none → m1 = m) ∧
      ((∀ k v, mapFind m.page_translation k = some v → v = k.2) →
        ∀ k v, mapFind m1.page_translation k = some v → v = k.2) := by
  by_cases hf : mapFind m.page_translation (coreid, addr >>> (12 : Nat)) = none
  · have hcall : page_allocator m addr coreid r
        = some ({ m with
            memory_footprint := m.memory_footprint + 2 ^ 12,
            page_translation :=
              mapSet m.page_translation (coreid, addr >>> (12 : Nat)) (addr >>> (12 : Nat)) },
          addr) := by
      simp only [page_allocator, ht, hf, if_true]
    refine ⟨_, hcall, ?_, ?_, ?_⟩
    · intro _
      exact mapFind_mapSet_self _ _ _
    · intro h
      exact absurd hf h
    · intro hinv k v hk
      by_cases e : k = (coreid, addr >>> (12 : Nat))
      · subst e
        rw [mapFind_mapSet_self] at hk
        exact (Option.some.inj hk).symm
      · rw [mapFind_mapSet_ne _ _ _ _ e] at hk
        exact hinv k v hk
  · have hcall : page_allocator m addr coreid r = some (m, addr) := by
      simp only [page_allocator, ht, hf, if_false]
    refine ⟨m, hcall, ?_, ?_, ?_⟩
    · intro h
      exact absurd h hf
    · intro _
      rfl
    · intro hinv
      exact hinv

theorem C8_identity_translation_witness :
    ∃ m1, page_allocator hbmExample 8200 1 0 = some (m1, 8200) ∧
      (mapFind hbmExample.page_translation (1, (8200 : Int) >>> (12 : Nat)) = none →
        mapFind m1.page_translation (1, (8200 : Int) >>> (12 : Nat))
          = some ((8200 : Int) >>> (12 : Nat))) ∧
      (mapFind hbmExample.page_translation (1, (8200 : Int) >>> (12 : Nat)) ≠ none →
        m1 = hbmExample) ∧
      ((∀ k v, mapFind hbmExample.page_translation k = some v → v = k.2) →
        ∀ k v, mapFind m1.page_translation k = some v → v = k.2) :=
  C8_identity_translation hbmExample 8200 1 0 rfl

/-- A completed sequence of calls keeps the policy, keeps every entry of the
table, and keeps the footprint equal to 4096 times the number of entries. -/
theorem pageAllocatorSeq_effect (calls : List (Int × Int × Nat)) (m m2 : Memory)
    (h : pageAllocatorSeq m calls = some m2) :
    m2.translation = m.translation ∧
    (∀ k v, mapFind m.page_translation k = some v → mapFind m2.page_translation k = some v) ∧
    (m.memory_footprint = 4096 * m.page_translation.length →
      m2.memory_footprint = 4096 * m2.page_translation.length) := by
  induction calls generalizing m with
  | nil =>
    simp only [pageAllocatorSeq, Option.some.injEq] at h
    subst h
    exact ⟨rfl, fun _ _ h => h, fun h => h⟩
  | cons c cs ih =>
    simp only [pageAllocatorSeq] at h
    cases hc : page_allocator m c.1 c.2.1 c.2.2 with
    | none => simp [hc] at h
    | some p =>
      obtain ⟨m1, pa⟩ := p
      simp only [hc] at h
      obtain ⟨t1, k1, f1⟩ := ih m1 h
      obtain ⟨e1, _, ehit, emiss, _⟩ := page_allocator_effect m c.1 c.2.1 c.2.2 m1 pa hc
      by_cases hf : mapFind m.page_translation (c.2.1, c.1 >>> (12 : Nat)) = none
      · obtain ⟨v, hv, _, hfp⟩ := emiss hf
        refine ⟨t1.trans e1, ?_, ?_⟩
        · intro k w hk
          apply k1
          rw [hv]
          exact mapFind_mapSet_of_some _ _ _ _ _ hf hk
        · intro hinv
          apply f1
          rw [hfp, hv, length_mapSet_new _ _ _ hf, hinv]
          ring
      · have e := ehit hf
        subst e
        exact ⟨t1, k1, f1⟩

/-- C9. After any completed sequence of `page_allocator` calls, under either
policy, a further call adds exactly 4096 to `memory_footprint` if its
(core, virtual page) pair is not yet in the translation table and 0
otherwise; so a footprint that equals 4096 times the number of table entries
(as at construction, 0 and 0) keeps doing so. -/
theorem C9_footprint_counts_pages (m : Memory) (calls : List (Int × Int × Nat)) (m1 : Memory)
    (addr coreid : Int) (r : Nat) (m2 : Memory) (pa : Int)
    (hinv : m.memory_footprint = 4096 * m.page_translation.length)
    (hrun : pageAllocatorSeq m calls = some m1)
    (hcall : page_allocator m1 addr coreid r = some (m2, pa)) :
    m2.memory_footprint
      = m1.memory_footprint
        + (if mapFind m1.page_translation (coreid, addr >>> (12 : Nat)) = none then 4096 else 0) ∧
    m2.page_translation.length
      = m1.page_translation.length
        + (if mapFind m1.page_translation (coreid, addr >>> (12 : Nat)) = none then 1 else 0) ∧
    m1.memory_footprint = 4096 * m1.page_translation.length ∧
    m2.memory_footprint = 4096 * m2.page_translation.length := by
  obtain ⟨_, _, f1⟩ := pageAllocatorSeq_effect calls m m1 hrun
  have i1 := f1 hinv
  obtain ⟨_, _, ehit, emiss, _⟩ := page_allocator_effect m1 addr coreid r m2 pa hcall
  by_cases hf : mapFind m1.page_translation (coreid, addr >>> (12 : Nat)) = none
  · obtain ⟨v, hv, _, hfp⟩ := emiss hf
    have hl := length_mapSet_new m1.page_translation (coreid, addr >>> (12 : Nat)) v hf
    rw [← hv] at hl
    simp only [hf, if_true]
    refine ⟨hfp, hl, i1, ?_⟩
    rw [hfp, hl, i1]
    ring
  · have e := ehit hf
    subst e
    simp [hf, i1]

theorem C9_footprint_counts_pages_witness :
    afterFifthTouch.memory_footprint
      = afterTouches.memory_footprint
        + (if mapFind afterTouches.page_translation (0, (16384 : Int) >>> (12 : Nat)) = none
           then 4096 else 0) ∧
    afterFifthTouch.page_translation.length
      = afterTouches.page_translation.length
        + (if mapFind afterTouches.page_translation (0, (16384 : Int) >>> (12 : Nat)) = none
           then 1 else 0) ∧
    afterTouches.memory_footprint = 4096 * afterTouches.page_translation.length ∧
    afterFifthTouch.memory_footprint = 4096 * afterFifthTouch.page_translation.length :=
  C9_footprint_counts_pages randomExample exampleTouches afterTouches 16384 0 1 afterFifthTouch
    4096 (by decide) (by decide) (by decide)

/-- C10. Once `page_allocator` has returned for a key, any completed
sequence of later calls (same or other keys, replacements included, whatever
values are drawn) leaves every existing table entry as it is, the key's
entry among them, and a repeated call with the same `(addr, coreid)` returns,
changes nothing and yields the same physical address. -/
theorem C10_translation_stability (m : Memory) (addr coreid : Int) (r : Nat) (m1 : Memory)
    (pa : Int) (calls : List (Int × Int × Nat)) (m2 : Memory) (r2 : Nat)
    (h1 : page_allocator m addr coreid r = some (m1, pa))
    (hrun : pageAllocatorSeq m1 calls = some m2) :
    (∃ v, mapFind m1.page_translation (coreid, addr >>> (12 : Nat)) = some v ∧
      mapFind m2.page_translation (coreid, addr >>> (12 : Nat)) = some v) ∧
    (∀ k v, mapFind m1.page_translation k = some v → mapFind m2.page_translation k = some v) ∧
    page_allocator m2 addr coreid r2 = some (m2, pa) := by
  obtain ⟨e1, hmax, ehit, emiss, hpa⟩ := page_allocator_effect m addr coreid r m1 pa h1
  obtain ⟨t2, k2, _⟩ := pageAllocatorSeq_effect calls m1 m2 hrun
  have hentry : ∃ v, mapFind m1.page_translation (coreid, addr >>> (12 : Nat)) = some v := by
    by_cases hf : mapFind m.page_translation (coreid, addr >>> (12 : Nat)) = none
    · obtain ⟨v, hv, _, _⟩ := emiss hf
      exact ⟨v, by rw [hv]; exact mapFind_mapSet_self _ _ _⟩
    · have e := ehit hf
      subst e
      exact Option.ne_none_iff_exists'.mp hf
  obtain ⟨v, hv⟩ := hentry
  have hv2 := k2 _ _ hv
  refine ⟨⟨v, hv, hv2⟩, k2, ?_⟩
  have ht2 : m2.translation = m.translation := t2.trans e1
  rw [hv] at hpa
  unfold page_allocator
  cases ht : m.translation with
  | MAX => exact absurd ht hmax
  | None =>
    rw [ht] at ht2 hpa
    simp only [ht2, hv2]
    simpa using hpa.symm
  | Random =>
    rw [ht] at ht2 hpa
    simp only [ht2, hv2]
    simpa using hpa.symm

theorem C10_translation_stability_witness :
    (∃ v, mapFind afterFirstTouch.page_translation (0, (0 : Int) >>> (12 : Nat)) = some v ∧
      mapFind afterTouches.page_translation (0, (0 : Int) >>> (12 : Nat)) = some v) ∧
    (∀ k v, mapFind afterFirstTouch.page_translation k = some v →
      mapFind afterTouches.page_translation k = some v) ∧
    page_allocator afterTouches 0 0 99 = some (afterTouches, 4096) :=
  C10_translation_stability randomExample 0 0 7 afterFirstTouch 4096 exampleTouches.tail
    afterTouches 99 (by decide) (by decide)

/-! ## The probe loop -/

/-- The probe of `page_allocator` needs at most as many iterations as the
pool has frames: with that much fuel it returns a frame of the pool. -/
theorem probeLoop_some (pages : List Int) (start : Nat) (hs : start < pages.length)
    (fuel p : Nat) (hp : p < pages.length)
    (hd : (if p < start then start - p else start + pages.length - p) ≤ fuel) :
    ∃ q, probeLoop pages start fuel p = some q ∧ q < pages.length := by
  induction fuel generalizing p with
  | zero =>
    split at hd <;> omega
  | succ fuel ih =>
    have hq : (p + 1) % pages.length < pages.length := Nat.mod_lt _ (by omega)
    unfold probeLoop
    by_cases hc : (p + 1) % pages.length ≠ start ∧ pages.getD ((p + 1) % pages.length) 0 ≠ -1
    · simp only [hc, ne_eq, not_false_eq_true, and_self, if_true]
      apply ih _ hq
      have hne := hc.1
      by_cases hlt : p + 1 < pages.length
      · rw [Nat.mod_eq_of_lt hlt] at hne ⊢
        split at hd <;> split <;> omega
      · have e : p + 1 = pages.length := by omega
        rw [e, Nat.mod_self] at hne ⊢
        split at hd <;> split <;> omega
    · rw [if_neg hc]
      exact ⟨_, rfl, hq⟩

/-! ## The clock -/

theorem tickLoop_eq {σ : Type} (isActive : σ → Bool) (tickCtrl : σ → σ) (ctrls : List σ)
    (i : Nat) (act : Bool) :
    tickLoop isActive tickCtrl ctrls i act
      = (act || ctrls.any isActive, ctrls.map tickCtrl, List.range' i ctrls.length) := by
  induction ctrls generalizing i act with
  | nil => simp [tickLoop]
  | cons c cs ih => simp [tickLoop, ih, List.range'_succ, Bool.or_assoc]

/-- C14. Every call of `tick` adds exactly 1 to `num_dram_cycles`, advances
every controller exactly once, in index order, adds 1 to
`ramulator_active_cycles` if some controller reports activity and 0
otherwise, and writes nothing else. -/
theorem C14_tick {σ : Type} (isActive : σ → Bool) (tickCtrl : σ → σ) (m : Memory)
    (ctrls : List σ) :
    (tick isActive tickCtrl m ctrls).1.num_dram_cycles = m.num_dram_cycles + 1 ∧
    (tick isActive tickCtrl m ctrls).2.1 = ctrls.map tickCtrl ∧
    (tick isActive tickCtrl m ctrls).2.2 = List.range ctrls.length ∧
    (tick isActive tickCtrl m ctrls).1.ramulator_active_cycles
      = m.ramulator_active_cycles + (if ctrls.any isActive = true then 1 else 0) ∧
    (tick isActive tickCtrl m ctrls).1
      = { m with
          num_dram_cycles := (tick isActive tickCtrl m ctrls).1.num_dram_cycles,
          ramulator_active_cycles := (tick isActive tickCtrl m ctrls).1.ramulator_active_cycles }
    := by
  unfold tick
  simp only [tickLoop_eq, Bool.false_or, List.range_eq_range']
  cases ctrls.any isActive <;> simp

/-! ## The classification of `finish` -/

theorem allSame_iff (v : List Int) : allSame v = true ↔ ∀ x ∈ v, ∀ y ∈ v, x = y := by
  unfold allSame
  cases v with
  | nil => simp
  | cons a t =>
    simp only [List.all_eq_true, decide_eq_true_eq, List.getD_cons_zero]
    constructor
    · intro h x hx y hy
      rw [h x hx, h y hy]
    · intro h x hx
      exact h x hx a (List.mem_cons_self _ _)

theorem dedup_length_iff (v : List Int) : v.dedup.length = v.length ↔ v.Nodup := by
  constructor
  · intro h
    have e := (List.dedup_sublist v).eq_of_length h
    rw [← e]
    exact List.nodup_dedup v
  · intro h
    rw [List.dedup_eq_self.mpr h]

/-- One step of the classification adds 1 to the counter of the bucket the
list belongs to. -/
theorem classifyStep_eq (b : Buckets) (v : List Int) :
    classifyStep b v =
      { countKeysWithOneElement := b.countKeysWithOneElement + (if isSingle v then 1 else 0),
        countKeysWithSameElement := b.countKeysWithSameElement + (if isUniform v then 1 else 0),
        countKeysWithDifferentElementsNoDuplicates :=
          b.countKeysWithDifferentElementsNoDuplicates + (if isMixedDistinct v then 1 else 0),
        countKeysWithDifferentElementsDuplicates :=
          b.countKeysWithDifferentElementsDuplicates + (if isMixedRepeated v then 1 else 0) } := by
  unfold classifyStep isSingle isUniform isMixedDistinct isMixedRepeated
  have hs := allSame_iff v
  have hd := dedup_length_iff v
  have hex : (∃ x ∈ v, ∃ y ∈ v, x ≠ y) ↔ ¬ ∀ x ∈ v, ∀ y ∈ v, x = y := by
    push_neg
    rfl
  by_cases h1 : v.length = 1
  · have h2 : ¬ 2 ≤ v.length := by omega
    simp [h1, h2]
  · by_cases h2 : 2 ≤ v.length
    · by_cases ha : ∀ x ∈ v, ∀ y ∈ v, x = y
      · have hno : ¬ ∃ x ∈ v, ∃ y ∈ v, x ≠ y := fun h => (hex.mp h) ha
        simp only [h1, h2, hs.mpr ha, ha, hno, if_true, if_false, and_self, false_and, and_false,
          true_and, decide_True, decide_False, add_zero]
        simp
        rw [if_pos ha]
      · have hyes : ∃ x ∈ v, ∃ y ∈ v, x ≠ y := hex.mpr ha
        have hns : ¬ allSame v = true := fun h => ha (hs.mp h)
        by_cases hn : v.Nodup
        · simp only [h1, h2, hns, ha, hyes, hd.mpr hn, hn, if_true, if_false, and_self,
            false_and, and_false, true_and, not_true_eq_false, decide_True, decide_False,
            add_zero]
          simp
        · have hdl : ¬ v.dedup.length = v.length := fun h => hn (hd.mp h)
          simp only [h1, h2, hns, ha, hyes, hdl, hn, if_true, if_false, and_self, false_and,
            and_false, true_and, not_false_eq_true, decide_True, decide_False, add_zero]
          simp
    · simp [h1, h2]

theorem classify_fold (table : List ((Int × Int × Int) × List Int)) (b : Buckets) :
    table.foldl (fun b entry => classifyStep b entry.2) b =
      { countKeysWithOneElement :=
          b.countKeysWithOneElement + table.countP (fun e => isSingle e.2),
        countKeysWithSameElement :=
          b.countKeysWithSameElement + table.countP (fun e => isUniform e.2),
        countKeysWithDifferentElementsNoDuplicates :=
          b.countKeysWithDifferentElementsNoDuplicates
            + table.countP (fun e => isMixedDistinct e.2),
        countKeysWithDifferentElementsDuplicates :=
          b.countKeysWithDifferentElementsDuplicates
            + table.countP (fun e => isMixedRepeated e.2) } := by
  induction table generalizing b with
  | nil => simp
  | cons e t ih =>
    rw [List.foldl_cons, ih, classifyStep_eq]
    simp only [List.countP_cons, Buckets.mk.injEq]
    refine ⟨?_, ?_, ?_, ?_⟩ <;> omega

/-- A non-empty list lies in exactly one of the four buckets. -/
theorem bucket_unique (v : List Int) (hv : v ≠ []) :
    (if isSingle v then 1 else 0) + (if isUniform v then 1 else 0)
      + (if isMixedDistinct v then 1 else 0) + (if isMixedRepeated v then 1 else 0) = 1 := by
  unfold isSingle isUniform isMixedDistinct isMixedRepeated
  have hex : (∃ x ∈ v, ∃ y ∈ v, x ≠ y) ↔ ¬ ∀ x ∈ v, ∀ y ∈ v, x = y := by
    push_neg
    rfl
  have hpos : 0 < v.length := List.length_pos.mpr hv
  by_cases h1 : v.length = 1
  · have h2 : ¬ 2 ≤ v.length := by omega
    simp [h1, h2]
  · have h2 : 2 ≤ v.length := by omega
    by_cases ha : ∀ x ∈ v, ∀ y ∈ v, x = y
    · have hno : ¬ ∃ x ∈ v, ∃ y ∈ v, x ≠ y := fun h => (hex.mp h) ha
      simp only [h1, h2, ha, hno, and_self, false_and, and_false, true_and, decide_True,
        decide_False]
      simp
      exact ha
    · have hyes : ∃ x ∈ v, ∃ y ∈ v, x ≠ y := hex.mpr ha
      by_cases hn : v.Nodup
      · simp only [h1, h2, ha, hyes, hn, and_self, false_and, and_false, true_and,
          not_true_eq_false, decide_True, decide_False]
        simp
      · simp only [h1, h2, ha, hyes, hn, and_self, false_and, and_false, true_and,
          not_false_eq_true, decide_True, decide_False]
        simp

/-- C13. For every access table whose lists are non-empty, the loop of
`finish` counts each key in exactly one of the four buckets, each counter is
the number of keys of its bucket, and the four counters sum to the number of
keys; on the table with the lists `[0]`, `[2,2,2]`, `[1,3]`, `[1,3,1]` every
bucket gets one key and every reported percentage is 25. -/
theorem C13_classification_partition (table : List ((Int × Int × Int) × List Int))
    (hne : ∀ e ∈ table, e.2 ≠ []) :
    (classify table).countKeysWithOneElement = table.countP (fun e => isSingle e.2) ∧
    (classify table).countKeysWithSameElement = table.countP (fun e => isUniform e.2) ∧
    (classify table).countKeysWithDifferentElementsNoDuplicates
      = table.countP (fun e => isMixedDistinct e.2) ∧
    (classify table).countKeysWithDifferentElementsDuplicates
      = table.countP (fun e => isMixedRepeated e.2) ∧
    (∀ e ∈ table,
      (if isSingle e.2 then 1 else 0) + (if isUniform e.2 then 1 else 0)
        + (if isMixedDistinct e.2 then 1 else 0) + (if isMixedRepeated e.2 then 1 else 0) = 1) ∧
    (classify table).countKeysWithOneElement + (classify table).countKeysWithSameElement
      + (classify table).countKeysWithDifferentElementsNoDuplicates
      + (classify table).countKeysWithDifferentElementsDuplicates = table.length ∧
    classify exampleTable = ⟨1, 1, 1, 1⟩ ∧
    subCounts { hbmExample with addressAccCountTable := exampleTable }
      = some (25, 25, 25, 25) := by
  have hu : ∀ e ∈ table, _ := fun e he => bucket_unique e.2 (hne e he)
  have hc : classify table = _ := classify_fold table ⟨0, 0, 0, 0⟩
  simp only [zero_add] at hc
  rw [hc]
  refine ⟨rfl, rfl, rfl, rfl, hu, ?_, by decide, by decide⟩
  clear hc
  induction table with
  | nil => rfl
  | cons e t ih =>
    have h1 := hu e (List.mem_cons_self _ _)
    have h2 := ih (fun x hx => hne x (List.mem_cons_of_mem _ hx))
      (fun x hx => hu x (List.mem_cons_of_mem _ hx))
    simp only [List.countP_cons, List.length_cons] at h2 ⊢
    omega

theorem C13_classification_partition_witness :
    (classify exampleTable).countKeysWithOneElement
      = exampleTable.countP (fun e => isSingle e.2) ∧
    (classify exampleTable).countKeysWithSameElement
      = exampleTable.countP (fun e => isUniform e.2) ∧
    (classify exampleTable).countKeysWithDifferentElementsNoDuplicates
      = exampleTable.countP (fun e => isMixedDistinct e.2) ∧
    (classify exampleTable).countKeysWithDifferentElementsDuplicates
      = exampleTable.countP (fun e => isMixedRepeated e.2) ∧
    (∀ e ∈ exampleTable,
      (if isSingle e.2 then 1 else 0) + (if isUniform e.2 then 1 else 0)
        + (if isMixedDistinct e.2 then 1 else 0) + (if isMixedRepeated e.2 then 1 else 0) = 1) ∧
    (classify exampleTable).countKeysWithOneElement
      + (classify exampleTable).countKeysWithSameElement
      + (classify exampleTable).countKeysWithDifferentElementsNoDuplicates
      + (classify exampleTable).countKeysWithDifferentElementsDuplicates
      = exampleTable.length ∧
    classify exampleTable = ⟨1, 1, 1, 1⟩ ∧
    subCounts { hbmExample with addressAccCountTable := exampleTable }
      = some (25, 25, 25, 25) :=
  C13_classification_partition exampleTable (by decide)

/-- C18 (failing input). After a run without near-memory processing (the
three calls of `exampleCalls`, then one `tick`) the access table is empty,
so the four percentages of `finish` divide by a key count of zero; right
after construction every divisor of `finish` is zero. -/
theorem C18_finish_divides_by_zero :
    (∃ m1, sendSeq hbmExample exampleCalls = some (m1, [true, false, true]) ∧
      (tick (fun _ : Unit => false) id m1 (List.replicate 8 ())).1 = afterRun) ∧
    afterRun.addressAccCountTable.length = 0 ∧
    subCounts afterRun = none ∧
    subCounts hbmExample = none ∧
    finishDivisors hbmExample = List.replicate 13 0 := by
  refine ⟨⟨_, rfl, ?_⟩, ?_, ?_, ?_, ?_⟩ <;> decide

/-! ## The translation policy of the constructor -/

/-- The lookup of a name that is not a key yields `Translation::None`. -/
theorem lookupTranslation_other (name : String) (h1 : name ≠ "None") (h2 : name ≠ "Random") :
    lookupTranslation name = Translation.None := by
  have e1 : ¬ "None" = name := fun h => h1 h.symm
  have e2 : ¬ "Random" = name := fun h => h2 h.symm
  simp [lookupTranslation, name_to_translation, mapFind, e1, e2]

/-- C16 (amended). A configured translation-policy name other than "None"
and "Random" is not rejected: the lookup yields the policy `None`, and the
constructor behaves exactly as for the name "None"; "None" selects the
identity policy and "Random" the random one. -/
theorem C16_unknown_policy_is_identity (spec : Spec) (cfg : Config) (name : String)
    (h1 : name ≠ "None") (h2 : name ≠ "Random") :
    selectTranslation { cfg with translation := some name } = Translation.None ∧
    construct spec { cfg with translation := some name }
      = construct spec { cfg with translation := some "None" } ∧
    lookupTranslation "None" = Translation.None ∧
    lookupTranslation "Random" = Translation.Random := by
  have e := lookupTranslation_other name h1 h2
  have e0 : lookupTranslation "None" = Translation.None := by decide
  refine ⟨by simp [selectTranslation, e], ?_, e0, by decide⟩
  simp only [construct, selectTranslation, e, e0]

theorem C16_unknown_policy_is_identity_witness :
    selectTranslation { plainConfig with translation := some "LRU" } = Translation.None ∧
    construct hbmSpec { plainConfig with translation := some "LRU" }
      = construct hbmSpec { plainConfig with translation := some "None" } ∧
    lookupTranslation "None" = Translation.None ∧
    lookupTranslation "Random" = Translation.Random :=
  C16_unknown_policy_is_identity hbmSpec plainConfig "LRU" (by decide) (by decide)

/-- C16 (counterexample). Constructing the HBM example with the policy name
"LRU" does not abort: it yields the memory of `hbmExample`, whose policy is
`None`. -/
theorem C16_counterexample :
    ("LRU" : String) ≠ "None" ∧ ("LRU" : String) ≠ "Random" ∧
    construct hbmSpec { plainConfig with translation := some "LRU" }
      = some { memory := hbmExample, max_address := 4294967296 } ∧
    hbmExample.translation = Translation.None := by
  decide

/-! ## The logarithm of the constructor -/

theorem calcLog2Loop_nat (fuel v : Nat) (n : Int) (h : Nat.log 2 v < fuel) :
    calcLog2Loop fuel (v : Int) n = some (n + (Nat.log 2 v : Nat)) := by
  induction fuel generalizing v n with
  | zero => omega
  | succ fuel ih =>
    have hs : ((v : Int) >>> (1 : Nat)) = ((v / 2 : Nat) : Int) := by
      rw [Int.shiftRight_eq_div_pow]
      norm_cast
    unfold calcLog2Loop
    simp only [hs]
    by_cases h2 : 2 ≤ v
    · have hl := Nat.log_of_one_lt_of_le (by norm_num : 1 < 2) h2
      have hne : ((v / 2 : Nat) : Int) ≠ 0 := by
        have : 0 < v / 2 := Nat.div_pos h2 (by norm_num)
        omega
      rw [if_pos hne, ih (v / 2) (n + 1) (by omega), hl]
      push_cast
      congr 1
      ring
    · have hl := Nat.log_of_lt (by omega : v < 2)
      have he : ((v / 2 : Nat) : Int) = 0 := by
        have : v / 2 = 0 := Nat.div_eq_of_lt (by omega)
        omega
      rw [if_neg (not_not.mpr he), hl]
      simp

/-- The helper `calc_log2` returns the floor of the binary logarithm for
every non-negative `int`, and 0 for 0. -/
theorem calc_log2_eq (v : Int) (h0 : 0 ≤ v) (h1 : v < 2 ^ 31) :
    calc_log2 v = some ((Nat.log 2 v.toNat : Nat) : Int) := by
  obtain ⟨k, rfl⟩ := Int.eq_ofNat_of_zero_le h0
  have hk : k < 2 ^ 31 := by exact_mod_cast h1
  have hl : Nat.log 2 k < 32 := by
    by_cases hz : k = 0
    · subst hz
      simp
    · exact Nat.log_lt_of_lt_pow hz (lt_trans hk (by norm_num))
  unfold calc_log2
  rw [calcLog2Loop_nat 32 k 0 hl]
  simp

/-- The loop of `calc_log2` never ends on a negative value. -/
theorem calcLog2Loop_negative (fuel : Nat) (v n : Int) (h : v < 0) :
    calcLog2Loop fuel v n = none := by
  induction fuel generalizing v n with
  | zero => rfl
  | succ fuel ih =>
    have hs : v >>> (1 : Nat) < 0 := by
      rw [Int.shiftRight_eq_div_pow]
      exact Int.ediv_neg' h (by norm_num)
    unfold calcLog2Loop
    simp only []
    rw [if_pos (ne_of_lt hs)]
    exact ih _ _ hs

theorem calc_log2_pow (c : Nat) (h : c ≤ 30) : calc_log2 ((2 : Int) ^ c) = some (c : Int) := by
  have hp : (2 : Int) ^ c ≤ 2 ^ 30 := pow_le_pow_right₀ (by norm_num) h
  have e := calc_log2_eq ((2 : Int) ^ c) (by positivity) (by omega)
  have hn : ((2 : Int) ^ c).toNat = 2 ^ c := by
    have : ((2 : Int) ^ c) = ((2 ^ c : Nat) : Int) := by push_cast; rfl
    rw [this, Int.toNat_ofNat]
  rw [hn, Nat.log_pow (by norm_num)] at e
  exact e

theorem wrapInt64_of_range (x : Int) (h1 : -2 ^ 63 ≤ x) (h2 : x < 2 ^ 63) : wrapInt64 x = x := by
  unfold wrapInt64
  rw [Int.emod_eq_of_lt (by omega) (by omega)]
  omega

theorem wrapInt64_pow (a c : Nat) (h : a + c ≤ 62) :
    wrapInt64 ((2 : Int) ^ a * 2 ^ c) = 2 ^ (a + c) := by
  have hp : (2 : Int) ^ (a + c) ≤ 2 ^ 62 := pow_le_pow_right₀ (by norm_num) h
  have h0 : (0 : Int) < 2 ^ (a + c) := by positivity
  rw [← pow_add]
  exact wrapInt64_of_range _ (by omega) (by omega)

theorem powerOfTwoCheck_pow (c : Nat) (h : c ≤ 30) : powerOfTwoCheck ((2 : Int) ^ c) = true := by
  have hp : (2 : Int) ^ c ≤ 2 ^ 30 := pow_le_pow_right₀ (by norm_num) h
  have h0 : (0 : Int) < 2 ^ c := by positivity
  unfold powerOfTwoCheck
  rw [wrapInt32_of_range _ (by omega) (by omega), land_mask, Int.emod_self]
  rfl

/-! ## The constructor on a power-of-two geometry -/

/-- The constructor on counts `2^c0 .. 2^c5`, prefetch `2^p` and channel
width `8 * 2^w`, all within `int` and `long`: it returns, with the widths
`c0 .. c4` and `c5 - p`, `tx_bits = p + w`, and `max_address` the product. -/
theorem construct_pow2 (cfg : Config) (c0 c1 c2 c3 c4 c5 p w : Nat)
    (h0 : c0 ≤ 30) (h1 : c1 ≤ 30) (h2 : c2 ≤ 30) (h3 : c3 ≤ 30) (h4 : c4 ≤ 30) (h5 : c5 ≤ 30)
    (hp : p + w + 3 ≤ 30) (hl : w + c0 + c1 + c2 + c3 + c4 + c5 ≤ 62) :
    ∃ b, construct
        { count := [2 ^ c0, 2 ^ c1, 2 ^ c2, 2 ^ c3, 2 ^ c4, 2 ^ c5],
          prefetch_size := 2 ^ p, channel_width := 8 * 2 ^ w } cfg = some b ∧
      b.memory.addr_bits = [(c0 : Int), c1, c2, c3, c4, (c5 : Int) - p] ∧
      b.memory.tx_bits = ((p + w : Nat) : Int) ∧
      b.max_address = 2 ^ (w + c0 + c1 + c2 + c3 + c4 + c5) ∧
      b.memory.type = MapType.RoBaRaCoCh ∧
      b.memory.translation = selectTranslation cfg := by
  have hk0 := powerOfTwoCheck_pow c0 h0
  have hk1 := powerOfTwoCheck_pow c1 h1
  have hpw : (2 : Int) ^ (p + w + 3) ≤ 2 ^ 30 := pow_le_pow_right₀ (by norm_num) hp
  have hpw0 : (0 : Int) < 2 ^ (p + w + 3) := by positivity
  have hpw1 : (2 : Int) ^ (p + w) ≤ 2 ^ 30 := pow_le_pow_right₀ (by norm_num) (by omega)
  have hpw2 : (0 : Int) < 2 ^ (p + w) := by positivity
  have hmul : (2 : Int) ^ p * (8 * 2 ^ w) = 2 ^ (p + w) * 8 := by
    rw [pow_add]
    ring
  have hmul2 : (2 : Int) ^ (p + w + 3) = 2 ^ (p + w) * 8 := by
    rw [pow_add (2 : Int) (p + w) 3]
    norm_num
  have htx : Int.tdiv (wrapInt32 ((2 : Int) ^ p * (8 * 2 ^ w))) 8 = 2 ^ (p + w) := by
    rw [hmul, wrapInt32_of_range _ (by omega) (by omega)]
    exact Int.mul_tdiv_cancel _ (by norm_num)
  have hlog := calc_log2_pow (p + w) (by omega)
  have hshl : shl32 1 ((p + w : Nat) : Int) = 2 ^ (p + w) := by
    unfold shl32
    rw [one_mul, Int.toNat_ofNat, wrapInt32_of_range _ (by omega) (by omega)]
  have hcw : Int.tdiv (8 * (2 : Int) ^ w) 8 = 2 ^ w := Int.mul_tdiv_cancel_left _ (by norm_num)
  have hb := calc_log2_pow p (by omega)
  have hL : levelLoop [(2 : Int) ^ c0, 2 ^ c1, 2 ^ c2, 2 ^ c3, 2 ^ c4, 2 ^ c5] 6 0 (2 ^ w)
      (List.replicate 6 0)
      = some (2 ^ (w + c0 + c1 + c2 + c3 + c4 + c5), [(c0 : Int), c1, c2, c3, c4, c5]) := by
    simp only [levelLoop, List.getD_cons_zero, List.getD_cons_succ, calc_log2_pow _ h0,
      calc_log2_pow _ h1, calc_log2_pow _ h2, calc_log2_pow _ h3, calc_log2_pow _ h4,
      calc_log2_pow _ h5, List.replicate, List.set_cons_zero, List.set_cons_succ]
    rw [wrapInt64_pow w c0 (by omega), wrapInt64_pow (w + c0) c1 (by omega),
      wrapInt64_pow (w + c0 + c1) c2 (by omega), wrapInt64_pow (w + c0 + c1 + c2) c3 (by omega),
      wrapInt64_pow (w + c0 + c1 + c2 + c3) c4 (by omega),
      wrapInt64_pow (w + c0 + c1 + c2 + c3 + c4) c5 (by omega)]
  have hw5 : wrapInt32 ((c5 : Int) - p) = (c5 : Int) - p :=
    wrapInt32_of_range _ (by omega) (by omega)
  have hrem : ¬ ((if ¬selectTranslation cfg = Translation.None then
      (2 : Int) ^ (w + c0 + c1 + c2 + c3 + c4 + c5) >>> (12 : Nat) else 0) < 0) := by
    split
    · exact not_lt.mpr (shiftRight_nonneg _ _ (by positivity))
    · exact lt_irrefl 0
  simp only [construct, List.getD_cons_zero, List.getD_cons_succ, hk0, hk1, htx, hlog, hshl,
    hcw, hb, Level.toNat, hL, Bool.true_eq_false, if_false, ne_eq, not_true_eq_false]
  rw [if_neg hrem]
  refine ⟨_, rfl, ?_⟩
  simp [hw5]

theorem powerOfTwoCheck_zero : powerOfTwoCheck 0 = true := by
  have h : Nat.ldiff 0 0 = 0 := by
    apply Nat.eq_of_testBit_eq
    intro i
    simp [Nat.testBit_ldiff]
  have e : Int.land 0 (wrapInt32 (0 - 1)) = 0 := by
    have hw : wrapInt32 (0 - 1) = Int.negSucc 0 := by decide
    rw [hw]
    show ((Nat.ldiff 0 0 : Nat) : Int) = 0
    rw [h]
    rfl
  unfold powerOfTwoCheck
  rw [e]
  rfl

/-- C15 (failing input). A rank count of 0 is not a power of two, yet both
power-of-two assertions and the transaction check pass and the constructor
returns: it builds the memory of `hbmExample` with `max_address = 0`. -/
theorem C15_zero_rank_count_passes :
    (∀ n : Nat, zeroRankSpec.count.getD 1 0 ≠ 2 ^ n) ∧
    powerOfTwoCheck (zeroRankSpec.count.getD 1 0) = true ∧
    construct zeroRankSpec plainConfig = some { memory := hbmExample, max_address := 0 } := by
  refine ⟨?_, powerOfTwoCheck_zero, ?_⟩
  · intro n h
    have hp : (0 : Int) < 2 ^ n := by positivity
    have e : zeroRankSpec.count.getD 1 0 = 0 := by decide
    rw [e] at h
    omega
  · have h8 : powerOfTwoCheck 8 = true := by decide
    simp only [construct, zeroRankSpec, List.getD_cons_zero, List.getD_cons_succ,
      powerOfTwoCheck_zero, h8, Bool.true_eq_false, if_false]
    decide

/-- C17 (amended). For a geometry whose level counts, prefetch size and
`channel_width / 8` are powers of two (within `int` and `long`), the sum of
the level widths `addr_bits[]` plus `tx_bits` equals the bit width of the
address space: `max_address = 2^(tx_bits + Σ addr_bits)`, where
`max_address` is `channel_width / 8` times the product of the level counts. -/
theorem C17_width_conservation (cfg : Config) (c0 c1 c2 c3 c4 c5 p w : Nat)
    (h0 : c0 ≤ 30) (h1 : c1 ≤ 30) (h2 : c2 ≤ 30) (h3 : c3 ≤ 30) (h4 : c4 ≤ 30) (h5 : c5 ≤ 30)
    (hp : p + w + 3 ≤ 30) (hl : w + c0 + c1 + c2 + c3 + c4 + c5 ≤ 62) :
    ∃ b, construct
        { count := [2 ^ c0, 2 ^ c1, 2 ^ c2, 2 ^ c3, 2 ^ c4, 2 ^ c5],
          prefetch_size := 2 ^ p, channel_width := 8 * 2 ^ w } cfg = some b ∧
      b.max_address = 2 ^ w * (2 ^ c0 * 2 ^ c1 * 2 ^ c2 * 2 ^ c3 * 2 ^ c4 * 2 ^ c5) ∧
      b.memory.addr_bits.sum + b.memory.tx_bits = ((w + c0 + c1 + c2 + c3 + c4 + c5 : Nat) : Int) ∧
      b.max_address = 2 ^ (b.memory.tx_bits + b.memory.addr_bits.sum).toNat := by
  obtain ⟨b, hb, hbits, htx, hmax, _, _⟩ :=
    construct_pow2 cfg c0 c1 c2 c3 c4 c5 p w h0 h1 h2 h3 h4 h5 hp hl
  have hs : b.memory.addr_bits.sum + b.memory.tx_bits
      = ((w + c0 + c1 + c2 + c3 + c4 + c5 : Nat) : Int) := by
    rw [hbits, htx]
    simp only [List.sum_cons, List.sum_nil]
    push_cast
    ring
  refine ⟨b, hb, ?_, hs, ?_⟩
  · rw [hmax]
    simp only [pow_add]
    ring
  · rw [add_comm, hs, Int.toNat_ofNat, hmax]

theorem C17_width_conservation_witness :
    ∃ b, construct
        { count := [2 ^ 3, 2 ^ 0, 2 ^ 2, 2 ^ 2, 2 ^ 14, 2 ^ 7],
          prefetch_size := 2 ^ 2, channel_width := 8 * 2 ^ 4 } plainConfig = some b ∧
      b.max_address = 2 ^ 4 * (2 ^ 3 * 2 ^ 0 * 2 ^ 2 * 2 ^ 2 * 2 ^ 14 * 2 ^ 7) ∧
      b.memory.addr_bits.sum + b.memory.tx_bits = ((4 + 3 + 0 + 2 + 2 + 14 + 7 : Nat) : Int) ∧
      b.max_address = 2 ^ (b.memory.tx_bits + b.memory.addr_bits.sum).toNat :=
  C17_width_conservation plainConfig 3 0 2 2 14 7 2 4 (by decide) (by decide) (by decide)
    (by decide) (by decide) (by decide) (by decide) (by decide)

/-- C17 (counterexample). On the HBM example, whose counts, prefetch size
and `channel_width / 8` are powers of two, the level widths sum to 26 while
the address space has 32 bits. -/
theorem C17_counterexample :
    hbmSpec.count = [2 ^ 3, 2 ^ 0, 2 ^ 2, 2 ^ 2, 2 ^ 14, 2 ^ 7] ∧
    hbmSpec.prefetch_size = 2 ^ 2 ∧ Int.tdiv hbmSpec.channel_width 8 = 2 ^ 4 ∧
    construct hbmSpec plainConfig = some { memory := hbmExample, max_address := 2 ^ 32 } ∧
    hbmExample.addr_bits.sum = 26 ∧ hbmExample.addr_bits.sum ≠ 32 := by
  decide

/-- C19 (amended). For a geometry with power-of-two counts the constructor
sets `addr_bits[lev] = log2(count[lev])` for every level except the last one
(Column), whose width is `log2(count[Column]) - log2(prefetch_size)`; the
Row level keeps `log2(count[Row])`. `calc_log2(v)` is the floor of the
binary logarithm for every `int` `v ≥ 1`. -/
theorem C19_width_vector (cfg : Config) (c0 c1 c2 c3 c4 c5 p w : Nat)
    (h0 : c0 ≤ 30) (h1 : c1 ≤ 30) (h2 : c2 ≤ 30) (h3 : c3 ≤ 30) (h4 : c4 ≤ 30) (h5 : c5 ≤ 30)
    (hp : p + w + 3 ≤ 30) (hl : w + c0 + c1 + c2 + c3 + c4 + c5 ≤ 62) :
    (∃ b, construct
        { count := [2 ^ c0, 2 ^ c1, 2 ^ c2, 2 ^ c3, 2 ^ c4, 2 ^ c5],
          prefetch_size := 2 ^ p, channel_width := 8 * 2 ^ w } cfg = some b ∧
      b.memory.addr_bits = [(c0 : Int), c1, c2, c3, c4, (c5 : Int) - p] ∧
      b.memory.addr_bits.getD Level.Row.toNat 0 = (c4 : Int) ∧
      b.memory.addr_bits.getD Level.Column.toNat 0 = (c5 : Int) - p) ∧
    (∀ c : Nat, c ≤ 30 → calc_log2 ((2 : Int) ^ c) = some (c : Int)) ∧
    (∀ v : Int, 1 ≤ v → v < 2 ^ 31 → calc_log2 v = some ((Nat.log 2 v.toNat : Nat) : Int)) := by
  obtain ⟨b, hb, hbits, _, _, _, _⟩ :=
    construct_pow2 cfg c0 c1 c2 c3 c4 c5 p w h0 h1 h2 h3 h4 h5 hp hl
  refine ⟨⟨b, hb, hbits, ?_, ?_⟩, calc_log2_pow, ?_⟩
  · rw [hbits]
    rfl
  · rw [hbits]
    rfl
  · intro v hv1 hv2
    exact calc_log2_eq v (by omega) hv2

theorem C19_width_vector_witness :
    (∃ b, construct
        { count := [2 ^ 3, 2 ^ 0, 2 ^ 2, 2 ^ 2, 2 ^ 14, 2 ^ 7],
          prefetch_size := 2 ^ 2, channel_width := 8 * 2 ^ 4 } plainConfig = some b ∧
      b.memory.addr_bits
        = [((3 : Nat) : Int), (0 : Nat), (2 : Nat), (2 : Nat), (14 : Nat),
           ((7 : Nat) : Int) - (2 : Nat)] ∧
      b.memory.addr_bits.getD Level.Row.toNat 0 = ((14 : Nat) : Int) ∧
      b.memory.addr_bits.getD Level.Column.toNat 0 = ((7 : Nat) : Int) - (2 : Nat)) ∧
    (∀ c : Nat, c ≤ 30 → calc_log2 ((2 : Int) ^ c) = some (c : Int)) ∧
    (∀ v : Int, 1 ≤ v → v < 2 ^ 31 → calc_log2 v = some ((Nat.log 2 v.toNat : Nat) : Int)) :=
  C19_width_vector plainConfig 3 0 2 2 14 7 2 4 (by decide) (by decide) (by decide)
    (by decide) (by decide) (by decide) (by decide) (by decide)

/-- C19 (counterexample). On the HBM example (2^14 rows, 2^7 columns,
prefetch 4) the Row width is 14, not 14 - 2, and the Column width is 5,
not 7. -/
theorem C19_counterexample :
    construct hbmSpec plainConfig = some { memory := hbmExample, max_address := 2 ^ 32 } ∧
    calc_log2 (hbmSpec.count.getD Level.Row.toNat 0) = some 14 ∧
    calc_log2 (hbmSpec.count.getD Level.Column.toNat 0) = some 7 ∧
    calc_log2 hbmSpec.prefetch_size = some 2 ∧
    hbmExample.addr_bits.getD Level.Row.toNat 0 = 14 ∧
    hbmExample.addr_bits.getD Level.Row.toNat 0 ≠ 14 - 2 ∧
    hbmExample.addr_bits.getD Level.Column.toNat 0 = 5 ∧
    hbmExample.addr_bits.getD Level.Column.toNat 0 ≠ 7 := by
  decide

/-! ## Probing for a free frame -/

theorem add_mod_ne_self (start d n : Nat) (hs : start < n) (hd0 : 0 < d) (hd : d < n) :
    (start + d) % n ≠ start := by
  by_cases h : start + d < n
  · rw [Nat.mod_eq_of_lt h]
    omega
  · rw [Nat.mod_eq_sub_mod (by omega), Nat.mod_eq_of_lt (by omega)]
    omega

/-- Every slot is reached from `start` by an offset below the pool size. -/
theorem exists_offset (start i n : Nat) (hs : start < n) (hi : i < n) :
    ∃ k, k < n ∧ (start + k) % n = i := by
  by_cases h : start ≤ i
  · refine ⟨i - start, by omega, ?_⟩
    rw [show start + (i - start) = i by omega, Nat.mod_eq_of_lt hi]
  · refine ⟨i + n - start, by omega, ?_⟩
    rw [show start + (i + n - start) = i + n by omega, Nat.add_mod_right, Nat.mod_eq_of_lt hi]

/-- The probe walks over occupied slots up to the first free one. -/
theorem probeLoop_walk (pages : List Int) (start k : Nat) (hs : start < pages.length)
    (hk : k < pages.length)
    (hocc : ∀ j, 0 < j → j < k → pages.getD ((start + j) % pages.length) 0 ≠ -1)
    (hfree : pages.getD ((start + k) % pages.length) 0 = -1)
    (fuel j : Nat) (hj : j < k) (hf : k - j ≤ fuel) :
    probeLoop pages start fuel ((start + j) % pages.length)
      = some ((start + k) % pages.length) := by
  induction fuel generalizing j with
  | zero => omega
  | succ fuel ih =>
    unfold probeLoop
    have e : ((start + j) % pages.length + 1) % pages.length
        = (start + (j + 1)) % pages.length := by
      rw [Nat.mod_add_mod, Nat.add_assoc]
    simp only [e]
    by_cases hjk : j + 1 = k
    · rw [hjk, if_neg]
      intro h
      exact h.2 hfree
    · have hne := add_mod_ne_self start (j + 1) pages.length hs (by omega) (by omega)
      have ho := hocc (j + 1) (by omega) (by omega)
      rw [if_pos ⟨hne, ho⟩]
      exact ih (j + 1) (by omega) (by omega)

/-- The first free slot in cyclic order from `start`. -/
theorem exists_first_free (pages : List Int) (start : Nat) (hs : start < pages.length)
    (hfree : (-1 : Int) ∈ pages) :
    ∃ k, k < pages.length ∧
      (∀ j, j < k → pages.getD ((start + j) % pages.length) 0 ≠ -1) ∧
      pages.getD ((start + k) % pages.length) 0 = -1 := by
  obtain ⟨i, hi, hget⟩ := List.getElem_of_mem hfree
  obtain ⟨k, hk, hmod⟩ := exists_offset start i pages.length hs hi
  have hP : ∃ k, pages.getD ((start + k) % pages.length) 0 = -1 :=
    ⟨k, by rw [hmod, List.getD_eq_getElem _ _ hi, hget]⟩
  refine ⟨Nat.find hP, ?_, ?_, Nat.find_spec hP⟩
  · have hle : Nat.find hP ≤ k :=
      Nat.find_min' hP (by rw [hmod, List.getD_eq_getElem _ _ hi, hget])
    omega
  · intro j hj
    exact Nat.find_min hP hj

/-- A first touch under the random policy while a free frame remains: the
frame is the first free slot from `r mod N`, reached in `k < N` probe steps. -/
theorem page_allocator_assign (m : Memory) (addr coreid : Int) (r : Nat)
    (ht : m.translation = Translation.Random)
    (hmiss : mapFind m.page_translation (coreid, addr >>> (12 : Nat)) = none)
    (hrem : m.free_physical_pages_remaining ≠ 0)
    (hfree : (-1 : Int) ∈ m.free_physical_pages) :
    ∃ k, k < m.free_physical_pages.length ∧
      (∀ j, j < k → m.free_physical_pages.getD
        ((r % m.free_physical_pages.length + j) % m.free_physical_pages.length) 0 ≠ -1) ∧
      m.free_physical_pages.getD
        ((r % m.free_physical_pages.length + k) % m.free_physical_pages.length) 0 = -1 ∧
      page_allocator m addr coreid r = some
        ({ m with
            memory_footprint := m.memory_footprint + 2 ^ 12,
            page_translation :=
              mapSet m.page_translation (coreid, addr >>> (12 : Nat))
                (((r % m.free_physical_pages.length + k) % m.free_physical_pages.length : Nat)
                  : Int),
            free_physical_pages :=
              m.free_physical_pages.set
                ((r % m.free_physical_pages.length + k) % m.free_physical_pages.length) coreid,
            free_physical_pages_remaining := m.free_physical_pages_remaining - 1 },
          physicalAddress
            (((r % m.free_physical_pages.length + k) % m.free_physical_pages.length : Nat) : Int)
            addr) := by
  have hpos : 0 < m.free_physical_pages.length := List.length_pos_of_mem hfree
  have hne : m.free_physical_pages.length ≠ 0 := by omega
  have hs : r % m.free_physical_pages.length < m.free_physical_pages.length := Nat.mod_lt _ hpos
  obtain ⟨k, hk, hocc, hfr⟩ := exists_first_free m.free_physical_pages _ hs hfree
  refine ⟨k, hk, hocc, hfr, ?_⟩
  by_cases hk0 : k = 0
  · subst hk0
    rw [Nat.add_zero, Nat.mod_eq_of_lt hs] at hfr ⊢
    have hfr1 := hfr
    rw [List.getD_eq_getElem?_getD] at hfr1
    simp [page_allocator, ht, hmiss, hrem, hne, hfr1, mapFind_mapSet_self]
  · have h0 := hocc 0 (by omega)
    rw [Nat.add_zero, Nat.mod_eq_of_lt hs] at h0
    have hw := probeLoop_walk m.free_physical_pages (r % m.free_physical_pages.length) k hs hk
      (fun j _ hj => hocc j hj) hfr m.free_physical_pages.length 0 (by omega) (by omega)
    rw [Nat.add_zero, Nat.mod_eq_of_lt hs] at hw
    have hfr1 := hfr
    rw [List.getD_eq_getElem?_getD] at hfr1 h0
    simp only [Nat.mod_add_mod] at hfr1
    simp [page_allocator, ht, hmiss, hrem, hne, h0, hw, hfr1, mapFind_mapSet_self]

/-- A first touch under the random policy with no frame left and an
occupied candidate: the candidate `r mod N` is reused. -/
theorem page_allocator_replace (m : Memory) (addr coreid : Int) (r : Nat)
    (ht : m.translation = Translation.Random)
    (hmiss : mapFind m.page_translation (coreid, addr >>> (12 : Nat)) = none)
    (hrem : m.free_physical_pages_remaining = 0)
    (hne : m.free_physical_pages.length ≠ 0)
    (hocc : m.free_physical_pages.getD (r % m.free_physical_pages.length) 0 ≠ -1) :
    page_allocator m addr coreid r = some
      ({ m with
          memory_footprint := m.memory_footprint + 2 ^ 12,
          physical_page_replacement := m.physical_page_replacement + 1,
          page_translation :=
            mapSet m.page_translation (coreid, addr >>> (12 : Nat))
              ((r % m.free_physical_pages.length : Nat) : Int) },
        physicalAddress ((r % m.free_physical_pages.length : Nat) : Int) addr) := by
  rw [List.getD_eq_getElem?_getD] at hocc
  simp [page_allocator, ht, hmiss, hrem, hne, hocc, mapFind_mapSet_self]

/-- C20. Under the random policy, on a first touch while free frames
remain, for every draw `r` the probe ends after `k < N` steps and the frame
assigned is the first free slot in cyclic order from `r mod N` (that slot
itself when `k = 0`); afterwards the slot holds `coreid`, every other slot
is unchanged, and `free_physical_pages_remaining` is one less. -/
theorem C20_free_frame_probing (m : Memory) (addr coreid : Int) (r : Nat)
    (ht : m.translation = Translation.Random)
    (hmiss : mapFind m.page_translation (coreid, addr >>> (12 : Nat)) = none)
    (hrem : m.free_physical_pages_remaining ≠ 0)
    (hfree : (-1 : Int) ∈ m.free_physical_pages) :
    ∃ k m1 pa, k < m.free_physical_pages.length ∧
      (∀ j, j < k → m.free_physical_pages.getD
        ((r % m.free_physical_pages.length + j) % m.free_physical_pages.length) 0 ≠ -1) ∧
      m.free_physical_pages.getD
        ((r % m.free_physical_pages.length + k) % m.free_physical_pages.length) 0 = -1 ∧
      page_allocator m addr coreid r = some (m1, pa) ∧
      mapFind m1.page_translation (coreid, addr >>> (12 : Nat))
        = some (((r % m.free_physical_pages.length + k) % m.free_physical_pages.length : Nat)
            : Int) ∧
      m1.free_physical_pages
        = m.free_physical_pages.set
            ((r % m.free_physical_pages.length + k) % m.free_physical_pages.length) coreid ∧
      m1.free_physical_pages_remaining = m.free_physical_pages_remaining - 1 ∧
      m1.physical_page_replacement = m.physical_page_replacement := by
  obtain ⟨k, hk, hocc, hfr, hcall⟩ := page_allocator_assign m addr coreid r ht hmiss hrem hfree
  exact ⟨k, _, _, hk, hocc, hfr, hcall, mapFind_mapSet_self _ _ _, rfl, rfl, rfl⟩

theorem C20_free_frame_probing_witness :
    ∃ k m1 pa, k < afterFirstTouch.free_physical_pages.length ∧
      (∀ j, j < k → afterFirstTouch.free_physical_pages.getD
        ((7 % afterFirstTouch.free_physical_pages.length + j)
          % afterFirstTouch.free_physical_pages.length) 0 ≠ -1) ∧
      afterFirstTouch.free_physical_pages.getD
        ((7 % afterFirstTouch.free_physical_pages.length + k)
          % afterFirstTouch.free_physical_pages.length) 0 = -1 ∧
      page_allocator afterFirstTouch 4096 0 7 = some (m1, pa) ∧
      mapFind m1.page_translation (0, (4096 : Int) >>> (12 : Nat))
        = some (((7 % afterFirstTouch.free_physical_pages.length + k)
            % afterFirstTouch.free_physical_pages.length : Nat) : Int) ∧
      m1.free_physical_pages
        = afterFirstTouch.free_physical_pages.set
            ((7 % afterFirstTouch.free_physical_pages.length + k)
              % afterFirstTouch.free_physical_pages.length) 0 ∧
      m1.free_physical_pages_remaining = afterFirstTouch.free_physical_pages_remaining - 1 ∧
      m1.physical_page_replacement = afterFirstTouch.physical_page_replacement :=
  C20_free_frame_probing afterFirstTouch 4096 0 7 rfl (by decide) (by decide) (by decide)

/-! ## The result address -/

/-- The result expression of `page_allocator` for a non-negative frame: the
frame times the page size plus the page offset of the address. -/
theorem physicalAddress_eq (f addr : Int) (hf : 0 ≤ f) :
    physicalAddress f addr = f * 4096 + addr % 4096 := by
  have hm : wrapInt32 (shl32 1 12 - 1) = 2 ^ 12 - 1 := by decide
  have h0 := Int.emod_nonneg addr (by norm_num : (2 : Int) ^ 12 ≠ 0)
  have h1 := Int.emod_lt_of_pos addr (by norm_num : (0 : Int) < 2 ^ 12)
  unfold physicalAddress
  rw [hm, land_mask, lor_shl64 f _ 12 hf h0 h1]
  norm_num

theorem mapFind_mem {κ ν : Type} [DecidableEq κ] (t : List (κ × ν)) (k : κ) (v : ν)
    (h : mapFind t k = some v) : (k, v) ∈ t := by
  induction t with
  | nil => simp [mapFind] at h
  | cons x t ih =>
    obtain ⟨k1, v1⟩ := x
    by_cases hk : k1 = k
    · simp only [mapFind, hk, if_true, Option.some.injEq] at h
      rw [hk, h]
      exact List.mem_cons_self _ _
    · simp only [mapFind, hk, if_false] at h
      exact List.mem_cons_of_mem _ (ih h)

theorem mem_mapSet {κ ν : Type} [DecidableEq κ] (t : List (κ × ν)) (k : κ) (v : ν)
    (e : κ × ν) (h : e ∈ mapSet t k v) : e ∈ t ∨ e = (k, v) := by
  induction t with
  | nil =>
    simp only [mapSet, List.mem_singleton] at h
    exact Or.inr h
  | cons x t ih =>
    obtain ⟨k1, v1⟩ := x
    by_cases hk : k1 = k
    · simp only [mapSet, hk, if_true, List.mem_cons] at h
      rcases h with h | h
      · exact Or.inr h
      · exact Or.inl (List.mem_cons_of_mem _ h)
    · simp only [mapSet, hk, if_false, List.mem_cons] at h
      rcases h with h | h
      · exact Or.inl (by rw [h]; exact List.mem_cons_self _ _)
      · rcases ih h with h | h
        · exact Or.inl (List.mem_cons_of_mem _ h)
        · exact Or.inr h

/-- A completed first touch under the random policy, read backwards: the
frame is a pool index, and either no frame was left and the candidate was
reused, or a free slot was taken. -/
theorem page_allocator_random_miss (m : Memory) (addr coreid : Int) (r : Nat) (m1 : Memory)
    (pa : Int) (h : page_allocator m addr coreid r = some (m1, pa))
    (ht : m.translation = Translation.Random)
    (hmiss : mapFind m.page_translation (coreid, addr >>> (12 : Nat)) = none) :
    ∃ p : Nat, p < m.free_physical_pages.length ∧
      m1.page_translation = mapSet m.page_translation (coreid, addr >>> (12 : Nat)) (p : Int) ∧
      pa = physicalAddress (p : Int) addr ∧
      ((m.free_physical_pages_remaining = 0 ∧
          m1.physical_page_replacement = m.physical_page_replacement + 1 ∧
          m.free_physical_pages.getD p 0 ≠ -1 ∧
          m1.free_physical_pages = m.free_physical_pages ∧
          m1.free_physical_pages_remaining = m.free_physical_pages_remaining) ∨
        (m.free_physical_pages_remaining ≠ 0 ∧
          m1.physical_page_replacement = m.physical_page_replacement ∧
          m.free_physical_pages.getD p 0 = -1 ∧
          m1.free_physical_pages = m.free_physical_pages.set p coreid ∧
          m1.free_physical_pages_remaining = m.free_physical_pages_remaining - 1)) := by
  unfold page_allocator at h
  simp only [ht, hmiss, if_true] at h
  split at h
  · rename_i hrem
    split at h
    · exact Option.noConfusion h
    · rename_i hlen
      split at h
      · exact Option.noConfusion h
      · rename_i hocc
        simp only [Option.some.injEq, Prod.mk.injEq] at h
        obtain ⟨rfl, rfl⟩ := h
        refine ⟨r % m.free_physical_pages.length, Nat.mod_lt _ (by omega), rfl, ?_,
          Or.inl ⟨hrem, rfl, hocc, rfl, rfl⟩⟩
        simp [mapFind_mapSet_self]
  · rename_i hrem
    split at h
    · exact Option.noConfusion h
    · split at h
      · exact Option.noConfusion h
      · rename_i p hp
        split at h
        · exact Option.noConfusion h
        · rename_i hfr
          simp only [Option.some.injEq, Prod.mk.injEq] at h
          obtain ⟨rfl, rfl⟩ := h
          have hfr1 : m.free_physical_pages.getD p 0 = -1 := not_not.mp hfr
          have hlt : p < m.free_physical_pages.length := by
            by_contra hge
            rw [List.getD_eq_default _ _ (by omega)] at hfr1
            omega
          refine ⟨p, hlt, rfl, ?_, Or.inr ⟨hrem, rfl, hfr1, rfl, rfl⟩⟩
          simp [mapFind_mapSet_self]

/-- One completed call under the random policy keeps the policy, the pool
size and "every table entry is a pool index", and its result is built from
the frame stored for its key. -/
theorem page_allocator_random_step (m : Memory) (addr coreid : Int) (r : Nat) (m1 : Memory)
    (pa : Int) (h : page_allocator m addr coreid r = some (m1, pa))
    (ht : m.translation = Translation.Random)
    (hinv : ∀ e ∈ m.page_translation, 0 ≤ e.2 ∧ e.2 < (m.free_physical_pages.length : Int)) :
    m1.translation = Translation.Random ∧
    m1.free_physical_pages.length = m.free_physical_pages.length ∧
    (∀ e ∈ m1.page_translation, 0 ≤ e.2 ∧ e.2 < (m1.free_physical_pages.length : Int)) ∧
    ∃ f, mapFind m1.page_translation (coreid, addr >>> (12 : Nat)) = some f ∧
      pa = physicalAddress f addr ∧ 0 ≤ f ∧ f < (m.free_physical_pages.length : Int) := by
  obtain ⟨e1, _, ehit, _, hpa⟩ := page_allocator_effect m addr coreid r m1 pa h
  by_cases hf : mapFind m.page_translation (coreid, addr >>> (12 : Nat)) = none
  · obtain ⟨p, hp, htab, hres, hcase⟩ := page_allocator_random_miss m addr coreid r m1 pa h ht hf
    have hlen : m1.free_physical_pages.length = m.free_physical_pages.length := by
      rcases hcase with ⟨_, _, _, hpg, _⟩ | ⟨_, _, _, hpg, _⟩
      · rw [hpg]
      · rw [hpg, List.length_set]
    refine ⟨e1.trans ht, hlen, ?_, p, ?_, hres, by omega, by omega⟩
    · intro e he
      rw [htab] at he
      rw [hlen]
      rcases mem_mapSet _ _ _ e he with h1 | h1
      · exact hinv e h1
      · rw [h1]
        exact ⟨by simp, by simpa using hp⟩
    · rw [htab]
      exact mapFind_mapSet_self _ _ _
  · have e := ehit hf
    subst e
    obtain ⟨v, hv⟩ := Option.ne_none_iff_exists'.mp hf
    have hr := hinv _ (mapFind_mem _ _ _ hv)
    refine ⟨ht, rfl, hinv, v, hv, ?_, hr.1, hr.2⟩
    rw [hpa, hv]
    simp [ht]

/-- A completed sequence of calls under the random policy keeps the policy,
the pool size and "every table entry is a pool index". -/
theorem pageAllocatorSeq_random (calls : List (Int × Int × Nat)) (m m1 : Memory)
    (h : pageAllocatorSeq m calls = some m1)
    (ht : m.translation = Translation.Random)
    (hinv : ∀ e ∈ m.page_translation, 0 ≤ e.2 ∧ e.2 < (m.free_physical_pages.length : Int)) :
    m1.translation = Translation.Random ∧
    m1.free_physical_pages.length = m.free_physical_pages.length ∧
    (∀ e ∈ m1.page_translation, 0 ≤ e.2 ∧ e.2 < (m1.free_physical_pages.length : Int)) := by
  induction calls generalizing m with
  | nil =>
    simp only [pageAllocatorSeq, Option.some.injEq] at h
    subst h
    exact ⟨ht, rfl, hinv⟩
  | cons c cs ih =>
    simp only [pageAllocatorSeq] at h
    cases hc : page_allocator m c.1 c.2.1 c.2.2 with
    | none => simp [hc] at h
    | some x =>
      obtain ⟨m2, pa⟩ := x
      simp only [hc] at h
      obtain ⟨t2, l2, i2, _⟩ := page_allocator_random_step m c.1 c.2.1 c.2.2 m2 pa hc ht hinv
      obtain ⟨t1, l1, i1⟩ := ih m2 h t2 i2
      exact ⟨t1, l1.trans l2, i1⟩

/-- C12. In every state reached under the random policy from a table whose
entries are pool indices (the empty table of a fresh pool of `N` frames),
the value returned by `page_allocator` is `(f << 12) | (addr & 0xFFF)` for
the frame `f` stored under `(coreid, addr >> 12)`; its low 12 bits are those
of `addr`, `0 ≤ f < N`, and the result lies in `[0, N * 4096)`. -/
theorem C12_result_address (m : Memory) (calls : List (Int × Int × Nat)) (m1 : Memory)
    (addr coreid : Int) (r : Nat) (m2 : Memory) (pa : Int)
    (ht : m.translation = Translation.Random)
    (hinv : ∀ e ∈ m.page_translation, 0 ≤ e.2 ∧ e.2 < (m.free_physical_pages.length : Int))
    (hrun : pageAllocatorSeq m calls = some m1)
    (hcall : page_allocator m1 addr coreid r = some (m2, pa)) :
    ∃ f, mapFind m2.page_translation (coreid, addr >>> (12 : Nat)) = some f ∧
      pa = physicalAddress f addr ∧
      pa = f * 4096 + addr % 4096 ∧
      pa % 4096 = addr % 4096 ∧
      0 ≤ f ∧ f < (m.free_physical_pages.length : Int) ∧
      0 ≤ pa ∧ pa < (m.free_physical_pages.length : Int) * 4096 := by
  obtain ⟨t1, l1, i1⟩ := pageAllocatorSeq_random calls m m1 hrun ht hinv
  obtain ⟨_, _, _, f, hf, hpa, hf0, hf1⟩ :=
    page_allocator_random_step m1 addr coreid r m2 pa hcall t1 i1
  rw [l1] at hf1
  have he := physicalAddress_eq f addr hf0
  have h0 := Int.emod_nonneg addr (by norm_num : (4096 : Int) ≠ 0)
  have h1 := Int.emod_lt_of_pos addr (by norm_num : (0 : Int) < 4096)
  refine ⟨f, hf, hpa, hpa.trans he, ?_, hf0, hf1, ?_, ?_⟩
  · rw [hpa, he, Int.add_comm, Int.add_mul_emod_self, Int.emod_emod_of_dvd _ (dvd_refl _)]
  · rw [hpa, he]
    positivity
  · rw [hpa, he]
    nlinarith

theorem C12_result_address_witness :
    ∃ f, mapFind afterFifthTouch.page_translation (0, (16389 : Int) >>> (12 : Nat)) = some f ∧
      (4101 : Int) = physicalAddress f 16389 ∧
      (4101 : Int) = f * 4096 + 16389 % 4096 ∧
      (4101 : Int) % 4096 = 16389 % 4096 ∧
      0 ≤ f ∧ f < (randomExample.free_physical_pages.length : Int) ∧
      0 ≤ (4101 : Int) ∧ (4101 : Int) < (randomExample.free_physical_pages.length : Int) * 4096 :=
  C12_result_address randomExample exampleTouches afterTouches 16389 0 1 afterFifthTouch 4101
    rfl (by decide) (by decide) (by decide)

/-! ## Exhausting the pool -/

/-- Taking a free slot for core `c` lowers the number of free slots by one,
unless `c` is the free sentinel itself. -/
theorem count_free_set (pages : List Int) (f : Nat) (c : Int) (hf : f < pages.length)
    (hfree : pages.getD f 0 = -1) :
    (pages.set f c).count (-1) + (if c ≠ -1 then 1 else 0) = pages.count (-1) := by
  have hget : pages[f] = -1 := by
    rw [List.getD_eq_getElem _ _ hf] at hfree
    exact hfree
  have hpos : 0 < pages.count (-1) :=
    List.count_pos_iff.mpr (by rw [← hget]; exact List.getElem_mem _)
  rw [List.count_set _ _ _ _ hf, hget]
  by_cases hc : c = -1
  · simp only [hc, beq_self_eq_true, if_true, ne_eq, not_true_eq_false, if_false]
    omega
  · have hb : (c == -1) = false := by simpa using hc
    simp only [hb, beq_self_eq_true, if_true, ne_eq, hc, not_false_eq_true]
    simp
    omega

theorem bitField_range (a : Int) (lo w : Nat) : 0 ≤ bitField a lo w ∧ bitField a lo w < 2 ^ w := by
  have hp : (0 : Int) < 2 ^ w := by positivity
  exact ⟨Int.emod_nonneg _ (ne_of_gt hp), Int.emod_lt_of_pos _ hp⟩

/-- C24. For every address (negative ones and ones beyond `max_address`
included) and both schemes, every coordinate `i` that `send` produces lies in
`[0, 2^addr_bits[i])`; so the index `addr_vec[0]` that selects the controller
is within a controller list of `2^addr_bits[0]` entries. -/
theorem C24_coordinates_in_range (m : Memory) (req : Request)
    (ht : m.type = MapType.ChRaBaRoCo ∨ m.type = MapType.RoBaRaCoCh)
    (hl : m.addr_bits.length = 6)
    (hb : ∀ b ∈ m.addr_bits, 0 ≤ b ∧ b ≤ 30) (htx : 0 ≤ m.tx_bits ∧ m.tx_bits ≤ 30) :
    ∃ vec, mapAddress m req = some vec ∧ vec.length = m.addr_bits.length ∧
      (∀ i, i < m.addr_bits.length →
        0 ≤ vec.getD i 0 ∧ vec.getD i 0 < 2 ^ (m.addr_bits.getD i 0).toNat) ∧
      channelOf m req = vec.getD 0 0 ∧
      (∀ n : Nat, n = 2 ^ (m.addr_bits.getD 0 0).toNat →
        0 ≤ channelOf m req ∧ (channelOf m req).toNat < n) := by
  have hmax : m.type ≠ MapType.MAX := by
    rcases ht with h | h <;> rw [h] <;> decide
  obtain ⟨vec, hv, hc⟩ := channelOf_eq m req hmax htx
  have hrange : vec.length = 6 ∧
      ∀ i, i < 6 → 0 ≤ vec.getD i 0 ∧ vec.getD i 0 < 2 ^ width m i := by
    rcases ht with h | h
    · have e := mapAddress_ChRaBaRoCo m req h hl hb
      rw [hv, Option.some.injEq] at e
      subst e
      refine ⟨rfl, ?_⟩
      intro i hi
      interval_cases i <;> exact bitField_range _ _ _
    · have e := mapAddress_RoBaRaCoCh m req h hl hb
      rw [hv, Option.some.injEq] at e
      subst e
      refine ⟨rfl, ?_⟩
      intro i hi
      interval_cases i <;> exact bitField_range _ _ _
  refine ⟨vec, hv, by rw [hrange.1, hl], ?_, hc, ?_⟩
  · intro i hi
    rw [hl] at hi
    exact hrange.2 i hi
  · intro n hn
    have h0 := hrange.2 0 (by norm_num)
    rw [hc]
    refine ⟨h0.1, ?_⟩
    have h1 : vec.getD 0 0 < ((2 ^ width m 0 : Nat) : Int) := by
      push_cast
      exact h0.2
    rw [hn]
    unfold width at h1
    omega

theorem C24_coordinates_in_range_witness :
    ∃ vec, mapAddress hbmExample (mkRequest (-64) 0 ReqType.READ) = some vec ∧
      vec.length = hbmExample.addr_bits.length ∧
      (∀ i, i < hbmExample.addr_bits.length →
        0 ≤ vec.getD i 0 ∧ vec.getD i 0 < 2 ^ (hbmExample.addr_bits.getD i 0).toNat) ∧
      channelOf hbmExample (mkRequest (-64) 0 ReqType.READ) = vec.getD 0 0 ∧
      (∀ n : Nat, n = 2 ^ (hbmExample.addr_bits.getD 0 0).toNat →
        0 ≤ channelOf hbmExample (mkRequest (-64) 0 ReqType.READ) ∧
          (channelOf hbmExample (mkRequest (-64) 0 ReqType.READ)).toNat < n) :=
  C24_coordinates_in_range hbmExample (mkRequest (-64) 0 ReqType.READ) (Or.inr rfl) rfl
    (by decide) (by decide)

/-! ## Access recording -/

theorem insert_table (m : Memory) (req : Request) :
    (addressAccCountTable_insert m req).addressAccCountTable
      = mapSet m.addressAccCountTable (accessKey req)
          ((mapFind m.addressAccCountTable (accessKey req)).getD []
            ++ [req.addr_vec.getD Level.Channel.toNat 0]) := rfl

/-- The list of a key after one insertion: the old list, followed by the
Channel coordinate when the request has that key. -/
theorem insert_lookup (m : Memory) (req : Request) (k : Int × Int × Int) :
    (mapFind (addressAccCountTable_insert m req).addressAccCountTable k).getD []
      = (mapFind m.addressAccCountTable k).getD []
        ++ (if accessKey req = k then [req.addr_vec.getD Level.Channel.toNat 0] else []) := by
  rw [insert_table]
  by_cases h : accessKey req = k
  · subst h
    rw [mapFind_mapSet_self]
    simp
  · have h' : k ≠ accessKey req := fun e => h e.symm
    rw [mapFind_mapSet_ne _ _ _ _ h']
    simp [h]

/-- The list of a key after a sequence of insertions: the old list, followed
by the Channel coordinates of the requests with that key, in call order. -/
theorem recordAll_lookup (reqs : List Request) (m : Memory) (k : Int × Int × Int) :
    (mapFind (recordAll m reqs).addressAccCountTable k).getD []
      = (mapFind m.addressAccCountTable k).getD []
        ++ (reqs.filter (fun r => decide (accessKey r = k))).map
            (fun r => r.addr_vec.getD Level.Channel.toNat 0) := by
  induction reqs generalizing m with
  | nil => simp [recordAll]
  | cons r rs ih =>
    have e : recordAll m (r :: rs) = recordAll (addressAccCountTable_insert m r) rs := rfl
    rw [e, ih, insert_lookup]
    by_cases h : accessKey r = k
    · simp [h, List.filter_cons]
    · simp [h, List.filter_cons]

/-- C23. For every request with a mapped vector (the `int` product of the
Bank and BankGroup coordinates not overflowing), `addressAccCountTable_insert`
appends the Channel coordinate to the end of the list stored under
(Bank * BankGroup, Column, Row), creating the list for a new key, and leaves
the lists of the other keys and the rest of the object unchanged; so lists
stay non-empty, and after any sequence of insertions the list of a key holds
the channels of the requests with that key in the order of insertion. -/
theorem C23_access_recording (m : Memory) (req : Request)
    (hprod : -2 ^ 31 ≤ req.addr_vec.getD Level.Bank.toNat 0
        * req.addr_vec.getD Level.BankGroup.toNat 0 ∧
      req.addr_vec.getD Level.Bank.toNat 0 * req.addr_vec.getD Level.BankGroup.toNat 0
        < 2 ^ 31) :
    accessKey req
      = (req.addr_vec.getD Level.Bank.toNat 0 * req.addr_vec.getD Level.BankGroup.toNat 0,
         req.addr_vec.getD Level.Column.toNat 0, req.addr_vec.getD Level.Row.toNat 0) ∧
    mapFind (addressAccCountTable_insert m req).addressAccCountTable (accessKey req)
      = some ((mapFind m.addressAccCountTable (accessKey req)).getD []
          ++ [req.addr_vec.getD Level.Channel.toNat 0]) ∧
    (∀ k, k ≠ accessKey req →
      mapFind (addressAccCountTable_insert m req).addressAccCountTable k
        = mapFind m.addressAccCountTable k) ∧
    addressAccCountTable_insert m req
      = { m with
          addressAccCountTable := (addressAccCountTable_insert m req).addressAccCountTable } ∧
    ((∀ k l, mapFind m.addressAccCountTable k = some l → l ≠ []) →
      ∀ k l, mapFind (addressAccCountTable_insert m req).addressAccCountTable k = some l →
        l ≠ []) ∧
    (∀ (reqs : List Request) (k : Int × Int × Int),
      (mapFind (recordAll m reqs).addressAccCountTable k).getD []
        = (mapFind m.addressAccCountTable k).getD []
          ++ (reqs.filter (fun r => decide (accessKey r = k))).map
              (fun r => r.addr_vec.getD Level.Channel.toNat 0)) := by
  refine ⟨?_, ?_, ?_, rfl, ?_, fun reqs k => recordAll_lookup reqs m k⟩
  · unfold accessKey
    rw [wrapInt32_of_range _ hprod.1 hprod.2]
  · rw [insert_table]
    exact mapFind_mapSet_self _ _ _
  · intro k hk
    rw [insert_table]
    exact mapFind_mapSet_ne _ _ _ _ hk
  · intro hne k l hl
    rw [insert_table] at hl
    by_cases hk : k = accessKey req
    · subst hk
      rw [mapFind_mapSet_self] at hl
      rw [← Option.some.inj hl]
      simp
    · rw [mapFind_mapSet_ne _ _ _ _ hk] at hl
      exact hne k l hl

theorem C23_access_recording_witness :
    accessKey (mappedRequest [1, 0, 2, 3, 7, 5])
      = ((mappedRequest [1, 0, 2, 3, 7, 5]).addr_vec.getD Level.Bank.toNat 0
          * (mappedRequest [1, 0, 2, 3, 7, 5]).addr_vec.getD Level.BankGroup.toNat 0,
         (mappedRequest [1, 0, 2, 3, 7, 5]).addr_vec.getD Level.Column.toNat 0,
         (mappedRequest [1, 0, 2, 3, 7, 5]).addr_vec.getD Level.Row.toNat 0) ∧
    mapFind (addressAccCountTable_insert hbmExample
        (mappedRequest [1, 0, 2, 3, 7, 5])).addressAccCountTable
        (accessKey (mappedRequest [1, 0, 2, 3, 7, 5]))
      = some ((mapFind hbmExample.addressAccCountTable
            (accessKey (mappedRequest [1, 0, 2, 3, 7, 5]))).getD []
          ++ [(mappedRequest [1, 0, 2, 3, 7, 5]).addr_vec.getD Level.Channel.toNat 0]) ∧
    (∀ k, k ≠ accessKey (mappedRequest [1, 0, 2, 3, 7, 5]) →
      mapFind (addressAccCountTable_insert hbmExample
          (mappedRequest [1, 0, 2, 3, 7, 5])).addressAccCountTable k
        = mapFind hbmExample.addressAccCountTable k) ∧
    addressAccCountTable_insert hbmExample (mappedRequest [1, 0, 2, 3, 7, 5])
      = { hbmExample with
          addressAccCountTable :=
            (addressAccCountTable_insert hbmExample
              (mappedRequest [1, 0, 2, 3, 7, 5])).addressAccCountTable } ∧
    ((∀ k l, mapFind hbmExample.addressAccCountTable k = some l → l ≠ []) →
      ∀ k l, mapFind (addressAccCountTable_insert hbmExample
          (mappedRequest [1, 0, 2, 3, 7, 5])).addressAccCountTable k = some l → l ≠ []) ∧
    (∀ (reqs : List Request) (k : Int × Int × Int),
      (mapFind (recordAll hbmExample reqs).addressAccCountTable k).getD []
        = (mapFind hbmExample.addressAccCountTable k).getD []
          ++ (reqs.filter (fun r => decide (accessKey r = k))).map
              (fun r => r.addr_vec.getD Level.Channel.toNat 0)) :=
  C23_access_recording hbmExample (mappedRequest [1, 0, 2, 3, 7, 5]) (by decide)

/-! ## Consistency of the admission counters -/

theorem sum_modify_succ (v : List Nat) (n : Nat) :
    (v.modify (· + 1) n).sum = v.sum + (if n < v.length then 1 else 0) := by
  induction v generalizing n with
  | nil => simp
  | cons a t ih =>
    cases n with
    | zero =>
      simp only [List.modify_zero_cons, List.sum_cons, List.length_cons, Nat.zero_lt_succ,
        if_true]
      omega
    | succ n =>
      simp only [List.modify_succ_cons, List.sum_cons, List.length_cons, ih n,
        Nat.succ_lt_succ_iff]
      omega

/-- Incrementing an entry inside the vector adds 1 to the total. -/
theorem sum_incrAt (v : List Nat) (i : Int) (h0 : 0 ≤ i) (h1 : i < (v.length : Int)) :
    (incrAt v i).sum = v.sum + 1 := by
  unfold incrAt
  rw [if_pos h0, sum_modify_succ, if_pos (by omega)]

/-- One call of `send` with core id and Channel coordinate within range
keeps the three relations between the admission counters. -/
theorem send_sums (m : Memory) (ctrls : Int → Request → Bool) (req : Request)
    (ht : m.type ≠ MapType.MAX) (htx : 0 ≤ m.tx_bits ∧ m.tx_bits ≤ 30)
    (hcore : 0 ≤ req.coreid ∧ req.coreid < (m.num_read_requests.length : Int) ∧
      req.coreid < (m.num_write_requests.length : Int))
    (hchan : 0 ≤ channelOf m req ∧
      channelOf m req < (m.incoming_requests_per_channel.length : Int) ∧
      channelOf m req < (m.incoming_read_reqs_per_channel.length : Int))
    (ha : m.num_incoming_requests = m.incoming_requests_per_channel.sum)
    (hb : m.num_read_requests.sum = m.incoming_read_reqs_per_channel.sum)
    (hc : m.num_read_requests.sum + m.num_write_requests.sum ≤ m.num_incoming_requests) :
    ∃ m1 b, send m ctrls req = some (m1, b) ∧ config m1 = config m ∧
      m1.num_read_requests.length = m.num_read_requests.length ∧
      m1.num_write_requests.length = m.num_write_requests.length ∧
      m1.incoming_requests_per_channel.length = m.incoming_requests_per_channel.length ∧
      m1.incoming_read_reqs_per_channel.length = m.incoming_read_reqs_per_channel.length ∧
      m1.num_incoming_requests = m1.incoming_requests_per_channel.sum ∧
      m1.num_read_requests.sum = m1.incoming_read_reqs_per_channel.sum ∧
      m1.num_read_requests.sum + m1.num_write_requests.sum ≤ m1.num_incoming_requests := by
  obtain ⟨m1, hs, hcfg, e0, e1, e2, e3, e4⟩ := send_effect m ctrls req ht htx
  have s1 := sum_incrAt m.incoming_requests_per_channel _ hchan.1 hchan.2.1
  have s2 := sum_incrAt m.num_read_requests _ hcore.1 hcore.2.1
  have s3 := sum_incrAt m.num_write_requests _ hcore.1 hcore.2.2
  have s4 := sum_incrAt m.incoming_read_reqs_per_channel _ hchan.1 hchan.2.2
  refine ⟨m1, _, hs, hcfg, ?_⟩
  cases hans : enqueueAnswer m (ctrls, req)
  · simp only [hans, Bool.false_eq_true, if_false, false_and, add_zero] at e0 e1 e2 e3 e4
    rw [e0, e1, e2, e3, e4]
    exact ⟨rfl, rfl, rfl, rfl, ha, hb, hc⟩
  · simp only [hans, if_true, true_and] at e0 e1 e2 e3 e4
    cases hty : req.type
    · simp only [hty, if_true, if_false, reduceCtorEq] at e2 e3 e4
      rw [e0, e1, e2, e3, e4, s1, s2, s4]
      refine ⟨length_incrAt _ _, rfl, length_incrAt _ _, length_incrAt _ _, ?_, ?_, ?_⟩ <;> omega
    · simp only [hty, if_true, if_false, reduceCtorEq] at e2 e3 e4
      rw [e0, e1, e2, e3, e4, s1, s3]
      refine ⟨rfl, length_incrAt _ _, length_incrAt _ _, rfl, ?_, ?_, ?_⟩ <;> omega
    · simp only [hty, if_false, reduceCtorEq] at e2 e3 e4
      rw [e0, e1, e2, e3, e4, s1]
      refine ⟨rfl, rfl, length_incrAt _ _, rfl, ?_, ?_, ?_⟩ <;> omega

/-- A sequence of `send` calls with core ids and Channel coordinates within
range keeps the three relations between the admission counters. -/
theorem sendSeq_sums (calls : List ((Int → Request → Bool) × Request)) (m : Memory)
    (ht : m.type ≠ MapType.MAX) (htx : 0 ≤ m.tx_bits ∧ m.tx_bits ≤ 30)
    (hrange : ∀ x ∈ calls,
      (0 ≤ x.2.coreid ∧ x.2.coreid < (m.num_read_requests.length : Int) ∧
        x.2.coreid < (m.num_write_requests.length : Int)) ∧
      (0 ≤ channelOf m x.2 ∧
        channelOf m x.2 < (m.incoming_requests_per_channel.length : Int) ∧
        channelOf m x.2 < (m.incoming_read_reqs_per_channel.length : Int)))
    (ha : m.num_incoming_requests = m.incoming_requests_per_channel.sum)
    (hb : m.num_read_requests.sum = m.incoming_read_reqs_per_channel.sum)
    (hc : m.num_read_requests.sum + m.num_write_requests.sum ≤ m.num_incoming_requests) :
    ∃ m1 bs, sendSeq m calls = some (m1, bs) ∧
      m1.num_incoming_requests = m1.incoming_requests_per_channel.sum ∧
      m1.num_read_requests.sum = m1.incoming_read_reqs_per_channel.sum ∧
      m1.num_read_requests.sum + m1.num_write_requests.sum ≤ m1.num_incoming_requests := by
  induction calls generalizing m with
  | nil => exact ⟨m, [], rfl, ha, hb, hc⟩
  | cons x xs ih =>
    obtain ⟨hcore, hchan⟩ := hrange x (List.mem_cons_self _ _)
    obtain ⟨m1, b, hs, hcfg, l1, l2, l3, l4, a1, b1, c1⟩ :=
      send_sums m x.1 x.2 ht htx hcore hchan ha hb hc
    have hcf := hcfg
    simp only [config, Prod.mk.injEq] at hcf
    obtain ⟨m2, bs, hseq, a2, b2, c2⟩ := ih m1 (by rw [hcf.1]; exact ht)
      (by rw [hcf.2.2.1]; exact htx)
      (by
        intro y hy
        rw [channelOf_congr m m1 y.2 hcfg, l1, l2, l3, l4]
        exact hrange y (List.mem_cons_of_mem _ hy))
      a1 b1 c1
    refine ⟨m2, b :: bs, ?_, a2, b2, c2⟩
    simp only [sendSeq, hs, hseq]

/-- C26. In every state reached by `send` calls (core ids and Channel
coordinates within range) from counters that satisfy them, as zeroed
counters do, `num_incoming_requests` is the sum over the channels of
`incoming_requests_per_channel`, the reads summed over the cores equal
`incoming_read_reqs_per_channel` summed over the channels, and the reads plus
the writes do not exceed `num_incoming_requests`. -/
theorem C26_counter_consistency (m : Memory) (calls : List ((Int → Request → Bool) × Request))
    (ht : m.type ≠ MapType.MAX) (htx : 0 ≤ m.tx_bits ∧ m.tx_bits ≤ 30)
    (hzero : m.num_incoming_requests = 0 ∧ (∀ x ∈ m.num_read_requests, x = 0) ∧
      (∀ x ∈ m.num_write_requests, x = 0) ∧ (∀ x ∈ m.incoming_requests_per_channel, x = 0) ∧
      (∀ x ∈ m.incoming_read_reqs_per_channel, x = 0))
    (hrange : ∀ x ∈ calls,
      (0 ≤ x.2.coreid ∧ x.2.coreid < (m.num_read_requests.length : Int) ∧
        x.2.coreid < (m.num_write_requests.length : Int)) ∧
      (0 ≤ channelOf m x.2 ∧
        channelOf m x.2 < (m.incoming_requests_per_channel.length : Int) ∧
        channelOf m x.2 < (m.incoming_read_reqs_per_channel.length : Int))) :
    ∃ m1 bs, sendSeq m calls = some (m1, bs) ∧
      m1.num_incoming_requests = m1.incoming_requests_per_channel.sum ∧
      m1.num_read_requests.sum = m1.incoming_read_reqs_per_channel.sum ∧
      m1.num_read_requests.sum + m1.num_write_requests.sum ≤ m1.num_incoming_requests := by
  obtain ⟨h0, h1, h2, h3, h4⟩ := hzero
  have z1 : m.num_read_requests.sum = 0 := List.sum_eq_zero h1
  have z2 : m.num_write_requests.sum = 0 := List.sum_eq_zero h2
  have z3 : m.incoming_requests_per_channel.sum = 0 := List.sum_eq_zero h3
  have z4 : m.incoming_read_reqs_per_channel.sum = 0 := List.sum_eq_zero h4
  exact sendSeq_sums calls m ht htx hrange (by rw [h0, z3]) (by rw [z1, z4])
    (by rw [z1, z2, h0])

theorem C26_counter_consistency_witness :
    ∃ m1 bs, sendSeq hbmExample exampleCalls = some (m1, bs) ∧
      m1.num_incoming_requests = m1.incoming_requests_per_channel.sum ∧
      m1.num_read_requests.sum = m1.incoming_read_reqs_per_channel.sum ∧
      m1.num_read_requests.sum + m1.num_write_requests.sum ≤ m1.num_incoming_requests :=
  C26_counter_consistency hbmExample exampleCalls (by decide) (by decide) (by decide)
    (by decide)

/-! ## The free-frame count -/

theorem getD_set_self (pages : List Int) (p : Nat) (c : Int) (hp : p < pages.length) :
    (pages.set p c).getD p 0 = c := by
  rw [List.getD_eq_getElem?_getD]
  simp [hp]

theorem getD_set_ne (pages : List Int) (p q : Nat) (c : Int) (h : p ≠ q) :
    (pages.set p c).getD q 0 = pages.getD q 0 := by
  rw [List.getD_eq_getElem?_getD, List.getD_eq_getElem?_getD, List.getElem?_set_ne h]

theorem getD_mem (pages : List Int) (p : Nat) (hp : p < pages.length) :
    pages.getD p 0 ∈ pages := by
  rw [List.getD_eq_getElem _ _ hp]
  exact List.getElem_mem _

/-- A call for a key that is in the table returns the stored frame and
leaves the memory object as it was. -/
theorem page_allocator_hit (m : Memory) (addr coreid : Int) (r : Nat)
    (ht : m.translation = Translation.Random)
    (hhit : mapFind m.page_translation (coreid, addr >>> (12 : Nat)) ≠ none) :
    page_allocator m addr coreid r = some
      (m, physicalAddress ((mapFind m.page_translation (coreid, addr >>> (12 : Nat))).getD 0)
        addr) := by
  simp [page_allocator, ht, hhit]

/-- With a non-empty pool whose free count is the number of free slots, a
call under the random policy returns: neither assertion fails. -/
theorem page_allocator_returns (m : Memory) (addr coreid : Int) (r : Nat)
    (ht : m.translation = Translation.Random)
    (hN : m.free_physical_pages.length ≠ 0)
    (hrem : m.free_physical_pages_remaining = (m.free_physical_pages.count (-1) : Int)) :
    ∃ m1 pa, page_allocator m addr coreid r = some (m1, pa) := by
  by_cases hmiss : mapFind m.page_translation (coreid, addr >>> (12 : Nat)) = none
  · by_cases h0 : m.free_physical_pages_remaining = 0
    · have hc : m.free_physical_pages.count (-1) = 0 := by
        rw [h0] at hrem
        exact_mod_cast hrem.symm
      have hnot : (-1 : Int) ∉ m.free_physical_pages := List.count_eq_zero.mp hc
      have hocc : m.free_physical_pages.getD (r % m.free_physical_pages.length) 0 ≠ -1 := by
        intro h
        apply hnot
        rw [← h]
        exact getD_mem _ _ (Nat.mod_lt _ (Nat.pos_of_ne_zero hN))
      exact ⟨_, _, page_allocator_replace m addr coreid r ht hmiss h0 hN hocc⟩
    · have hc : m.free_physical_pages.count (-1) ≠ 0 := by
        intro h
        apply h0
        rw [hrem, h]
        rfl
      have hfree : (-1 : Int) ∈ m.free_physical_pages := by
        by_contra hn
        exact hc (List.count_eq_zero.mpr hn)
      obtain ⟨k, _, _, _, hcall⟩ := page_allocator_assign m addr coreid r ht hmiss h0 hfree
      exact ⟨_, _, hcall⟩
  · exact ⟨_, _, page_allocator_hit m addr coreid r ht hmiss⟩

/-- A completed call with a core id other than -1 keeps "the free count is
the number of free slots", does not raise the free count and does not lower
the replacement counter. -/
theorem page_allocator_count (m : Memory) (addr coreid : Int) (r : Nat) (m1 : Memory) (pa : Int)
    (h : page_allocator m addr coreid r = some (m1, pa))
    (ht : m.translation = Translation.Random) (hc : coreid ≠ -1)
    (hrem : m.free_physical_pages_remaining = (m.free_physical_pages.count (-1) : Int)) :
    m1.translation = Translation.Random ∧
    m1.free_physical_pages.length = m.free_physical_pages.length ∧
    m1.free_physical_pages_remaining = (m1.free_physical_pages.count (-1) : Int) ∧
    m1.free_physical_pages_remaining ≤ m.free_physical_pages_remaining ∧
    m.physical_page_replacement ≤ m1.physical_page_replacement := by
  obtain ⟨e1, _, ehit, _, _⟩ := page_allocator_effect m addr coreid r m1 pa h
  by_cases hmiss : mapFind m.page_translation (coreid, addr >>> (12 : Nat)) = none
  · obtain ⟨p, hp, _, _, hcase⟩ := page_allocator_random_miss m addr coreid r m1 pa h ht hmiss
    rcases hcase with ⟨_, hrep, _, hpg, hr⟩ | ⟨_, hrep, hfree, hpg, hr⟩
    · rw [hpg, hr, hrep]
      exact ⟨e1.trans ht, rfl, hrem, le_refl _, Nat.le_succ _⟩
    · have hcnt := count_free_set m.free_physical_pages p coreid hp hfree
      rw [if_pos hc] at hcnt
      rw [hpg, hr, hrep, List.length_set]
      refine ⟨e1.trans ht, rfl, ?_, by omega, le_refl _⟩
      rw [hrem, ← hcnt]
      push_cast
      omega
  · have e := ehit hmiss
    subst e
    exact ⟨ht, rfl, hrem, le_refl _, le_refl _⟩

/-- A completed sequence of calls with core ids other than -1 keeps "the
free count is the number of free slots"; the free count does not rise and
the replacement counter does not fall. -/
theorem pageAllocatorSeq_count (calls : List (Int × Int × Nat)) (m m1 : Memory)
    (h : pageAllocatorSeq m calls = some m1)
    (ht : m.translation = Translation.Random) (hcore : ∀ c ∈ calls, c.2.1 ≠ -1)
    (hrem : m.free_physical_pages_remaining = (m.free_physical_pages.count (-1) : Int)) :
    m1.translation = Translation.Random ∧
    m1.free_physical_pages.length = m.free_physical_pages.length ∧
    m1.free_physical_pages_remaining = (m1.free_physical_pages.count (-1) : Int) ∧
    m1.free_physical_pages_remaining ≤ m.free_physical_pages_remaining ∧
    m.physical_page_replacement ≤ m1.physical_page_replacement := by
  induction calls generalizing m with
  | nil =>
    simp only [pageAllocatorSeq, Option.some.injEq] at h
    subst h
    exact ⟨ht, rfl, hrem, le_refl _, le_refl _⟩
  | cons c cs ih =>
    simp only [pageAllocatorSeq] at h
    cases hc : page_allocator m c.1 c.2.1 c.2.2 with
    | none => simp [hc] at h
    | some x =>
      obtain ⟨m2, pa⟩ := x
      simp only [hc] at h
      obtain ⟨t2, l2, r2, d2, p2⟩ := page_allocator_count m c.1 c.2.1 c.2.2 m2 pa hc ht
        (hcore c (List.mem_cons_self _ _)) hrem
      obtain ⟨t1, l1, r1, d1, p1⟩ := ih m2 h t2
        (fun y hy => hcore y (List.mem_cons_of_mem _ hy)) r2
      exact ⟨t1, l1.trans l2, r1, le_trans d1 d2, le_trans p2 p1⟩

/-- With a non-empty pool whose free count is the number of free slots,
every sequence of calls with core ids other than -1 returns. -/
theorem pageAllocatorSeq_returns (calls : List (Int × Int × Nat)) (m : Memory)
    (ht : m.translation = Translation.Random) (hN : m.free_physical_pages.length ≠ 0)
    (hcore : ∀ c ∈ calls, c.2.1 ≠ -1)
    (hrem : m.free_physical_pages_remaining = (m.free_physical_pages.count (-1) : Int)) :
    ∃ m1, pageAllocatorSeq m calls = some m1 := by
  induction calls generalizing m with
  | nil => exact ⟨m, rfl⟩
  | cons c cs ih =>
    obtain ⟨m2, pa, hc⟩ := page_allocator_returns m c.1 c.2.1 c.2.2 ht hN hrem
    obtain ⟨t2, l2, r2, _, _⟩ := page_allocator_count m c.1 c.2.1 c.2.2 m2 pa hc ht
      (hcore c (List.mem_cons_self _ _)) hrem
    obtain ⟨m1, h1⟩ := ih m2 t2 (by rw [l2]; exact hN)
      (fun y hy => hcore y (List.mem_cons_of_mem _ hy)) r2
    exact ⟨m1, by simp only [pageAllocatorSeq, hc, h1]⟩

/-- C22. Under the random policy, from a fresh pool of `N` frames, for all
sequences `pre` and `post` of calls with core ids other than -1: in the state
after `pre` and in the state after `pre` followed by `post`,
`free_physical_pages_remaining` is the number of slots holding -1 and is not
negative, and it has not increased from the start to the first state nor from
the first state to the second; when `N ≥ 1` every call returns, so neither
assertion fails. -/
theorem C22_free_count_invariant (m : Memory) (N : Nat) (pre post : List (Int × Int × Nat))
    (ht : m.translation = Translation.Random)
    (hpool : m.free_physical_pages = List.replicate N (-1))
    (hrem : m.free_physical_pages_remaining = (N : Int))
    (hcore : ∀ c ∈ pre ++ post, c.2.1 ≠ -1) :
    (1 ≤ N → ∃ m0 m1, pageAllocatorSeq m pre = some m0 ∧ pageAllocatorSeq m0 post = some m1) ∧
    ∀ m0 m1, pageAllocatorSeq m pre = some m0 → pageAllocatorSeq m0 post = some m1 →
      m0.free_physical_pages_remaining = (m0.free_physical_pages.count (-1) : Int) ∧
      m1.free_physical_pages_remaining = (m1.free_physical_pages.count (-1) : Int) ∧
      0 ≤ m0.free_physical_pages_remaining ∧ 0 ≤ m1.free_physical_pages_remaining ∧
      m0.free_physical_pages_remaining ≤ m.free_physical_pages_remaining ∧
      m1.free_physical_pages_remaining ≤ m0.free_physical_pages_remaining := by
  have hinv : m.free_physical_pages_remaining = (m.free_physical_pages.count (-1) : Int) := by
    rw [hrem, hpool, List.count_replicate_self]
  have hpre : ∀ c ∈ pre, c.2.1 ≠ -1 := fun c hc => hcore c (List.mem_append_left _ hc)
  have hpost : ∀ c ∈ post, c.2.1 ≠ -1 := fun c hc => hcore c (List.mem_append_right _ hc)
  constructor
  · intro hN
    have hlen : m.free_physical_pages.length ≠ 0 := by
      rw [hpool, List.length_replicate]
      omega
    obtain ⟨m0, h0⟩ := pageAllocatorSeq_returns pre m ht hlen hpre hinv
    obtain ⟨t0, l0, r0, _, _⟩ := pageAllocatorSeq_count pre m m0 h0 ht hpre hinv
    obtain ⟨m1, h1⟩ := pageAllocatorSeq_returns post m0 t0 (by rw [l0]; exact hlen) hpost r0
    exact ⟨m0, m1, h0, h1⟩
  · intro m0 m1 h0 h1
    obtain ⟨t0, _, r0, d0, _⟩ := pageAllocatorSeq_count pre m m0 h0 ht hpre hinv
    obtain ⟨_, _, r1, d1, _⟩ := pageAllocatorSeq_count post m0 m1 h1 t0 hpost r0
    refine ⟨r0, r1, ?_, ?_, d0, d1⟩
    · rw [r0]
      exact Int.natCast_nonneg _
    · rw [r1]
      exact Int.natCast_nonneg _

theorem C22_free_count_invariant_witness :
    (1 ≤ 3 → ∃ m0 m1, pageAllocatorSeq randomExample threeTouches = some m0 ∧
      pageAllocatorSeq m0 [(12288, 1, 7), (0, 0, 5)] = some m1) ∧
    ∀ m0 m1, pageAllocatorSeq randomExample threeTouches = some m0 →
      pageAllocatorSeq m0 [(12288, 1, 7), (0, 0, 5)] = some m1 →
      m0.free_physical_pages_remaining = (m0.free_physical_pages.count (-1) : Int) ∧
      m1.free_physical_pages_remaining = (m1.free_physical_pages.count (-1) : Int) ∧
      0 ≤ m0.free_physical_pages_remaining ∧ 0 ≤ m1.free_physical_pages_remaining ∧
      m0.free_physical_pages_remaining ≤ randomExample.free_physical_pages_remaining ∧
      m1.free_physical_pages_remaining ≤ m0.free_physical_pages_remaining :=
  C22_free_count_invariant randomExample 3 threeTouches [(12288, 1, 7), (0, 0, 5)] rfl rfl rfl
    (by decide)

/-! ## Reuse of an occupied frame -/

/-- A completed call keeps "every occupied slot of the pool is the frame of
some key of the table". -/
theorem page_allocator_owned (m : Memory) (addr coreid : Int) (r : Nat) (m1 : Memory) (pa : Int)
    (h : page_allocator m addr coreid r = some (m1, pa))
    (ht : m.translation = Translation.Random)
    (hown : ∀ p, p < m.free_physical_pages.length → m.free_physical_pages.getD p 0 ≠ -1 →
      ∃ k, mapFind m.page_translation k = some (p : Int)) :
    ∀ p, p < m1.free_physical_pages.length → m1.free_physical_pages.getD p 0 ≠ -1 →
      ∃ k, mapFind m1.page_translation k = some (p : Int) := by
  obtain ⟨_, _, ehit, _, _⟩ := page_allocator_effect m addr coreid r m1 pa h
  by_cases hmiss : mapFind m.page_translation (coreid, addr >>> (12 : Nat)) = none
  · obtain ⟨p, hp, htab, _, hcase⟩ := page_allocator_random_miss m addr coreid r m1 pa h ht hmiss
    intro q hq hocc
    rw [htab]
    have hold : m.free_physical_pages.getD q 0 ≠ -1 →
        ∃ k, mapFind (mapSet m.page_translation (coreid, addr >>> (12 : Nat)) (p : Int)) k
          = some (q : Int) := by
      intro ho
      have hq2 : q < m.free_physical_pages.length := by
        rcases hcase with ⟨_, _, _, hpg, _⟩ | ⟨_, _, _, hpg, _⟩
        · rw [hpg] at hq
          exact hq
        · rw [hpg, List.length_set] at hq
          exact hq
      obtain ⟨k, hk⟩ := hown q hq2 ho
      exact ⟨k, mapFind_mapSet_of_some _ _ _ _ _ hmiss hk⟩
    rcases hcase with ⟨_, _, _, hpg, _⟩ | ⟨_, _, _, hpg, _⟩
    · rw [hpg] at hocc
      exact hold hocc
    · by_cases hpq : p = q
      · subst hpq
        exact ⟨_, mapFind_mapSet_self _ _ _⟩
      · rw [hpg, getD_set_ne _ _ _ _ hpq] at hocc
        exact hold hocc
  · have e := ehit hmiss
    subst e
    exact hown

theorem pageAllocatorSeq_owned (calls : List (Int × Int × Nat)) (m m1 : Memory)
    (h : pageAllocatorSeq m calls = some m1)
    (ht : m.translation = Translation.Random)
    (hown : ∀ p, p < m.free_physical_pages.length → m.free_physical_pages.getD p 0 ≠ -1 →
      ∃ k, mapFind m.page_translation k = some (p : Int)) :
    ∀ p, p < m1.free_physical_pages.length → m1.free_physical_pages.getD p 0 ≠ -1 →
      ∃ k, mapFind m1.page_translation k = some (p : Int) := by
  induction calls generalizing m with
  | nil =>
    simp only [pageAllocatorSeq, Option.some.injEq] at h
    subst h
    exact hown
  | cons c cs ih =>
    simp only [pageAllocatorSeq] at h
    cases hc : page_allocator m c.1 c.2.1 c.2.2 with
    | none => simp [hc] at h
    | some x =>
      obtain ⟨m2, pa⟩ := x
      simp only [hc] at h
      obtain ⟨e1, _, _, _, _⟩ := page_allocator_effect m c.1 c.2.1 c.2.2 m2 pa hc
      exact ih m2 h (e1.trans ht) (page_allocator_owned m c.1 c.2.1 c.2.2 m2 pa hc ht hown)

/-- Every key of the table after a completed sequence of calls was in the
table before or is the key of one of the calls. -/
theorem pageAllocatorSeq_keys (calls : List (Int × Int × Nat)) (m m1 : Memory)
    (h : pageAllocatorSeq m calls = some m1) (k : Int × Int) (v : Int)
    (hk : mapFind m1.page_translation k = some v) :
    mapFind m.page_translation k = some v ∨ k ∈ calls.map keyOf := by
  induction calls generalizing m with
  | nil =>
    simp only [pageAllocatorSeq, Option.some.injEq] at h
    subst h
    exact Or.inl hk
  | cons c cs ih =>
    simp only [pageAllocatorSeq] at h
    cases hc : page_allocator m c.1 c.2.1 c.2.2 with
    | none => simp [hc] at h
    | some x =>
      obtain ⟨m2, pa⟩ := x
      simp only [hc] at h
      obtain ⟨_, _, ehit, emiss, _⟩ := page_allocator_effect m c.1 c.2.1 c.2.2 m2 pa hc
      rcases ih m2 h with h2 | h2
      · by_cases hmiss : mapFind m.page_translation (c.2.1, c.1 >>> (12 : Nat)) = none
        · obtain ⟨w, htab, _⟩ := emiss hmiss
          by_cases hkey : k = (c.2.1, c.1 >>> (12 : Nat))
          · right
            rw [hkey]
            exact List.mem_cons_self _ _
          · left
            rw [htab, mapFind_mapSet_ne _ _ _ _ hkey] at h2
            exact h2
        · have e := ehit hmiss
          subst e
          exact Or.inl h2
      · exact Or.inr (List.mem_cons_of_mem _ h2)

/-- C21. Under the random policy, from a fresh pool of `N` frames and an
empty table, after any completed calls with core ids other than -1: a first
touch with no free frame remaining returns when `N ≥ 1`, and when it returns
the new key is mapped to frame `r mod N`, which is the frame of an earlier
key (the key of one of the earlier calls, different from the new key); the
earlier key keeps its table entry, every slot of the pool and
`free_physical_pages_remaining` are unchanged, and later calls for the
earlier key still return an address in that frame. -/
theorem C21_stale_mapping (m : Memory) (N : Nat) (calls : List (Int × Int × Nat))
    (m1 : Memory) (addr coreid : Int) (r : Nat)
    (ht : m.translation = Translation.Random)
    (hpool : m.free_physical_pages = List.replicate N (-1))
    (hrem : m.free_physical_pages_remaining = (N : Int))
    (htab : m.page_translation = [])
    (hcore : ∀ c ∈ calls, c.2.1 ≠ -1)
    (hseq : pageAllocatorSeq m calls = some m1)
    (hmiss : mapFind m1.page_translation (coreid, addr >>> (12 : Nat)) = none)
    (hzero : m1.free_physical_pages_remaining = 0) :
    (1 ≤ N → ∃ m2 pa, page_allocator m1 addr coreid r = some (m2, pa)) ∧
    ∀ m2 pa, page_allocator m1 addr coreid r = some (m2, pa) →
      mapFind m2.page_translation (coreid, addr >>> (12 : Nat)) = some ((r % N : Nat) : Int) ∧
      (∃ k, k ∈ calls.map keyOf ∧ k ≠ (coreid, addr >>> (12 : Nat)) ∧
        mapFind m1.page_translation k = some ((r % N : Nat) : Int) ∧
        mapFind m2.page_translation k = some ((r % N : Nat) : Int) ∧
        ∀ (addr2 : Int) (r2 : Nat), addr2 >>> (12 : Nat) = k.2 →
          page_allocator m2 addr2 k.1 r2
            = some (m2, physicalAddress ((r % N : Nat) : Int) addr2)) ∧
      m2.free_physical_pages = m1.free_physical_pages ∧
      m2.free_physical_pages_remaining = m1.free_physical_pages_remaining := by
  have hinv : m.free_physical_pages_remaining = (m.free_physical_pages.count (-1) : Int) := by
    rw [hrem, hpool, List.count_replicate_self]
  have hown : ∀ p, p < m.free_physical_pages.length → m.free_physical_pages.getD p 0 ≠ -1 →
      ∃ k, mapFind m.page_translation k = some (p : Int) := by
    intro p hp ho
    exfalso
    apply ho
    have hmem := getD_mem m.free_physical_pages p hp
    rw [hpool] at hmem
    rw [hpool]
    exact List.eq_of_mem_replicate hmem
  obtain ⟨t1, l1, r1, _, _⟩ := pageAllocatorSeq_count calls m m1 hseq ht hcore hinv
  have hown1 := pageAllocatorSeq_owned calls m m1 hseq ht hown
  have hlen : m1.free_physical_pages.length = N := by
    rw [l1, hpool, List.length_replicate]
  constructor
  · intro hN
    exact page_allocator_returns m1 addr coreid r t1 (by rw [hlen]; omega) r1
  · intro m2 pa hcall
    obtain ⟨p, hp, _, _, _⟩ := page_allocator_random_miss m1 addr coreid r m2 pa hcall t1 hmiss
    have hN1 : m1.free_physical_pages.length ≠ 0 := by omega
    have hc0 : m1.free_physical_pages.count (-1) = 0 := by
      rw [hzero] at r1
      exact_mod_cast r1.symm
    have hnot : (-1 : Int) ∉ m1.free_physical_pages := List.count_eq_zero.mp hc0
    have hocc : m1.free_physical_pages.getD (r % m1.free_physical_pages.length) 0 ≠ -1 := by
      intro h
      apply hnot
      rw [← h]
      exact getD_mem _ _ (Nat.mod_lt _ (Nat.pos_of_ne_zero hN1))
    have hrep := page_allocator_replace m1 addr coreid r t1 hmiss hzero hN1 hocc
    rw [hlen] at hrep hocc
    rw [hrep] at hcall
    simp only [Option.some.injEq, Prod.mk.injEq] at hcall
    obtain ⟨hm2, _⟩ := hcall
    have htab2 : m2.page_translation
        = mapSet m1.page_translation (coreid, addr >>> (12 : Nat)) ((r % N : Nat) : Int) := by
      rw [← hm2]
    have hpg2 : m2.free_physical_pages = m1.free_physical_pages := by rw [← hm2]
    have hr2 : m2.free_physical_pages_remaining = m1.free_physical_pages_remaining := by
      rw [← hm2]
    have ht2 : m2.translation = Translation.Random := by
      rw [← hm2]
      exact t1
    obtain ⟨k, hk⟩ := hown1 (r % N) (by rw [hlen]; exact Nat.mod_lt _ (by omega)) hocc
    have hk2 : mapFind m2.page_translation k = some ((r % N : Nat) : Int) := by
      rw [htab2]
      exact mapFind_mapSet_of_some _ _ _ _ _ hmiss hk
    have hkmem : k ∈ calls.map keyOf := by
      rcases pageAllocatorSeq_keys calls m m1 hseq k _ hk with h0 | h0
      · rw [htab] at h0
        simp [mapFind] at h0
      · exact h0
    have hkne : k ≠ (coreid, addr >>> (12 : Nat)) := by
      intro e
      rw [e, hmiss] at hk
      exact Option.noConfusion hk
    refine ⟨by rw [htab2]; exact mapFind_mapSet_self _ _ _, ⟨k, hkmem, hkne, hk, hk2, ?_⟩,
      hpg2, hr2⟩
    intro addr2 r2 he
    have hk3 : mapFind m2.page_translation (k.1, addr2 >>> (12 : Nat))
        = some ((r % N : Nat) : Int) := by
      rw [he]
      exact hk2
    rw [page_allocator_hit m2 addr2 k.1 r2 ht2 (by rw [hk3]; exact Option.some_ne_none _), hk3]
    rfl

theorem C21_stale_mapping_witness :
    (1 ≤ 3 → ∃ m2 pa, page_allocator afterThreeTouches 12288 1 7 = some (m2, pa)) ∧
    ∀ m2 pa, page_allocator afterThreeTouches 12288 1 7 = some (m2, pa) →
      mapFind m2.page_translation (1, (12288 : Int) >>> (12 : Nat)) = some ((7 % 3 : Nat) : Int) ∧
      (∃ k, k ∈ threeTouches.map keyOf ∧ k ≠ (1, (12288 : Int) >>> (12 : Nat)) ∧
        mapFind afterThreeTouches.page_translation k = some ((7 % 3 : Nat) : Int) ∧
        mapFind m2.page_translation k = some ((7 % 3 : Nat) : Int) ∧
        ∀ (addr2 : Int) (r2 : Nat), addr2 >>> (12 : Nat) = k.2 →
          page_allocator m2 addr2 k.1 r2
            = some (m2, physicalAddress ((7 % 3 : Nat) : Int) addr2)) ∧
      m2.free_physical_pages = afterThreeTouches.free_physical_pages ∧
      m2.free_physical_pages_remaining = afterThreeTouches.free_physical_pages_remaining :=
  C21_stale_mapping randomExample 3 threeTouches afterThreeTouches 12288 1 7 rfl rfl rfl rfl
    (by decide) (by decide) (by decide) rfl

/-! ## No frame sharing before the first replacement -/

/-- A completed call with a core id other than -1 after which the
replacement counter is still 0 keeps "every frame of the table is an occupied
slot of the pool, and no two keys have the same frame". -/
theorem page_allocator_injective (m : Memory) (addr coreid : Int) (r : Nat) (m1 : Memory)
    (pa : Int) (h : page_allocator m addr coreid r = some (m1, pa))
    (ht : m.translation = Translation.Random) (hc : coreid ≠ -1)
    (hrep : m1.physical_page_replacement = 0)
    (hocc : ∀ k v, mapFind m.page_translation k = some v →
      ∃ p : Nat, v = (p : Int) ∧ p < m.free_physical_pages.length ∧
        m.free_physical_pages.getD p 0 ≠ -1)
    (hinj : ∀ k1 k2 v, mapFind m.page_translation k1 = some v →
      mapFind m.page_translation k2 = some v → k1 = k2) :
    (∀ k v, mapFind m1.page_translation k = some v →
      ∃ p : Nat, v = (p : Int) ∧ p < m1.free_physical_pages.length ∧
        m1.free_physical_pages.getD p 0 ≠ -1) ∧
    (∀ k1 k2 v, mapFind m1.page_translation k1 = some v →
      mapFind m1.page_translation k2 = some v → k1 = k2) := by
  obtain ⟨_, _, ehit, _, _⟩ := page_allocator_effect m addr coreid r m1 pa h
  by_cases hmiss : mapFind m.page_translation (coreid, addr >>> (12 : Nat)) = none
  · obtain ⟨p, hp, htab, _, hcase⟩ := page_allocator_random_miss m addr coreid r m1 pa h ht hmiss
    rcases hcase with ⟨_, hr, _, _, _⟩ | ⟨_, _, hfree, hpg, _⟩
    · omega
    · have hold : ∀ k v, k ≠ (coreid, addr >>> (12 : Nat)) →
          mapFind m1.page_translation k = some v → mapFind m.page_translation k = some v := by
        intro k v hk hv
        rw [htab, mapFind_mapSet_ne _ _ _ _ hk] at hv
        exact hv
      have hnew : ∀ v, mapFind m1.page_translation (coreid, addr >>> (12 : Nat)) = some v →
          v = (p : Int) := by
        intro v hv
        rw [htab, mapFind_mapSet_self] at hv
        exact (Option.some.inj hv).symm
      have hfresh : ∀ k, mapFind m.page_translation k ≠ some (p : Int) := by
        intro k hk
        obtain ⟨q, hq, _, hqo⟩ := hocc k _ hk
        have e : p = q := by exact_mod_cast hq
        rw [← e] at hqo
        exact hqo hfree
      constructor
      · intro k v hv
        by_cases hk : k = (coreid, addr >>> (12 : Nat))
        · rw [hk] at hv
          refine ⟨p, hnew v hv, ?_, ?_⟩
          · rw [hpg, List.length_set]
            exact hp
          · rw [hpg, getD_set_self _ _ _ hp]
            exact hc
        · obtain ⟨q, hq, hql, hqo⟩ := hocc k v (hold k v hk hv)
          refine ⟨q, hq, ?_, ?_⟩
          · rw [hpg, List.length_set]
            exact hql
          · have hpq : p ≠ q := by
              intro e
              rw [← e] at hqo
              exact hqo hfree
            rw [hpg, getD_set_ne _ _ _ _ hpq]
            exact hqo
      · intro k1 k2 v h1 h2
        by_cases hk1 : k1 = (coreid, addr >>> (12 : Nat))
        · by_cases hk2 : k2 = (coreid, addr >>> (12 : Nat))
          · rw [hk1, hk2]
          · exfalso
            rw [hk1] at h1
            have hv := hnew v h1
            rw [hv] at h2
            exact hfresh k2 (hold k2 _ hk2 h2)
        · by_cases hk2 : k2 = (coreid, addr >>> (12 : Nat))
          · exfalso
            rw [hk2] at h2
            have hv := hnew v h2
            rw [hv] at h1
            exact hfresh k1 (hold k1 _ hk1 h1)
          · exact hinj k1 k2 v (hold k1 v hk1 h1) (hold k2 v hk2 h2)
  · have e := ehit hmiss
    subst e
    exact ⟨hocc, hinj⟩

/-- The replacement counter does not fall in a completed call. -/
theorem page_allocator_replacement_mono (m : Memory) (addr coreid : Int) (r : Nat) (m1 : Memory)
    (pa : Int) (h : page_allocator m addr coreid r = some (m1, pa))
    (ht : m.translation = Translation.Random) :
    m.physical_page_replacement ≤ m1.physical_page_replacement := by
  obtain ⟨_, _, ehit, _, _⟩ := page_allocator_effect m addr coreid r m1 pa h
  by_cases hmiss : mapFind m.page_translation (coreid, addr >>> (12 : Nat)) = none
  · obtain ⟨p, _, _, _, hcase⟩ := page_allocator_random_miss m addr coreid r m1 pa h ht hmiss
    rcases hcase with ⟨_, hr, _, _, _⟩ | ⟨_, hr, _, _, _⟩ <;> omega
  · have e := ehit hmiss
    subst e
    exact le_refl _

theorem pageAllocatorSeq_replacement_mono (calls : List (Int × Int × Nat)) (m m1 : Memory)
    (h : pageAllocatorSeq m calls = some m1) (ht : m.translation = Translation.Random) :
    m.physical_page_replacement ≤ m1.physical_page_replacement := by
  induction calls generalizing m with
  | nil =>
    simp only [pageAllocatorSeq, Option.some.injEq] at h
    subst h
    exact le_refl _
  | cons c cs ih =>
    simp only [pageAllocatorSeq] at h
    cases hc : page_allocator m c.1 c.2.1 c.2.2 with
    | none => simp [hc] at h
    | some x =>
      obtain ⟨m2, pa⟩ := x
      simp only [hc] at h
      obtain ⟨e1, _, _, _, _⟩ := page_allocator_effect m c.1 c.2.1 c.2.2 m2 pa hc
      exact le_trans (page_allocator_replacement_mono m c.1 c.2.1 c.2.2 m2 pa hc ht)
        (ih m2 h (e1.trans ht))

theorem pageAllocatorSeq_injective (calls : List (Int × Int × Nat)) (m m1 : Memory)
    (h : pageAllocatorSeq m calls = some m1)
    (ht : m.translation = Translation.Random) (hcore : ∀ c ∈ calls, c.2.1 ≠ -1)
    (hrep : m1.physical_page_replacement = 0)
    (hocc : ∀ k v, mapFind m.page_translation k = some v →
      ∃ p : Nat, v = (p : Int) ∧ p < m.free_physical_pages.length ∧
        m.free_physical_pages.getD p 0 ≠ -1)
    (hinj : ∀ k1 k2 v, mapFind m.page_translation k1 = some v →
      mapFind m.page_translation k2 = some v → k1 = k2) :
    ∀ k1 k2 v, mapFind m1.page_translation k1 = some v →
      mapFind m1.page_translation k2 = some v → k1 = k2 := by
  induction calls generalizing m with
  | nil =>
    simp only [pageAllocatorSeq, Option.some.injEq] at h
    subst h
    exact hinj
  | cons c cs ih =>
    simp only [pageAllocatorSeq] at h
    cases hc : page_allocator m c.1 c.2.1 c.2.2 with
    | none => simp [hc] at h
    | some x =>
      obtain ⟨m2, pa⟩ := x
      simp only [hc] at h
      obtain ⟨e1, _, _, _, _⟩ := page_allocator_effect m c.1 c.2.1 c.2.2 m2 pa hc
      have hmono := pageAllocatorSeq_replacement_mono cs m2 m1 h (e1.trans ht)
      obtain ⟨o2, i2⟩ := page_allocator_injective m c.1 c.2.1 c.2.2 m2 pa hc ht
        (hcore c (List.mem_cons_self _ _)) (by omega) hocc hinj
      exact ih m2 h (e1.trans ht) (fun y hy => hcore y (List.mem_cons_of_mem _ hy)) o2 i2

/-- C25. Under the random policy, from an empty table, in every state
reached by completed calls with core ids other than -1 in which
`physical_page_replacement` is still 0, no two distinct keys of the
translation table have the same frame, whatever values are drawn. -/
theorem C25_no_frame_sharing (m : Memory) (calls : List (Int × Int × Nat)) (m1 : Memory)
    (ht : m.translation = Translation.Random)
    (htab : m.page_translation = [])
    (hcore : ∀ c ∈ calls, c.2.1 ≠ -1)
    (hseq : pageAllocatorSeq m calls = some m1)
    (hrep : m1.physical_page_replacement = 0) :
    ∀ k1 k2 v, mapFind m1.page_translation k1 = some v →
      mapFind m1.page_translation k2 = some v → k1 = k2 := by
  apply pageAllocatorSeq_injective calls m m1 hseq ht hcore hrep
  · intro k v hk
    rw [htab] at hk
    simp [mapFind] at hk
  · intro k1 k2 v hk
    rw [htab] at hk
    simp [mapFind] at hk

theorem C25_no_frame_sharing_witness :
    pageAllocatorSeq randomExample threeTouches = some afterThreeTouches ∧
    afterThreeTouches.physical_page_replacement = 0 ∧
    (∀ k1 k2 v, mapFind afterThreeTouches.page_translation k1 = some v →
      mapFind afterThreeTouches.page_translation k2 = some v → k1 = k2) :=
  ⟨by decide, rfl,
    C25_no_frame_sharing randomExample threeTouches afterThreeTouches rfl rfl (by decide)
      (by decide) rfl⟩

end Ramulator
